import Mathlib

/-!
# mackerel-agent, package `mackerel` (api.go): a shallow embedding

The package is a facade over the REST client library `mackerel-client-go`
(imported as `mkr`), Go's `net/url` and `net/http`.  Go values are embedded as
follows.

* a Go `string` is a list of bytes (`GoString`), a byte is a `Fin 256`;
* a Go `int` and a `time.Duration` are an `Int` (nothing here does arithmetic on
  them beyond comparison);
* a pointer to a struct is an `Option` of the struct (`none` is the nil pointer),
  except for `*url.URL`, whose objects live in an explicit heap so that writes
  through a pointer are visible;
* a run-time panic (a nil pointer dereference) is the `none` of an `Option` result;
* what the package calls but does not define (the `mkr` client, the HTTP round
  trip, the request/response dumpers) is a parameter of the function that uses it.
-/

set_option autoImplicit false

namespace mackerel

/-! ## Go strings -/

/-- A byte. -/
abbrev Byte := Fin 256

/-- A Go string: a finite sequence of bytes. -/
abbrev GoString := List Byte

/-- The Go string written by a string literal: its UTF-8 encoding. -/
def bytes (s : String) : GoString :=
  (s.data.flatMap String.utf8EncodeChar).map (fun b => b.val)

/-- The byte comparison `c == x` of Go for an ASCII character literal `x`. -/
def isCh (c : Byte) (x : Char) : Bool := c.val == x.toNat

/-- The byte comparison `lo <= c && c <= hi` of Go for ASCII character literals. -/
def inRange (c : Byte) (lo hi : Char) : Bool := decide (lo.toNat ≤ c.val) && decide (c.val ≤ hi.toNat)

/-! ## Errors (api.go, lines 27-85) -/

/-- The struct `mkr.APIError` of the client library: the two fields api.go reads. -/
structure mkr.APIError where
  StatusCode : Int
  Message : GoString
deriving DecidableEq, Repr

/-- The struct `Error` of api.go. -/
structure Error where
  StatusCode : Int
  Message : GoString
deriving DecidableEq, Repr

/-- The struct `InfoError` of api.go. -/
structure InfoError where
  Message : GoString
deriving DecidableEq, Repr

/-- Why `url.Parse` rejected a string (the error wrapped by `*url.Error`). -/
inductive ParseError where
  | ctlByte
  | missingScheme
  | colonInFirstSegment
  | escapeError (s : GoString)
  | invalidHostError (s : GoString)
  | missingBracket
  | invalidPort (s : GoString)
  | invalidUserinfo
  | emptyURL
  | invalidURIForRequest
deriving DecidableEq, Repr

/-- A value of Go's interface type `error`, by dynamic type.  A pointer type can
hold a nil pointer (`none`), which is still a non-nil interface value. -/
inductive GoError where
  /-- the nil interface value -/
  | nil
  /-- dynamic type `*mkr.APIError` -/
  | mkrAPIError (p : Option mkr.APIError)
  /-- dynamic type `*Error` (api.go) -/
  | apiError (p : Option Error)
  /-- dynamic type `*InfoError` (api.go) -/
  | infoError (p : Option InfoError)
  /-- dynamic type `*url.Error`, as `url.Parse` returns it -/
  | urlError (e : ParseError)
  /-- any other dynamic type: a transport or network error, with its message -/
  | other (msg : GoString)
deriving DecidableEq, Repr

/-- Method `(*Error).IsClientError` (api.go:38): `400 <= StatusCode && StatusCode < 500`;
a nil receiver panics on the field read. -/
def Error.IsClientError (aperr : Option Error) : Option Bool :=
  match aperr with
  | none => none
  | some e => some (decide (400 ≤ e.StatusCode) && decide (e.StatusCode < 500))

/-- Function `IsClientError` (api.go:43): the type assertion `err.(*mkr.APIError)`,
`false` when it fails, else the range test on `e.StatusCode`. -/
def IsClientError (err : GoError) : Option Bool :=
  match err with
  | .mkrAPIError p =>
    match p with
    | none => none
    | some e => some (decide (400 ≤ e.StatusCode) && decide (e.StatusCode < 500))
  | _ => some false

/-- Method `(*Error).IsServerError` (api.go:52). -/
def Error.IsServerError (aperr : Option Error) : Option Bool :=
  match aperr with
  | none => none
  | some e => some (decide (500 ≤ e.StatusCode) && decide (e.StatusCode < 600))

/-- Function `IsServerError` (api.go:57). -/
def IsServerError (err : GoError) : Option Bool :=
  match err with
  | .mkrAPIError p =>
    match p with
    | none => none
    | some e => some (decide (500 ≤ e.StatusCode) && decide (e.StatusCode < 600))
  | _ => some false

/-- Function `apiError` (api.go:65). -/
def apiError (code : Int) (msg : GoString) : Option Error :=
  some { StatusCode := code, Message := msg }

/-- Method `(*InfoError).Error` (api.go:77). -/
def InfoError.Error (e : Option InfoError) : Option GoString :=
  e.map (fun x => x.Message)

/-- Function `infoError` (api.go:81). -/
def infoError (msg : GoString) : Option InfoError :=
  some { Message := msg }

/-! ## strings (standard library) -/

/-- The byte of an ASCII character literal. -/
def ch (x : Char) : Byte := Fin.ofNat x.toNat

/-- Function `strings.HasPrefix`. -/
def strings.HasPrefix (s pre : GoString) : Bool := pre.isPrefixOf s

/-- Function `strings.HasSuffix`. -/
def strings.HasSuffix (s suf : GoString) : Bool := suf.isSuffixOf s

/-- Function `strings.Index`: the first position where `sub` starts in `s`, `none` for -1. -/
def strings.Index : GoString → GoString → Option Nat
  | [], sub => if sub = [] then some 0 else none
  | c :: s, sub =>
    if sub.isPrefixOf (c :: s) then some 0
    else (strings.Index s sub).map (fun i => i + 1)

/-- Function `strings.LastIndex`: the last position where `sub` starts in `s`. -/
def strings.LastIndex : GoString → GoString → Option Nat
  | [], sub => if sub = [] then some 0 else none
  | c :: s, sub =>
    match strings.LastIndex s sub with
    | some i => some (i + 1)
    | none => if sub.isPrefixOf (c :: s) then some 0 else none

/-- Function `strings.Contains`. -/
def strings.Contains (s sub : GoString) : Bool := (strings.Index s sub).isSome

/-- Function `strings.Count` for a one-byte separator. -/
def strings.Count (s : GoString) (c : Byte) : Nat := s.count c

/-- Function `strings.Cut`: `before`, `after` and `found`. -/
def strings.Cut (s sep : GoString) : GoString × GoString × Bool :=
  match strings.Index s sep with
  | some i => (s.take i, s.drop (i + sep.length), true)
  | none => (s, [], false)

/-- Function `strings.ToLower` on ASCII text (net/url applies it to a scheme, which
`getScheme` restricts to ASCII letters, digits, `+`, `-` and `.`). -/
def strings.ToLower (s : GoString) : GoString :=
  s.map (fun c => if inRange c 'A' 'Z' then c + 32 else c)

/-! ## net/url (standard library, go1.21): `Parse` and `(*URL).String` -/

/-- Type `url.Userinfo`. -/
structure url.Userinfo where
  username : GoString
  password : GoString := []
  passwordSet : Bool := false
deriving DecidableEq, Repr

/-- Type `url.URL`. -/
structure url.URL where
  Scheme : GoString := []
  Opaque : GoString := []
  User : Option url.Userinfo := none
  Host : GoString := []
  Path : GoString := []
  RawPath : GoString := []
  OmitHost : Bool := false
  ForceQuery : Bool := false
  RawQuery : GoString := []
  Fragment : GoString := []
  RawFragment : GoString := []
deriving DecidableEq, Repr

/-- Type `url.encoding`. -/
inductive url.encoding where
  | encodePath
  | encodePathSegment
  | encodeHost
  | encodeZone
  | encodeUserPassword
  | encodeQueryComponent
  | encodeFragment
deriving DecidableEq, Repr

open url.encoding in
/-- Function `url.shouldEscape`. -/
def url.shouldEscape (c : Byte) (mode : url.encoding) : Bool :=
  if inRange c 'a' 'z' || inRange c 'A' 'Z' || inRange c '0' '9' then false
  else if (mode = encodeHost || mode = encodeZone) &&
      (isCh c '!' || isCh c '$' || isCh c '&' || isCh c '\'' || isCh c '(' || isCh c ')' ||
       isCh c '*' || isCh c '+' || isCh c ',' || isCh c ';' || isCh c '=' || isCh c ':' ||
       isCh c '[' || isCh c ']' || isCh c '<' || isCh c '>' || isCh c '"') then false
  else if isCh c '-' || isCh c '_' || isCh c '.' || isCh c '~' then false
  else if (isCh c '$' || isCh c '&' || isCh c '+' || isCh c ',' || isCh c '/' || isCh c ':' ||
       isCh c ';' || isCh c '=' || isCh c '?' || isCh c '@') &&
      (mode = encodePath || mode = encodePathSegment || mode = encodeUserPassword ||
       mode = encodeQueryComponent || mode = encodeFragment) then
    match mode with
    | encodePath => isCh c '?'
    | encodePathSegment => isCh c '/' || isCh c ';' || isCh c ',' || isCh c '?'
    | encodeUserPassword => isCh c '@' || isCh c '/' || isCh c '?' || isCh c ':'
    | encodeQueryComponent => true
    | _ => false
  else if mode = encodeFragment && (isCh c '!' || isCh c '(' || isCh c ')' || isCh c '*') then
    false
  else true

/-- Function `url.ishex`. -/
def url.ishex (c : Byte) : Bool :=
  inRange c '0' '9' || inRange c 'a' 'f' || inRange c 'A' 'F'

/-- Function `url.unhex`. -/
def url.unhex (c : Byte) : Byte :=
  if inRange c '0' '9' then c - ch '0'
  else if inRange c 'a' 'f' then c - ch 'a' + 10
  else if inRange c 'A' 'F' then c - ch 'A' + 10
  else 0

open url.encoding in
/-- The first loop of `url.unescape`: the number of `%` and whether a `+` stands for
a space, or the error of a malformed escape or an invalid host byte. -/
def url.unescapeCheck (mode : url.encoding) :
    GoString → Nat → Bool → Except ParseError (Nat × Bool)
  | [], n, hasPlus => .ok (n, hasPlus)
  | c :: rest, n, hasPlus =>
    if isCh c '%' then
      match rest with
      | c1 :: c2 :: rest2 =>
        if !url.ishex c1 || !url.ishex c2 then .error (.escapeError [c, c1, c2])
        else if mode = encodeHost && decide ((url.unhex c1).val < 8) &&
            [c, c1, c2] ≠ bytes "%25" then
          .error (.escapeError [c, c1, c2])
        else if mode = encodeZone && [c, c1, c2] ≠ bytes "%25" &&
            !isCh (url.unhex c1 * 16 + url.unhex c2) ' ' &&
            url.shouldEscape (url.unhex c1 * 16 + url.unhex c2) encodeHost then
          .error (.escapeError [c, c1, c2])
        else url.unescapeCheck mode rest2 (n + 1) hasPlus
      | _ => .error (.escapeError (c :: rest))
    else if isCh c '+' then
      url.unescapeCheck mode rest n (mode = encodeQueryComponent)
    else if (mode = encodeHost || mode = encodeZone) && decide (c.val < 0x80) &&
        url.shouldEscape c encodeHost then
      .error (.invalidHostError [c])
    else url.unescapeCheck mode rest n hasPlus

open url.encoding in
/-- The second loop of `url.unescape`: the decoded bytes. -/
def url.unescapeBuild (mode : url.encoding) : GoString → GoString
  | [] => []
  | c :: rest =>
    if isCh c '%' then
      match rest with
      | c1 :: c2 :: rest2 => (url.unhex c1 * 16 + url.unhex c2) :: url.unescapeBuild mode rest2
      | _ => []
    else if isCh c '+' then
      (if mode = encodeQueryComponent then ch ' ' else ch '+') :: url.unescapeBuild mode rest
    else c :: url.unescapeBuild mode rest

/-- Function `url.unescape`. -/
def url.unescape (s : GoString) (mode : url.encoding) : Except ParseError GoString :=
  match url.unescapeCheck mode s 0 false with
  | .error e => .error e
  | .ok (n, hasPlus) => if n = 0 && !hasPlus then .ok s else .ok (url.unescapeBuild mode s)

/-- The digit `"0123456789ABCDEF"[n]`. -/
def url.upperhex (n : Nat) : Byte :=
  if n < 10 then Fin.ofNat (48 + n) else Fin.ofNat (55 + n)

open url.encoding in
/-- Function `url.escape`. -/
def url.escape (s : GoString) (mode : url.encoding) : GoString :=
  let spaceCount := s.countP (fun c =>
    url.shouldEscape c mode && (isCh c ' ' && mode = encodeQueryComponent))
  let hexCount := s.countP (fun c =>
    url.shouldEscape c mode && !(isCh c ' ' && mode = encodeQueryComponent))
  if spaceCount = 0 && hexCount = 0 then s
  else s.flatMap (fun c =>
    if url.shouldEscape c mode then
      if isCh c ' ' && mode = encodeQueryComponent then [ch '+']
      else [ch '%', url.upperhex (c.val / 16), url.upperhex (c.val % 16)]
    else [c])

/-- The loop of `url.getScheme` at index `i`, over the bytes from `i` on. -/
def url.getSchemeLoop (rawURL : GoString) : Nat → GoString → Except ParseError (GoString × GoString)
  | _, [] => .ok ([], rawURL)
  | i, c :: rest =>
    if inRange c 'a' 'z' || inRange c 'A' 'Z' then url.getSchemeLoop rawURL (i + 1) rest
    else if inRange c '0' '9' || isCh c '+' || isCh c '-' || isCh c '.' then
      if i = 0 then .ok ([], rawURL) else url.getSchemeLoop rawURL (i + 1) rest
    else if isCh c ':' then
      if i = 0 then .error .missingScheme else .ok (rawURL.take i, rawURL.drop (i + 1))
    else .ok ([], rawURL)

/-- Function `url.getScheme`: the scheme and the rest after the colon. -/
def url.getScheme (rawURL : GoString) : Except ParseError (GoString × GoString) :=
  url.getSchemeLoop rawURL 0 rawURL

/-- Function `url.stringContainsCTLByte`. -/
def url.stringContainsCTLByte (s : GoString) : Bool :=
  s.any (fun b => decide (b.val < 0x20) || decide (b.val = 0x7f))

/-- Function `url.validOptionalPort`. -/
def url.validOptionalPort (port : GoString) : Bool :=
  match port with
  | [] => true
  | c :: digits => isCh c ':' && digits.all (fun b => inRange b '0' '9')

/-- Function `url.validUserinfo`. -/
def url.validUserinfo (s : GoString) : Bool :=
  s.all (fun r =>
    inRange r 'A' 'Z' || inRange r 'a' 'z' || inRange r '0' '9' ||
    isCh r '-' || isCh r '.' || isCh r '_' || isCh r ':' || isCh r '~' || isCh r '!' ||
    isCh r '$' || isCh r '&' || isCh r '\'' || isCh r '(' || isCh r ')' || isCh r '*' ||
    isCh r '+' || isCh r ',' || isCh r ';' || isCh r '=' || isCh r '%' || isCh r '@')

open url.encoding in
/-- Function `url.parseHost`. -/
def url.parseHost (host : GoString) : Except ParseError GoString :=
  if strings.HasPrefix host (bytes "[") then
    match strings.LastIndex host (bytes "]") with
    | none => .error .missingBracket
    | some i =>
      if !url.validOptionalPort (host.drop (i + 1)) then .error (.invalidPort (host.drop (i + 1)))
      else
        match strings.Index (host.take i) (bytes "%25") with
        | some zone =>
          match url.unescape (host.take zone) encodeHost with
          | .error e => .error e
          | .ok host1 =>
            match url.unescape ((host.take i).drop zone) encodeZone with
            | .error e => .error e
            | .ok host2 =>
              match url.unescape (host.drop i) encodeHost with
              | .error e => .error e
              | .ok host3 => .ok (host1 ++ host2 ++ host3)
        | none => url.unescape host encodeHost
  else
    match strings.LastIndex host (bytes ":") with
    | some i =>
      if !url.validOptionalPort (host.drop i) then .error (.invalidPort (host.drop i))
      else url.unescape host encodeHost
    | none => url.unescape host encodeHost

open url.encoding in
/-- Function `url.parseAuthority`. -/
def url.parseAuthority (authority : GoString) :
    Except ParseError (Option url.Userinfo × GoString) :=
  match strings.LastIndex authority (bytes "@") with
  | none =>
    match url.parseHost authority with
    | .error e => .error e
    | .ok host => .ok (none, host)
  | some i =>
    match url.parseHost (authority.drop (i + 1)) with
    | .error e => .error e
    | .ok host =>
      let userinfo := authority.take i
      if !url.validUserinfo userinfo then .error .invalidUserinfo
      else if !strings.Contains userinfo (bytes ":") then
        match url.unescape userinfo encodeUserPassword with
        | .error e => .error e
        | .ok username => .ok (some { username := username }, host)
      else
        match url.unescape (strings.Cut userinfo (bytes ":")).1 encodeUserPassword with
        | .error e => .error e
        | .ok username =>
          match url.unescape (strings.Cut userinfo (bytes ":")).2.1 encodeUserPassword with
          | .error e => .error e
          | .ok password =>
            .ok (some { username := username, password := password, passwordSet := true }, host)

open url.encoding in
/-- Method `(*URL).setPath`. -/
def url.URL.setPath (u : url.URL) (p : GoString) : Except ParseError url.URL :=
  match url.unescape p encodePath with
  | .error e => .error e
  | .ok path =>
    .ok { u with Path := path, RawPath := if p = url.escape path encodePath then [] else p }

open url.encoding in
/-- Method `(*URL).setFragment`. -/
def url.URL.setFragment (u : url.URL) (f : GoString) : Except ParseError url.URL :=
  match url.unescape f encodeFragment with
  | .error e => .error e
  | .ok frag =>
    .ok { u with Fragment := frag,
                 RawFragment := if f = url.escape frag encodeFragment then [] else f }

/-- Function `url.parse`. -/
def url.parse (rawURL : GoString) (viaRequest : Bool) : Except ParseError url.URL :=
  if url.stringContainsCTLByte rawURL then .error .ctlByte
  else if rawURL = [] && viaRequest then .error .emptyURL
  else if rawURL = bytes "*" then .ok { Path := bytes "*" }
  else
    match url.getScheme rawURL with
    | .error e => .error e
    | .ok (scheme0, rest0) =>
      let scheme := strings.ToLower scheme0
      let forceQuery : Bool :=
        strings.HasSuffix rest0 (bytes "?") && strings.Count rest0 (ch '?') = 1
      let rest : GoString :=
        if forceQuery then rest0.take (rest0.length - 1) else (strings.Cut rest0 (bytes "?")).1
      let rawQuery : GoString :=
        if forceQuery then [] else (strings.Cut rest0 (bytes "?")).2.1
      if !strings.HasPrefix rest (bytes "/") && scheme ≠ [] then
        .ok { Scheme := scheme, Opaque := rest, ForceQuery := forceQuery, RawQuery := rawQuery }
      else if !strings.HasPrefix rest (bytes "/") && viaRequest then .error .invalidURIForRequest
      else if !strings.HasPrefix rest (bytes "/") &&
          strings.Contains (strings.Cut rest (bytes "/")).1 (bytes ":") then
        .error .colonInFirstSegment
      else if (scheme ≠ [] || (!viaRequest && !strings.HasPrefix rest (bytes "///"))) &&
          strings.HasPrefix rest (bytes "//") then
        let authority0 := rest.drop 2
        let authority : GoString :=
          match strings.Index authority0 (bytes "/") with
          | some i => authority0.take i
          | none => authority0
        let rest1 : GoString :=
          match strings.Index authority0 (bytes "/") with
          | some i => authority0.drop i
          | none => []
        match url.parseAuthority authority with
        | .error e => .error e
        | .ok (user, host) =>
          url.URL.setPath
            { Scheme := scheme, User := user, Host := host, ForceQuery := forceQuery,
              RawQuery := rawQuery } rest1
      else
        url.URL.setPath
          { Scheme := scheme, OmitHost := (scheme ≠ [] && strings.HasPrefix rest (bytes "/")),
            ForceQuery := forceQuery, RawQuery := rawQuery } rest

/-- Function `url.Parse`, on values: the URL that the returned pointer points to, or
the error. -/
def url.Parse (rawURL : GoString) : Except ParseError url.URL :=
  match url.parse (strings.Cut rawURL (bytes "#")).1 false with
  | .error e => .error e
  | .ok u =>
    if (strings.Cut rawURL (bytes "#")).2.1 = [] then .ok u
    else u.setFragment (strings.Cut rawURL (bytes "#")).2.1

open url.encoding in
/-- Function `url.validEncoded`. -/
def url.validEncoded (s : GoString) (mode : url.encoding) : Bool :=
  s.all (fun c =>
    isCh c '!' || isCh c '$' || isCh c '&' || isCh c '\'' || isCh c '(' || isCh c ')' ||
    isCh c '*' || isCh c '+' || isCh c ',' || isCh c ';' || isCh c '=' || isCh c ':' ||
    isCh c '@' || isCh c '[' || isCh c ']' || isCh c '%' || !url.shouldEscape c mode)

open url.encoding in
/-- Method `(*URL).EscapedPath`. -/
def url.URL.EscapedPath (u : url.URL) : GoString :=
  if u.RawPath ≠ [] && url.validEncoded u.RawPath encodePath &&
      (match url.unescape u.RawPath encodePath with
        | .ok p => decide (p = u.Path)
        | .error _ => false) then u.RawPath
  else if u.Path = bytes "*" then bytes "*"
  else url.escape u.Path encodePath

open url.encoding in
/-- Method `(*URL).EscapedFragment`. -/
def url.URL.EscapedFragment (u : url.URL) : GoString :=
  if u.RawFragment ≠ [] && url.validEncoded u.RawFragment encodeFragment &&
      (match url.unescape u.RawFragment encodeFragment with
        | .ok f => decide (f = u.Fragment)
        | .error _ => false) then u.RawFragment
  else url.escape u.Fragment encodeFragment

open url.encoding in
/-- Method `(*Userinfo).String`. -/
def url.Userinfo.String (u : url.Userinfo) : GoString :=
  url.escape u.username encodeUserPassword ++
    (if u.passwordSet then bytes ":" ++ url.escape u.password encodeUserPassword else [])

open url.encoding in
/-- Method `(*URL).String`, on the value the receiver points to. -/
def url.URL.String (u : url.URL) : GoString :=
  let scheme : GoString := if u.Scheme ≠ [] then u.Scheme ++ bytes ":" else []
  let body : GoString :=
    if u.Opaque ≠ [] then scheme ++ u.Opaque
    else
      let authority : GoString :=
        if u.Scheme ≠ [] || u.Host ≠ [] || u.User.isSome then
          if u.OmitHost && u.Host = [] && u.User.isNone then []
          else
            (if u.Host ≠ [] || u.Path ≠ [] || u.User.isSome then bytes "//" else []) ++
            (match u.User with
              | some ui => ui.String ++ bytes "@"
              | none => []) ++
            (if u.Host ≠ [] then url.escape u.Host encodeHost else [])
        else []
      let path := u.EscapedPath
      let buf : GoString := scheme ++ authority
      let buf1 : GoString :=
        if path ≠ [] && path.head? ≠ some (ch '/') && u.Host ≠ [] then buf ++ bytes "/" else buf
      let buf2 : GoString :=
        if buf1 = [] && strings.Contains (strings.Cut path (bytes "/")).1 (bytes ":") then
          buf1 ++ bytes "./"
        else buf1
      buf2 ++ path
  let query : GoString :=
    if u.ForceQuery || u.RawQuery ≠ [] then bytes "?" ++ u.RawQuery else []
  let fragment : GoString :=
    if u.Fragment ≠ [] then bytes "#" ++ u.EscapedFragment else []
  body ++ query ++ fragment

/-! ## The heap of URL objects -/

/-- The `url.URL` objects allocated so far; a `*url.URL` is `none` (nil) or the
index of an object. -/
structure Heap where
  urls : List url.URL
deriving DecidableEq, Repr

/-- The object a pointer points to; `none` for the nil pointer. -/
def Heap.deref (h : Heap) (p : Option Nat) : Option url.URL :=
  p.bind (fun a => h.urls[a]?)

/-- A write through a pointer; `none` (a panic) for the nil pointer. -/
def Heap.update (h : Heap) (p : Option Nat) (f : url.URL → url.URL) : Option Heap :=
  match h.deref p, p with
  | some u, some a => some ⟨h.urls.set a (f u)⟩
  | _, _ => none

/-- Function `url.Parse` with its allocation: on success the URL is a new object
and the pointer to it is returned with a nil error; on failure the pointer is nil. -/
def Heap.Parse (h : Heap) (rawURL : GoString) : (Option Nat × GoError) × Heap :=
  match url.Parse rawURL with
  | .error e => ((none, .urlError e), h)
  | .ok u => ((some h.urls.length, .nil), ⟨h.urls ++ [u]⟩)

/-! ## net/http, net/textproto (standard library): headers, requests, clients -/

/-- Function `validHeaderFieldByte` of net/textproto: the `tchar` of RFC 7230. -/
def validHeaderFieldByte (c : Byte) : Bool :=
  inRange c 'a' 'z' || inRange c 'A' 'Z' || inRange c '0' '9' ||
  isCh c '!' || isCh c '#' || isCh c '$' || isCh c '%' || isCh c '&' || isCh c '\'' ||
  isCh c '*' || isCh c '+' || isCh c '-' || isCh c '.' || isCh c '^' || isCh c '_' ||
  isCh c '\x60' || isCh c '|' || isCh c '~'

/-- The second loop of `canonicalMIMEHeaderKey`: upper case at the start and after
each dash, lower case elsewhere. -/
def canonLoop : Bool → GoString → GoString
  | _, [] => []
  | upper, c :: rest =>
    let c1 : Byte :=
      if upper && inRange c 'a' 'z' then c - 32
      else if !upper && inRange c 'A' 'Z' then c + 32
      else c
    c1 :: canonLoop (isCh c1 '-') rest

/-- Function `canonicalMIMEHeaderKey` of net/textproto: a key holding a byte that is
no `tchar` comes back unchanged (`ok` is false unless every such byte is a space). -/
def canonicalMIMEHeaderKey (a : GoString) : GoString × Bool :=
  if a.any (fun c => !validHeaderFieldByte c && !isCh c ' ') then (a, false)
  else if a.any (fun c => !validHeaderFieldByte c) then (a, true)
  else (canonLoop true a, true)

/-- The loop of `CanonicalMIMEHeaderKey` ("quick check for canonical encoding"). -/
def canonicalQuickCheck (s : GoString) : Bool → GoString → GoString
  | _, [] => s
  | upper, c :: rest =>
    if !validHeaderFieldByte c then s
    else if upper && inRange c 'a' 'z' then (canonicalMIMEHeaderKey s).1
    else if !upper && inRange c 'A' 'Z' then (canonicalMIMEHeaderKey s).1
    else canonicalQuickCheck s (isCh c '-') rest

/-- Function `textproto.CanonicalMIMEHeaderKey`. -/
def CanonicalMIMEHeaderKey (s : GoString) : GoString :=
  canonicalQuickCheck s true s

/-- Type `http.Header`, a `map[string][]string`: its entries, in the order a
`range` visits them.  A key is looked up at its first entry. -/
structure http.Header where
  entries : List (GoString × List GoString)
deriving DecidableEq, Repr

/-- The map read on the entries: the value of the first entry with the key, the
nil slice when there is none. -/
def lookupEntries : List (GoString × List GoString) → GoString → List GoString
  | [], _ => []
  | e :: es, key => if e.1 = key then e.2 else lookupEntries es key

/-- The map write on the entries: the entry with the key is replaced in place, a new
key gets a new entry. -/
def storeEntries : List (GoString × List GoString) → GoString → List GoString →
    List (GoString × List GoString)
  | [], key, vs => [(key, vs)]
  | e :: es, key, vs => if e.1 = key then (key, vs) :: es else e :: storeEntries es key vs

/-- The map read `h[key]`. -/
def http.Header.lookup (h : http.Header) (key : GoString) : List GoString :=
  lookupEntries h.entries key

/-- The map write `h[key] = vs`. -/
def http.Header.store (h : http.Header) (key : GoString) (vs : List GoString) : http.Header :=
  ⟨storeEntries h.entries key vs⟩

/-- Method `Header.Add`: `key = CanonicalMIMEHeaderKey(key); h[key] = append(h[key], value)`. -/
def http.Header.Add (h : http.Header) (key value : GoString) : http.Header :=
  let k := CanonicalMIMEHeaderKey key
  h.store k (h.lookup k ++ [value])

/-- Method `Header.Set`: `h[CanonicalMIMEHeaderKey(key)] = []string{value}`. -/
def http.Header.Set (h : http.Header) (key value : GoString) : http.Header :=
  h.store (CanonicalMIMEHeaderKey key) [value]

/-- Method `Header.Get`: the first value under the canonical key, or `""`. -/
def http.Header.Get (h : http.Header) (key : GoString) : GoString :=
  match h.lookup (CanonicalMIMEHeaderKey key) with
  | [] => []
  | v :: _ => v

/-- Type `http.Request`: the fields a request built by `http.NewRequest` carries
into `do` (`URL` is the request URL in string form). -/
structure http.Request where
  Method : GoString
  URL : GoString
  Header : http.Header
  Body : GoString
deriving DecidableEq, Repr

/-- Type `http.Response`. -/
structure http.Response where
  StatusCode : Int
  Header : http.Header
  Body : GoString
deriving DecidableEq, Repr

/-- Type `http.Client`: the one field api.go writes, `Timeout`, a `time.Duration`
in nanoseconds (zero means no timeout). -/
structure http.Client where
  Timeout : Int
deriving DecidableEq, Repr

/-- Constant `time.Second`. -/
def time.Second : Int := 1000000000

/-- What `do` calls outside the package: `(*http.Client).Do`, `httputil.DumpRequest`
and `httputil.DumpResponse`. -/
structure Env where
  Do : http.Client → http.Request → Option http.Response × GoError
  DumpRequest : http.Request → Bool → GoString × GoError
  DumpResponse : http.Response → Bool → GoString × GoError

/-! ## The client library `mkr` (external) -/

/-- The types of the client library that api.go passes through unread. -/
structure MkrTypes where
  Host : Type
  CreateHostParam : Type
  UpdateHostParam : Type
  HostMetricValue : Type
  GraphDefsParam : Type

/-- The struct `mkr.FindHostsParam`. -/
structure mkr.FindHostsParam where
  Service : GoString := []
  Roles : List GoString := []
  Name : GoString := []
  Statuses : List GoString := []
  CustomIdentifier : GoString := []
deriving DecidableEq, Repr

/-- The struct `mkr.Client` as api.go uses it: its field `HTTPClient` (named by the
line NewAPI comments out) and the eight methods the facade delegates to, each a
function from its arguments to its results. -/
structure mkr.Client (T : MkrTypes) where
  HTTPClient : http.Client
  FindHost : GoString → Option T.Host × GoError
  FindHosts : mkr.FindHostsParam → List (Option T.Host) × GoError
  CreateHost : Option T.CreateHostParam → GoString × GoError
  UpdateHost : GoString → Option T.UpdateHostParam → GoString × GoError
  UpdateHostStatus : GoString → GoString → GoError
  PostHostMetricValues : List (Option T.HostMetricValue) → GoError
  CreateGraphDefs : List (Option T.GraphDefsParam) → GoError
  RetireHost : GoString → GoError

/-- Modelled from the spec: the constructor `mkr.NewClientWithOptions` of the client
library, which `NewAPI` calls (api.go:93) and which is not under src/.  Spec 4.1:
"Build an underlying REST client bound to the same base URL/key/verbose flag" and
"Apply a fixed request timeout (30 seconds) to the underlying transport for every
call"; spec 5: "Each operation may block for up to the fixed timeout (30s) while
waiting on the network".  The client it returns answers as `remote` does (the remote
service behind it) and issues its requests on an HTTP client with that timeout. -/
def mkr.NewClientWithOptions {T : MkrTypes} (remote : mkr.Client T)
    (_apikey _rawurl : GoString) (_verbose : Bool) : Option (mkr.Client T) × GoError :=
  (some { remote with HTTPClient := { Timeout := 30 * time.Second } }, .nil)

/-- A method call on the client. -/
inductive Call (T : MkrTypes) where
  | FindHost (id : GoString)
  | FindHosts (param : mkr.FindHostsParam)
  | CreateHost (hostParam : Option T.CreateHostParam)
  | UpdateHost (hostID : GoString) (hostParam : Option T.UpdateHostParam)
  | UpdateHostStatus (hostID status : GoString)
  | PostHostMetricValues (metricsValues : List (Option T.HostMetricValue))
  | CreateGraphDefs (payloads : List (Option T.GraphDefsParam))
  | RetireHost (hostID : GoString)

/-- What a facade method does outside the package, in order. -/
inductive Effect (T : MkrTypes) where
  /-- a method of `api.c`; the library issues its request on the client's
  `HTTPClient`, recorded in `client` -/
  | clientCall (client : http.Client) (call : Call T)
  /-- `client.Do(req)` on the `http.Client` that `do` builds -/
  | httpDo (client : http.Client) (req : http.Request)
  /-- `logger.Tracef("%s", dump)` -/
  | tracef (dump : GoString)

/-- The HTTP client a remote call is issued on (none for a log line). -/
def Effect.issuedOn {T : MkrTypes} : Effect T → Option http.Client
  | .clientCall client _ => some client
  | .httpDo client _ => some client
  | .tracef _ => none

/-! ## The facade (api.go, lines 16-25 and 102-207) -/

/-- The struct `API` (api.go:17).  `BaseURL` is a pointer into the heap of URL
objects, `DefaultHeaders` a map that may be nil, `c` a pointer to the client. -/
structure API (T : MkrTypes) where
  BaseURL : Option Nat
  APIKey : GoString
  Verbose : Bool
  UA : GoString := []
  DefaultHeaders : Option http.Header := none
  c : Option (mkr.Client T)

/-- Method `getUA` (api.go:109). -/
def API.getUA {T : MkrTypes} (api : API T) : GoString :=
  if api.UA ≠ [] then api.UA else bytes "mackerel-agent/0.0.0"

/-- Variable `apiRequestTimeout` (api.go:116), never assigned after its declaration. -/
def apiRequestTimeout : Int := 30 * time.Second

/-- Lines 119-127 of `do`: the header of the request after the default headers are
added (`range` over the map, `Add` for each value), `X-Api-Key` is added and
`User-Agent` is set. -/
def API.doHeader {T : MkrTypes} (api : API T) (header : http.Header) : http.Header :=
  let h1 :=
    match api.DefaultHeaders with
    | none => header
    | some dh =>
      dh.entries.foldl
        (fun (h : http.Header) (e : GoString × List GoString) =>
          e.2.foldl (fun (h : http.Header) (v : GoString) => h.Add e.1 v) h)
        header
  let h2 := h1.Add (bytes "X-Api-Key") api.APIKey
  h2.Set (bytes "User-Agent") api.getUA

/-- Lines 131-133 and 144-146 of `do`: the dump is logged when the dumper returned
no error, and dropped otherwise. -/
def logDump {T : MkrTypes} (dumped : GoString × GoError) : List (Effect T) :=
  if dumped.2 = .nil then [.tracef dumped.1] else []

/-- Method `do` (api.go:118).  The first component is the effects in order; the
second the returned pair, or `none` for the panic of `DumpResponse` on a nil
response (which `client.Do` does not return together with a nil error). -/
def API.do {T : MkrTypes} (env : Env) (api : API T) (req : http.Request) :
    List (Effect T) × Option (Option http.Response × GoError) :=
  let req1 : http.Request := { req with Header := api.doHeader req.Header }
  let t1 : List (Effect T) := if api.Verbose then logDump (env.DumpRequest req1 true) else []
  let client : http.Client := { Timeout := apiRequestTimeout }
  let out := env.Do client req1
  if out.2 ≠ .nil then (t1 ++ [.httpDo client req1], some (none, out.2))
  else if api.Verbose then
    match out.1 with
    | none => (t1 ++ [.httpDo client req1], none)
    | some r => (t1 ++ [.httpDo client req1] ++ logDump (env.DumpResponse r true), some (out.1, .nil))
  else (t1 ++ [.httpDo client req1], some (out.1, .nil))

/-- The requests among a list of effects that were handed to `client.Do`. -/
def sentRequests {T : MkrTypes} (trace : List (Effect T)) : List http.Request :=
  trace.filterMap (fun e => match e with
    | .httpDo _ req => some req
    | _ => none)

/-- Method `FindHost` (api.go:158). -/
def API.FindHost {T : MkrTypes} (api : API T) (id : GoString) :
    Option (List (Effect T) × (Option T.Host × GoError)) :=
  api.c.map (fun c => ([.clientCall c.HTTPClient (.FindHost id)], c.FindHost id))

/-- Method `FindHostByCustomIdentifier` (api.go:163). -/
def API.FindHostByCustomIdentifier {T : MkrTypes} (api : API T) (customIdentifier : GoString) :
    Option (List (Effect T) × (Option T.Host × GoError)) :=
  let param : mkr.FindHostsParam :=
    { CustomIdentifier := customIdentifier
      Statuses := [bytes "working", bytes "standby", bytes "maintenance", bytes "poweroff"] }
  api.c.map (fun c =>
    ([.clientCall c.HTTPClient (.FindHosts param)],
      match c.FindHosts param with
      | (hosts, err) =>
        if err ≠ .nil then (none, err)
        else
          match hosts with
          | [] =>
            (none, .infoError (infoError
              (bytes "no host was found for the custom identifier: " ++ customIdentifier)))
          | host :: _ => (host, .nil)))

/-- Method `CreateHost` (api.go:179). -/
def API.CreateHost {T : MkrTypes} (api : API T) (hostParam : Option T.CreateHostParam) :
    Option (List (Effect T) × (GoString × GoError)) :=
  api.c.map (fun c => ([.clientCall c.HTTPClient (.CreateHost hostParam)], c.CreateHost hostParam))

/-- Method `UpdateHost` (api.go:184): the client's first result is dropped. -/
def API.UpdateHost {T : MkrTypes} (api : API T) (hostID : GoString)
    (hostParam : Option T.UpdateHostParam) : Option (List (Effect T) × GoError) :=
  api.c.map (fun c =>
    ([.clientCall c.HTTPClient (.UpdateHost hostID hostParam)], (c.UpdateHost hostID hostParam).2))

/-- Method `UpdateHostStatus` (api.go:190). -/
def API.UpdateHostStatus {T : MkrTypes} (api : API T) (hostID status : GoString) :
    Option (List (Effect T) × GoError) :=
  api.c.map (fun c =>
    ([.clientCall c.HTTPClient (.UpdateHostStatus hostID status)], c.UpdateHostStatus hostID status))

/-- Method `PostMetricValues` (api.go:195). -/
def API.PostMetricValues {T : MkrTypes} (api : API T)
    (metricsValues : List (Option T.HostMetricValue)) : Option (List (Effect T) × GoError) :=
  api.c.map (fun c =>
    ([.clientCall c.HTTPClient (.PostHostMetricValues metricsValues)],
      c.PostHostMetricValues metricsValues))

/-- Method `CreateGraphDefs` (api.go:200). -/
def API.CreateGraphDefs {T : MkrTypes} (api : API T)
    (payloads : List (Option T.GraphDefsParam)) : Option (List (Effect T) × GoError) :=
  api.c.map (fun c =>
    ([.clientCall c.HTTPClient (.CreateGraphDefs payloads)], c.CreateGraphDefs payloads))

/-- Method `RetireHost` (api.go:205). -/
def API.RetireHost {T : MkrTypes} (api : API T) (hostID : GoString) :
    Option (List (Effect T) × GoError) :=
  api.c.map (fun c => ([.clientCall c.HTTPClient (.RetireHost hostID)], c.RetireHost hostID))

/-- The values the default headers hold under the names whose canonical form is
`key`, in the order `range` visits them. -/
def API.defaultValues {T : MkrTypes} (api : API T) (key : GoString) : List GoString :=
  match api.DefaultHeaders with
  | none => []
  | some dh => (dh.entries.filter (fun e => CanonicalMIMEHeaderKey e.1 = key)).flatMap (fun e => e.2)

/-- Function `NewAPI` (api.go:88).  `NewClientWithOptions` is the constructor of the
client library; the timeout line is commented out in the source (api.go:97-98), so
the client is stored as the library returned it. -/
def NewAPI {T : MkrTypes}
    (NewClientWithOptions : GoString → GoString → Bool → Option (mkr.Client T) × GoError)
    (h : Heap) (rawurl apiKey : GoString) (verbose : Bool) :
    (Option (API T) × GoError) × Heap :=
  match h.Parse rawurl with
  | ((u, err), h1) =>
    if err ≠ .nil then ((none, err), h1)
    else
      match NewClientWithOptions apiKey rawurl verbose with
      | (c, err) =>
        if err ≠ .nil then ((none, err), h1)
        else ((some { BaseURL := u, APIKey := apiKey, Verbose := verbose, c := c }, .nil), h1)

/-- Method `urlFor` (api.go:102): `url.Parse(api.BaseURL.String())` with its error
dropped, then the writes `newURL.Path = path` and `newURL.RawQuery = query`.  The
result is the returned pointer and the heap after the call; `none` is a panic (a nil
`BaseURL`, or a nil `newURL` after a failed parse). -/
def API.urlFor {T : MkrTypes} (api : API T) (h : Heap) (path query : GoString) :
    Option (Option Nat × Heap) :=
  match h.deref api.BaseURL with
  | none => none
  | some base =>
    match h.Parse base.String with
    | ((newURL, _), h1) =>
      match h1.update newURL (fun u => { u with Path := path }) with
      | none => none
      | some h2 =>
        match h2.update newURL (fun u => { u with RawQuery := query }) with
        | none => none
        | some h3 => some (newURL, h3)

/-- The sequence of TestNewAPI: `NewAPI(rawurl, apiKey, verbose)` on an empty heap,
then `api.BaseURL.String()`. -/
def baseURLString {T : MkrTypes}
    (NewClientWithOptions : GoString → GoString → Bool → Option (mkr.Client T) × GoError)
    (rawurl apiKey : GoString) (verbose : Bool) : Option GoString :=
  match NewAPI NewClientWithOptions ⟨[]⟩ rawurl apiKey verbose with
  | ((some api, _), h1) => (h1.deref api.BaseURL).map url.URL.String
  | _ => none

/-- The sequence of TestUrlFor: `NewAPI(rawurl, apiKey, verbose)` on an empty heap,
then `api.urlFor(path, query).String()`. -/
def urlForString {T : MkrTypes}
    (NewClientWithOptions : GoString → GoString → Bool → Option (mkr.Client T) × GoError)
    (rawurl apiKey : GoString) (verbose : Bool) (path query : GoString) : Option GoString :=
  match NewAPI NewClientWithOptions ⟨[]⟩ rawurl apiKey verbose with
  | ((some api, _), h1) =>
    match api.urlFor h1 path query with
    | some (p, h2) => (h2.deref p).map url.URL.String
    | none => none
  | _ => none

/-- The sequence `NewAPI(rawurl, apiKey, verbose)` on an empty heap, then
`api.urlFor(path, query)`: the URL that `api.BaseURL` points to after the call, and
the URL that the returned pointer points to; `none` when `NewAPI` fails or `urlFor`
panics. -/
def urlForAfterNewAPI {T : MkrTypes}
    (NewClientWithOptions : GoString → GoString → Bool → Option (mkr.Client T) × GoError)
    (rawurl apiKey : GoString) (verbose : Bool) (path query : GoString) :
    Option (url.URL × url.URL) :=
  match NewAPI NewClientWithOptions ⟨[]⟩ rawurl apiKey verbose with
  | ((some api, _), h1) =>
    match api.urlFor h1 path query with
    | some (p, h2) =>
      match h2.deref api.BaseURL, h2.deref p with
      | some base, some new => some (base, new)
      | _, _ => none
    | none => none
  | _ => none

open url.encoding in
/-- A scheme in lower case: a letter, then letters, digits, `+`, `-` or `.`. -/
def plainScheme (s : GoString) : Bool :=
  match s with
  | [] => false
  | c :: rest =>
    inRange c 'a' 'z' &&
      rest.all (fun c => inRange c 'a' 'z' || inRange c '0' '9' || isCh c '+' || isCh c '-' ||
        isCh c '.')

open url.encoding in
/-- A host, with or without a port, that `net/url` writes as it reads it: not empty,
no byte that is escaped in a host, no bracket, and after the last colon only digits. -/
def plainHost (host : GoString) : Bool :=
  host ≠ [] &&
  host.all (fun c => !url.shouldEscape c encodeHost && !isCh c '[' && !isCh c ']') &&
  (match strings.LastIndex host (bytes ":") with
    | some i => url.validOptionalPort (host.drop i)
    | none => true)

/-- A byte that `getScheme` accepts in a scheme. -/
def schemeByteAny (c : Byte) : Bool :=
  inRange c 'a' 'z' || inRange c 'A' 'Z' || inRange c '0' '9' || isCh c '+' || isCh c '-' ||
    isCh c '.'

/-- The shape of a scheme that `getScheme` returns: a letter, then scheme bytes. -/
def schemeShape (s : GoString) : Bool :=
  match s with
  | [] => false
  | c :: rest => (inRange c 'a' 'z' || inRange c 'A' 'Z') && rest.all schemeByteAny

open url.encoding in
/-- What `escape` writes for one byte. -/
def url.escapeByte (mode : url.encoding) (c : Byte) : GoString :=
  if url.shouldEscape c mode then
    if isCh c ' ' && mode = encodeQueryComponent then [ch '+']
    else [ch '%', url.upperhex (c.val / 16), url.upperhex (c.val % 16)]
  else [c]

/-- No byte that ends an authority: `/`, `?`, `#`, and `@`, which ends a user info. -/
def notAuthoritySep (d : Byte) : Bool :=
  !isCh d '/' && !isCh d '?' && !isCh d '#' && !isCh d '@'

/-- No byte that ends a path: `?` and `#`. -/
def notPathSep (d : Byte) : Bool :=
  !isCh d '?' && !isCh d '#'

/-- A URL without authority whose written path starts with exactly two slashes:
`String` writes the path where a reader expects `//` and an authority, so `Parse`
reads the first segment back as a host.  (For a URL that `Parse` returned this takes
an escaped slash, as in `http:/%2Fexample.com/a b`.) -/
def url.URL.pathReadsAsAuthority (u : url.URL) : Bool :=
  u.Opaque = [] && u.Host = [] && u.User.isNone && (u.OmitHost || u.Scheme = []) &&
  strings.HasPrefix u.EscapedPath (bytes "//") &&
  !strings.HasPrefix u.EscapedPath (bytes "///")

/-! ## Concrete collaborators, for evaluating the facade -/

/-- Library types for the examples: a host is its ID, a parameter its name. -/
def exampleTypes : MkrTypes :=
  { Host := GoString, CreateHostParam := GoString, UpdateHostParam := GoString,
    HostMetricValue := GoString, GraphDefsParam := GoString }

/-- A client over the mock server of TestFindHostByCustomIdentifier: one host,
`9rxGOHfVF8F`, registered under the custom identifier `foo-bar`; its `HTTPClient`
has the timeout that `mkr.NewClientWithOptions` gives it. -/
def mockClient : mkr.Client exampleTypes :=
  { HTTPClient := { Timeout := 30 * time.Second }
    FindHost := fun id => (some id, .nil)
    FindHosts := fun param =>
      if param.CustomIdentifier = bytes "foo-bar" then ([some (bytes "9rxGOHfVF8F")], .nil)
      else ([], .nil)
    CreateHost := fun _ => (bytes "9rxGOHfVF8F", .nil)
    UpdateHost := fun hostID _ => (hostID, .nil)
    UpdateHostStatus := fun _ _ => .nil
    PostHostMetricValues := fun _ => .nil
    CreateGraphDefs := fun _ => .nil
    RetireHost := fun _ => .nil }

/-- A client whose server cannot be reached: every method returns a dial error. -/
def downClient : mkr.Client exampleTypes :=
  let err : GoError := .other (bytes "dial tcp 127.0.0.1:80: connect: connection refused")
  { HTTPClient := { Timeout := 30 * time.Second }
    FindHost := fun _ => (none, err)
    FindHosts := fun _ => ([], err)
    CreateHost := fun _ => ([], err)
    UpdateHost := fun _ _ => ([], err)
    UpdateHostStatus := fun _ _ => err
    PostHostMetricValues := fun _ => err
    CreateGraphDefs := fun _ => err
    RetireHost := fun _ => err }

/-- A server that answers every request with 200 and an empty body; the dumpers
return the request line and the status line. -/
def okEnv : Env :=
  { Do := fun _ _ => (some { StatusCode := 200, Header := ⟨[]⟩, Body := [] }, .nil)
    DumpRequest := fun req _ => (req.Method ++ bytes " " ++ req.URL, .nil)
    DumpResponse := fun _ _ => (bytes "HTTP/1.1 200 OK", .nil) }

/-- A facade value as NewAPI builds it (no user agent, no default headers), with
its `BaseURL` at address 0. -/
def apiOver (c : mkr.Client exampleTypes) (verbose : Bool) : API exampleTypes :=
  { BaseURL := some 0, APIKey := bytes "dummy-key", Verbose := verbose, c := some c }

/-- The request of TestDo: `GET http://example.com/` with an empty header. -/
def getRoot : http.Request :=
  { Method := bytes "GET", URL := bytes "http://example.com/", Header := ⟨[]⟩, Body := [] }

/-- A facade value whose default headers carry an `X-Api-Key` of their own. -/
def apiWithDefaultKey : API exampleTypes :=
  { BaseURL := some 0, APIKey := bytes "dummy-key", Verbose := false,
    DefaultHeaders := some ⟨[(bytes "X-Api-Key", [bytes "other"])]⟩, c := some mockClient }

/-- The constructor of the client library, over the mock server. -/
def newMockClient (_apiKey _rawurl : GoString) (_verbose : Bool) :
    Option (mkr.Client exampleTypes) × GoError :=
  (some mockClient, .nil)

/-- The URL that `http://example.com` parses to. -/
def exampleBase : url.URL :=
  { Scheme := bytes "http", Host := bytes "example.com" }

/-- The heap after `NewAPI` on `http://example.com`, from an empty heap. -/
def heapExampleBase : Heap := ⟨[exampleBase]⟩

/-- The URL that `https://user@example.com:8443/api` parses to: a base with user
info, a port and a path of its own. -/
def userBase : url.URL :=
  { Scheme := bytes "https", User := some { username := bytes "user" },
    Host := bytes "example.com:8443", Path := bytes "/api" }

/-- A facade value whose default headers carry a `User-Agent` of their own. -/
def apiWithDefaultUA : API exampleTypes :=
  { BaseURL := some 0, APIKey := bytes "dummy-key", Verbose := false,
    DefaultHeaders := some ⟨[(bytes "User-Agent", [bytes "custom-agent/1.0"])]⟩,
    c := some mockClient }

/-- A facade value with two values under the default header `X-Custom`. -/
def apiWithDefaultCustom : API exampleTypes :=
  { BaseURL := some 0, APIKey := bytes "dummy-key", Verbose := false,
    DefaultHeaders := some ⟨[(bytes "X-Custom", [bytes "a", bytes "b"])]⟩,
    c := some mockClient }

/-- The request of TestDo with a value of its own under `X-Custom`. -/
def getRootWithCustom : http.Request :=
  { Method := bytes "GET", URL := bytes "http://example.com/",
    Header := ⟨[(bytes "X-Custom", [bytes "p"])]⟩, Body := [] }

/-- A facade value whose caller has set the user agent. -/
def apiWithUA : API exampleTypes :=
  { BaseURL := some 0, APIKey := bytes "dummy-key", Verbose := true,
    UA := bytes "mackerel-agent/0.72.1", c := some mockClient }

/-- The request of TestDo with a user agent of its own. -/
def getRootWithUA : http.Request :=
  { Method := bytes "GET", URL := bytes "http://example.com/",
    Header := ⟨[(bytes "User-Agent", [bytes "Go-http-client/1.1"])]⟩, Body := [] }

/-! ## Theorems -/

/-- The two-sided range test as the source writes it, `lo <= s && s < hi + 1`, is
the closed interval `lo ≤ s ≤ hi`. -/
theorem range_test_eq (s lo hi : Int) :
    (decide (lo ≤ s) && decide (s < hi + 1)) = decide (lo ≤ s ∧ s ≤ hi) := by
  by_cases h1 : lo ≤ s <;> by_cases h2 : s ≤ hi <;> simp [h1, h2] <;> omega

/-- C1: for an error of dynamic type `*mkr.APIError` carrying status code `s`, the
package-level `IsClientError` returns true exactly when `400 ≤ s ≤ 499` and the
package-level `IsServerError` exactly when `500 ≤ s ≤ 599`; a status-400 error is a
client error and not a server error, a status-500 error the reverse. -/
theorem C1_package_predicates_classify_by_status :
    (∀ e : mkr.APIError,
      IsClientError (.mkrAPIError (some e)) = some (decide (400 ≤ e.StatusCode ∧ e.StatusCode ≤ 499)) ∧
      IsServerError (.mkrAPIError (some e)) = some (decide (500 ≤ e.StatusCode ∧ e.StatusCode ≤ 599))) ∧
    (∀ msg : GoString,
      IsClientError (.mkrAPIError (some ⟨400, msg⟩)) = some true ∧
      IsServerError (.mkrAPIError (some ⟨400, msg⟩)) = some false ∧
      IsClientError (.mkrAPIError (some ⟨500, msg⟩)) = some false ∧
      IsServerError (.mkrAPIError (some ⟨500, msg⟩)) = some true) := by
  refine ⟨fun e => ⟨?_, ?_⟩, fun msg => ⟨?_, ?_, ?_, ?_⟩⟩
  · simpa [IsClientError] using range_test_eq e.StatusCode 400 499
  · simpa [IsServerError] using range_test_eq e.StatusCode 500 599
  · simp [IsClientError]
  · simp [IsServerError]
  · simp [IsClientError]
  · simp [IsServerError]

/-- C2: for an error that carries no HTTP status code - the nil error, a transport
or network error (any dynamic type other than `*mkr.APIError`, the parse error of
`net/url` included) and the informational `*InfoError` - both the package-level
`IsClientError` and the package-level `IsServerError` return false. -/
theorem C2_package_predicates_false_without_status :
    (IsClientError .nil = some false ∧ IsServerError .nil = some false) ∧
    (∀ msg : GoString,
      IsClientError (.other msg) = some false ∧ IsServerError (.other msg) = some false) ∧
    (∀ e : ParseError,
      IsClientError (.urlError e) = some false ∧ IsServerError (.urlError e) = some false) ∧
    (∀ p : Option InfoError,
      IsClientError (.infoError p) = some false ∧ IsServerError (.infoError p) = some false) := by
  refine ⟨⟨rfl, rfl⟩, fun _ => ⟨rfl, rfl⟩, fun _ => ⟨rfl, rfl⟩, fun _ => ⟨rfl, rfl⟩⟩

/-- C3: for every `Error` value with status code `c` (any integer) and any message,
the method `IsClientError` returns true if and only if `400 ≤ c ≤ 499` and the method
`IsServerError` if and only if `500 ≤ c ≤ 599`; `apiError(400, "bad request")` is a
client error and is not a server error. -/
theorem C3_Error_methods_classify_by_status :
    (∀ (c : Int) (msg : GoString),
      Error.IsClientError (apiError c msg) = some (decide (400 ≤ c ∧ c ≤ 499)) ∧
      Error.IsServerError (apiError c msg) = some (decide (500 ≤ c ∧ c ≤ 599))) ∧
    Error.IsClientError (apiError 400 (bytes "bad request")) = some true ∧
    Error.IsServerError (apiError 400 (bytes "bad request")) = some false := by
  refine ⟨fun c msg => ⟨?_, ?_⟩, ?_, ?_⟩
  · simpa [Error.IsClientError, apiError] using range_test_eq c 400 499
  · simpa [Error.IsServerError, apiError] using range_test_eq c 500 599
  · simp [Error.IsClientError, apiError]
  · simp [Error.IsServerError, apiError]

/-- C4 (as stated, refuted): with a client whose server cannot be reached,
`FindHostByCustomIdentifier("")` returns the client's dial error, which is not an
`*InfoError`. -/
theorem C4_counterexample_empty_identifier_transport_error :
    (API.FindHostByCustomIdentifier (apiOver downClient false) []).map (fun r => r.2) =
      some (none, .other (bytes "dial tcp 127.0.0.1:80: connect: connection refused")) := by
  rfl

/-- C4 (amended): `FindHostByCustomIdentifier("")` returns no host and an
`*InfoError` whenever the client's `FindHosts` call for the empty identifier
succeeds with an empty host list. -/
theorem C4_empty_identifier_info_error_on_empty_list {T : MkrTypes} (api : API T)
    (c : mkr.Client T) (hc : api.c = some c)
    (hempty : c.FindHosts
      { CustomIdentifier := [],
        Statuses := [bytes "working", bytes "standby", bytes "maintenance", bytes "poweroff"] }
      = ([], .nil)) :
    (api.FindHostByCustomIdentifier []).map (fun r => r.2) =
      some (none, .infoError (some ⟨bytes "no host was found for the custom identifier: "⟩)) := by
  simp [API.FindHostByCustomIdentifier, hc, hempty, infoError]

/-- C4 (amended), at the mock server of the test. -/
theorem C4_empty_identifier_witness :
    (API.FindHostByCustomIdentifier (apiOver mockClient false) []).map (fun r => r.2) =
      some (none, .infoError (some ⟨bytes "no host was found for the custom identifier: "⟩)) :=
  C4_empty_identifier_info_error_on_empty_list (apiOver mockClient false) mockClient rfl rfl

/-- C5: for every custom identifier `id`, `FindHostByCustomIdentifier(id)` makes
exactly one call on the client, `FindHosts` with `CustomIdentifier = id` and
`Statuses = [working, standby, maintenance, poweroff]`; a non-nil error of that call
is returned as is with no host; an empty host list gives no host and an `*InfoError`;
a non-empty list gives its first host and no error. -/
theorem C5_FindHostByCustomIdentifier_contract {T : MkrTypes} (api : API T)
    (c : mkr.Client T) (id : GoString) (hc : api.c = some c) :
    ∃ param : mkr.FindHostsParam,
      param.CustomIdentifier = id ∧
      param.Statuses = [bytes "working", bytes "standby", bytes "maintenance", bytes "poweroff"] ∧
      (api.FindHostByCustomIdentifier id).map (fun r => r.1) =
        some [.clientCall c.HTTPClient (.FindHosts param)] ∧
      (∀ hosts err, c.FindHosts param = (hosts, err) → err ≠ .nil →
        (api.FindHostByCustomIdentifier id).map (fun r => r.2) = some (none, err)) ∧
      (c.FindHosts param = ([], .nil) →
        ∃ msg, (api.FindHostByCustomIdentifier id).map (fun r => r.2) =
          some (none, .infoError (some ⟨msg⟩))) ∧
      (∀ host rest, c.FindHosts param = (host :: rest, .nil) →
        (api.FindHostByCustomIdentifier id).map (fun r => r.2) = some (host, .nil)) := by
  refine ⟨{ CustomIdentifier := id,
            Statuses := [bytes "working", bytes "standby", bytes "maintenance", bytes "poweroff"] },
          rfl, rfl, ?_, ?_, ?_, ?_⟩
  · simp [API.FindHostByCustomIdentifier, hc]
  · intro hosts err h hne
    simp [API.FindHostByCustomIdentifier, hc, h, hne]
  · intro h
    exact ⟨bytes "no host was found for the custom identifier: " ++ id,
      by simp [API.FindHostByCustomIdentifier, hc, h, infoError]⟩
  · intro host rest h
    simp [API.FindHostByCustomIdentifier, hc, h]

/-- C5, at the mock server of the test and the registered identifier `foo-bar`: one
`FindHosts` call, and the first host of its answer. -/
theorem C5_FindHostByCustomIdentifier_witness :
    (apiOver mockClient false).c = some mockClient ∧
    ∃ param : mkr.FindHostsParam,
      param.CustomIdentifier = bytes "foo-bar" ∧
      param.Statuses = [bytes "working", bytes "standby", bytes "maintenance", bytes "poweroff"] ∧
      (API.FindHostByCustomIdentifier (apiOver mockClient false) (bytes "foo-bar")).map
        (fun r => r.1) = some [.clientCall mockClient.HTTPClient (.FindHosts param)] ∧
      (∀ hosts err, mockClient.FindHosts param = (hosts, err) → err ≠ .nil →
        (API.FindHostByCustomIdentifier (apiOver mockClient false) (bytes "foo-bar")).map
          (fun r => r.2) = some (none, err)) ∧
      (mockClient.FindHosts param = ([], .nil) →
        ∃ msg, (API.FindHostByCustomIdentifier (apiOver mockClient false) (bytes "foo-bar")).map
          (fun r => r.2) = some (none, .infoError (some ⟨msg⟩))) ∧
      (∀ host rest, mockClient.FindHosts param = (host :: rest, .nil) →
        (API.FindHostByCustomIdentifier (apiOver mockClient false) (bytes "foo-bar")).map
          (fun r => r.2) = some (host, .nil)) :=
  ⟨rfl, C5_FindHostByCustomIdentifier_contract (apiOver mockClient false) mockClient
    (bytes "foo-bar") rfl⟩

/-- Reading a map after a write: the written key holds the new value, every other
key what it held. -/
theorem lookupEntries_storeEntries (es : List (GoString × List GoString)) (k k' : GoString)
    (vs : List GoString) :
    lookupEntries (storeEntries es k vs) k' = if k' = k then vs else lookupEntries es k' := by
  induction es with
  | nil =>
    by_cases hk : k' = k
    · simp [storeEntries, lookupEntries, hk]
    · have : ¬ k = k' := fun h => hk h.symm
      simp [storeEntries, lookupEntries, hk, this]
  | cons e es ih =>
    by_cases he : e.1 = k
    · by_cases hk : k' = k
      · simp [storeEntries, lookupEntries, he, hk]
      · have : ¬ k = k' := fun h => hk h.symm
        simp [storeEntries, lookupEntries, he, hk, this]
    · by_cases he' : e.1 = k'
      · have : ¬ k' = k := fun h => he (he'.trans h)
        simp [storeEntries, lookupEntries, he, he', this]
      · simp [storeEntries, lookupEntries, he, he', ih]

/-- `Header.Add` appends to the values under the canonical key and leaves every
other key alone. -/
theorem http.Header.lookup_Add (h : http.Header) (k v key : GoString) :
    (h.Add k v).lookup key =
      if key = CanonicalMIMEHeaderKey k then h.lookup key ++ [v] else h.lookup key := by
  unfold http.Header.Add http.Header.lookup http.Header.store
  simp only [lookupEntries_storeEntries]
  split <;> simp_all

/-- `Header.Set` replaces the values under the canonical key and leaves every other
key alone. -/
theorem http.Header.lookup_Set (h : http.Header) (k v key : GoString) :
    (h.Set k v).lookup key =
      if key = CanonicalMIMEHeaderKey k then [v] else h.lookup key := by
  unfold http.Header.Set http.Header.lookup http.Header.store
  simp only [lookupEntries_storeEntries]

/-- Adding a list of values under one name, as the inner loop of `do` does. -/
theorem http.Header.lookup_foldl_Add (vs : List GoString) (h : http.Header) (k key : GoString) :
    (vs.foldl (fun (h : http.Header) (v : GoString) => h.Add k v) h).lookup key =
      if key = CanonicalMIMEHeaderKey k then h.lookup key ++ vs else h.lookup key := by
  induction vs generalizing h with
  | nil => simp
  | cons v vs ih =>
    simp only [List.foldl_cons, ih, http.Header.lookup_Add]
    split <;> simp

/-- Adding every default header, as the outer loop of `do` does. -/
theorem http.Header.lookup_foldl_entries (dh : List (GoString × List GoString))
    (h : http.Header) (key : GoString) :
    (dh.foldl
        (fun (h : http.Header) (e : GoString × List GoString) =>
          e.2.foldl (fun (h : http.Header) (v : GoString) => h.Add e.1 v) h) h).lookup key =
      h.lookup key ++
        (dh.filter (fun e => CanonicalMIMEHeaderKey e.1 = key)).flatMap (fun e => e.2) := by
  induction dh generalizing h with
  | nil => simp
  | cons e dh ih =>
    simp only [List.foldl_cons, ih, http.Header.lookup_foldl_Add]
    by_cases hk : key = CanonicalMIMEHeaderKey e.1
    · have hk' : CanonicalMIMEHeaderKey e.1 = key := hk.symm
      simp [List.filter_cons, hk']
    · have hk' : ¬ CanonicalMIMEHeaderKey e.1 = key := fun h => hk h.symm
      simp [List.filter_cons, hk, hk']

/-- The header names `do` writes are in canonical form and differ. -/
theorem canonical_api_key_user_agent :
    CanonicalMIMEHeaderKey (bytes "X-Api-Key") = bytes "X-Api-Key" ∧
    CanonicalMIMEHeaderKey (bytes "User-Agent") = bytes "User-Agent" ∧
    bytes "X-Api-Key" ≠ bytes "User-Agent" := by
  decide

/-- The values under `X-Api-Key` after lines 119-127 of `do`. -/
theorem API.doHeader_lookup_api_key {T : MkrTypes} (api : API T) (header : http.Header) :
    (api.doHeader header).lookup (bytes "X-Api-Key") =
      header.lookup (bytes "X-Api-Key") ++ api.defaultValues (bytes "X-Api-Key") ++
        [api.APIKey] := by
  obtain ⟨h1, h2, h3⟩ := canonical_api_key_user_agent
  unfold API.doHeader API.defaultValues
  simp only [http.Header.lookup_Set, http.Header.lookup_Add, h1, h2, if_neg h3, if_true]
  cases api.DefaultHeaders with
  | none => simp
  | some dh => simp [http.Header.lookup_foldl_entries]

/-- A log line is no request. -/
theorem sentRequests_logDump {T : MkrTypes} (dumped : GoString × GoError) :
    sentRequests (logDump dumped : List (Effect T)) = [] := by
  unfold logDump sentRequests
  split <;> rfl

/-- The requests of a concatenation. -/
theorem sentRequests_append {T : MkrTypes} (t1 t2 : List (Effect T)) :
    sentRequests (t1 ++ t2) = sentRequests t1 ++ sentRequests t2 := by
  simp [sentRequests, List.filterMap_append]

/-- The one request `do` hands to `client.Do`. -/
theorem API.do_sentRequests {T : MkrTypes} (env : Env) (api : API T) (req : http.Request) :
    sentRequests (api.do env req).1 = [{ req with Header := api.doHeader req.Header }] := by
  have hone : ∀ (client : http.Client) (r : http.Request) (t : List (Effect T)),
      sentRequests (.httpDo client r :: t) = r :: sentRequests t := fun _ _ _ => rfl
  unfold API.do
  simp only []
  have hnil : sentRequests ([] : List (Effect T)) = [] := rfl
  split_ifs <;> (try split) <;>
    simp [sentRequests_append, hone, hnil, sentRequests_logDump]

/-- C7 (as stated, refuted): with default headers that carry an `X-Api-Key` of their
own, the request `do` sends has two values under `X-Api-Key`, and `Header.Get` reads
the default one, `other`, not the configured key `dummy-key`. -/
theorem C7_counterexample_default_header_shadows_key :
    apiWithDefaultKey.APIKey = bytes "dummy-key" ∧
    (sentRequests (API.do okEnv apiWithDefaultKey getRoot).1).map
      (fun r => r.Header.lookup (bytes "X-Api-Key")) = [[bytes "other", bytes "dummy-key"]] ∧
    (sentRequests (API.do okEnv apiWithDefaultKey getRoot).1).map
      (fun r => r.Header.Get (bytes "X-Api-Key")) = [bytes "other"] := by
  decide

/-- C7 (amended): `do` sends exactly one request; under `X-Api-Key` it carries the
values the incoming request had, then those of the default headers, then the
configured `api.APIKey` as the last value, whatever the default headers, the incoming
header and the Verbose flag are; `Header.Get` reads `api.APIKey` when neither the
incoming request nor the default headers hold a value under `X-Api-Key`. -/
theorem C7_do_adds_api_key_last {T : MkrTypes} (env : Env) (api : API T) (req : http.Request) :
    ∃ sent : http.Request,
      sentRequests (api.do env req).1 = [sent] ∧
      sent.Header.lookup (bytes "X-Api-Key") =
        req.Header.lookup (bytes "X-Api-Key") ++ api.defaultValues (bytes "X-Api-Key") ++
          [api.APIKey] ∧
      (req.Header.lookup (bytes "X-Api-Key") = [] →
        api.defaultValues (bytes "X-Api-Key") = [] →
        sent.Header.Get (bytes "X-Api-Key") = api.APIKey) := by
  refine ⟨_, API.do_sentRequests env api req, API.doHeader_lookup_api_key api req.Header, ?_⟩
  intro h1 h2
  have h := API.doHeader_lookup_api_key api req.Header
  rw [h1, h2] at h
  simp only [http.Header.Get, canonical_api_key_user_agent.1, h, List.nil_append]

/-! ### Facts about bytes, by enumeration -/

set_option maxRecDepth 100000 in
/-- What a byte of a plain host is not. -/
theorem hostByte_facts : ∀ c : Byte,
    (!url.shouldEscape c .encodeHost && !isCh c '[' && !isCh c ']') = true →
      url.shouldEscape c .encodeHost = false ∧ isCh c '%' = false ∧ c ≠ ch '/' ∧
      c ≠ ch '?' ∧ c ≠ ch '#' ∧ c ≠ ch '@' ∧ c ≠ ch '[' ∧
      (decide (c.val < 0x20) || decide (c.val = 0x7f)) = false := by
  decide

set_option maxRecDepth 100000 in
/-- What a byte of a plain scheme is. -/
theorem schemeByte_facts : ∀ c : Byte,
    (inRange c 'a' 'z' || inRange c '0' '9' || isCh c '+' || isCh c '-' || isCh c '.') = true →
      ((inRange c 'a' 'z' || inRange c 'A' 'Z') = true ∨
        ((inRange c 'a' 'z' || inRange c 'A' 'Z') = false ∧
         (inRange c '0' '9' || isCh c '+' || isCh c '-' || isCh c '.') = true)) ∧
      inRange c 'A' 'Z' = false ∧ c ≠ ch '#' ∧
      (decide (c.val < 0x20) || decide (c.val = 0x7f)) = false := by
  decide

/-- The separators `net/url` cuts at, as bytes. -/
theorem bytes_separators :
    bytes "#" = [ch '#'] ∧ bytes "?" = [ch '?'] ∧ bytes "/" = [ch '/'] ∧
    bytes ":" = [ch ':'] ∧ bytes "@" = [ch '@'] ∧ bytes "[" = [ch '['] ∧
    bytes "//" = [ch '/', ch '/'] ∧ bytes "://" = [ch ':', ch '/', ch '/'] ∧
    bytes "*" = [ch '*'] := by
  decide

/-! ### strings -/

/-- A byte that does not occur is found nowhere. -/
theorem strings.Index_eq_none (s : GoString) (c : Byte) (h : c ∉ s) :
    strings.Index s [c] = none := by
  induction s with
  | nil => simp [strings.Index]
  | cons d s ih =>
    have hd : c ≠ d := fun e => h (by simp [e])
    have hs : c ∉ s := fun e => h (by simp [e])
    simp [strings.Index, List.isPrefixOf, hd, ih hs]

/-- A byte that does not occur is found nowhere, from the end either. -/
theorem strings.LastIndex_eq_none (s : GoString) (c : Byte) (h : c ∉ s) :
    strings.LastIndex s [c] = none := by
  induction s with
  | nil => simp [strings.LastIndex]
  | cons d s ih =>
    have hd : c ≠ d := fun e => h (by simp [e])
    have hs : c ∉ s := fun e => h (by simp [e])
    simp [strings.LastIndex, List.isPrefixOf, hd, ih hs]

/-- Cutting at a byte that does not occur leaves the string whole. -/
theorem strings.Cut_eq_self (s : GoString) (c : Byte) (h : c ∉ s) :
    strings.Cut s [c] = (s, [], false) := by
  simp [strings.Cut, strings.Index_eq_none s c h]

/-! ### net/url on plain bases -/

/-- The scheme loop, past the first byte, runs to the colon. -/
theorem url.getSchemeLoop_run (raw rest : GoString) (s : GoString) :
    ∀ i : Nat, 0 < i →
      (∀ c ∈ s, (inRange c 'a' 'z' || inRange c '0' '9' || isCh c '+' || isCh c '-' ||
        isCh c '.') = true) →
      url.getSchemeLoop raw i (s ++ ch ':' :: rest) =
        .ok (raw.take (i + s.length), raw.drop (i + s.length + 1)) := by
  induction s with
  | nil =>
    intro i hi _
    have h0 : i ≠ 0 := by omega
    have hc : (inRange (ch ':') 'a' 'z' || inRange (ch ':') 'A' 'Z') = false := by decide
    have hd : (inRange (ch ':') '0' '9' || isCh (ch ':') '+' || isCh (ch ':') '-' ||
      isCh (ch ':') '.') = false := by decide
    have he : isCh (ch ':') ':' = true := by decide
    simp [url.getSchemeLoop, hc, hd, he, h0]
  | cons c s ih =>
    intro i hi hs
    have h0 : i ≠ 0 := by omega
    have hc := (schemeByte_facts c (hs c (by simp))).1
    have hrest := ih (i + 1) (by omega) (fun d hd => hs d (by simp [hd]))
    have hlen : i + 1 + s.length = i + (s.length + 1) := by omega
    rw [hlen] at hrest
    rcases hc with hl | ⟨hl, hd⟩
    · simp only [List.cons_append, url.getSchemeLoop, hl, if_true, List.length_cons]
      exact hrest
    · simp only [List.cons_append, url.getSchemeLoop, hl, hd, if_true, h0, if_false,
        List.length_cons, Bool.false_eq_true]
      exact hrest

/-- `getScheme` on a plain scheme followed by a colon. -/
theorem url.getScheme_plain (s rest : GoString) (hs : plainScheme s = true) :
    url.getScheme (s ++ ch ':' :: rest) = .ok (s, rest) := by
  cases s with
  | nil => simp [plainScheme] at hs
  | cons c s =>
    simp only [plainScheme, Bool.and_eq_true, List.all_eq_true] at hs
    obtain ⟨hc, hall⟩ := hs
    have hl : (inRange c 'a' 'z' || inRange c 'A' 'Z') = true := by simp [hc]
    have hrun := url.getSchemeLoop_run (c :: s ++ ch ':' :: rest) rest s 1 (by omega) hall
    simp only [url.getScheme, List.cons_append, url.getSchemeLoop, hl, if_true]
    rw [show (0 : Nat) + 1 = 1 from rfl]
    refine Eq.trans hrun ?_
    have h1 : List.take (1 + s.length) (c :: s ++ ch ':' :: rest) = c :: s := by
      rw [show 1 + s.length = (c :: s).length by simp [Nat.add_comm]]
      exact List.take_left' rfl
    have h2 : List.drop (1 + s.length + 1) (c :: s ++ ch ':' :: rest) = rest := by
      rw [show c :: s ++ ch ':' :: rest = (c :: s ++ [ch ':']) ++ rest by simp]
      rw [show 1 + s.length + 1 = (c :: s ++ [ch ':']).length by simp [Nat.add_comm]]
      exact List.drop_left' rfl
    rw [h1, h2]

/-- A plain scheme is in lower case already. -/
theorem strings.ToLower_plain (s : GoString) (hs : plainScheme s = true) :
    strings.ToLower s = s := by
  have hall : ∀ c ∈ s, inRange c 'A' 'Z' = false := by
    cases s with
    | nil => simp
    | cons c s =>
      simp only [plainScheme, Bool.and_eq_true, List.all_eq_true] at hs
      intro d hd
      rcases List.mem_cons.1 hd with rfl | hd
      · exact (schemeByte_facts d (by simp [hs.1])).2.1
      · exact (schemeByte_facts d (hs.2 d hd)).2.1
  unfold strings.ToLower
  conv_rhs => rw [← List.map_id s]
  apply List.map_congr_left
  intro c hc
  simp [hall c hc]

/-- The bytes of a plain scheme, each: a scheme byte. -/
theorem plainScheme_bytes (s : GoString) (hs : plainScheme s = true) :
    s ≠ [] ∧ ∀ c ∈ s, (inRange c 'a' 'z' || inRange c '0' '9' || isCh c '+' || isCh c '-' ||
      isCh c '.') = true := by
  cases s with
  | nil => simp [plainScheme] at hs
  | cons c s =>
    simp only [plainScheme, Bool.and_eq_true, List.all_eq_true] at hs
    refine ⟨by simp, ?_⟩
    intro d hd
    rcases List.mem_cons.1 hd with rfl | hd
    · simp [hs.1]
    · exact hs.2 d hd

/-- The bytes of a plain host, each: a host byte; and the port test passes. -/
theorem plainHost_bytes (host : GoString) (hh : plainHost host = true) :
    host ≠ [] ∧
    (∀ c ∈ host, (!url.shouldEscape c .encodeHost && !isCh c '[' && !isCh c ']') = true) ∧
    (∀ i, strings.LastIndex host (bytes ":") = some i →
      url.validOptionalPort (host.drop i) = true) := by
  unfold plainHost at hh
  rw [Bool.and_eq_true, Bool.and_eq_true, List.all_eq_true] at hh
  obtain ⟨⟨h1, h2⟩, h3⟩ := hh
  refine ⟨by simpa using h1, h2, ?_⟩
  intro i hi
  rw [hi] at h3
  exact h3

/-- The first loop of `unescape` accepts a plain host and counts no escape. -/
theorem url.unescapeCheck_plainHost (host : GoString) (n : Nat)
    (hh : ∀ c ∈ host, (!url.shouldEscape c .encodeHost && !isCh c '[' && !isCh c ']') = true) :
    url.unescapeCheck .encodeHost host n false = .ok (n, false) := by
  induction host with
  | nil => rfl
  | cons c host ih =>
    have hc := hostByte_facts c (hh c (by simp))
    have ih' := ih (fun d hd => hh d (by simp [hd]))
    unfold url.unescapeCheck
    simp only [hc.2.1, Bool.false_eq_true, if_false]
    by_cases hp : isCh c '+' = true
    · simp [hp, ih']
    · simp [hp, hc.1, ih']

/-- `unescape` returns a plain host as it is. -/
theorem url.unescape_plainHost (host : GoString)
    (hh : ∀ c ∈ host, (!url.shouldEscape c .encodeHost && !isCh c '[' && !isCh c ']') = true) :
    url.unescape host .encodeHost = .ok host := by
  simp [url.unescape, url.unescapeCheck_plainHost host 0 hh]

/-- `escape` returns a plain host as it is. -/
theorem url.escape_plainHost (host : GoString)
    (hh : ∀ c ∈ host, (!url.shouldEscape c .encodeHost && !isCh c '[' && !isCh c ']') = true) :
    url.escape host .encodeHost = host := by
  have h0 : ∀ c ∈ host, url.shouldEscape c .encodeHost = false :=
    fun c hc => (hostByte_facts c (hh c hc)).1
  have hcount : ∀ p : Byte → Bool, host.countP (fun c => url.shouldEscape c .encodeHost && p c) = 0 := by
    intro p
    rw [List.countP_eq_zero]
    intro c hc
    simp [h0 c hc]
  unfold url.escape
  simp only [hcount, beq_self_eq_true, Bool.and_self, if_true, decide_True]

/-- `parseHost` returns a plain host as it is. -/
theorem url.parseHost_plain (host : GoString) (hh : plainHost host = true) :
    url.parseHost host = .ok host := by
  obtain ⟨hne, hall, hport⟩ := plainHost_bytes host hh
  have hun := url.unescape_plainHost host hall
  have hbr : strings.HasPrefix host (bytes "[") = false := by
    cases host with
    | nil => exact absurd rfl hne
    | cons c host =>
      have hc := (hostByte_facts c (hall c (by simp))).2.2.2.2.2.2.1
      have hc' : ¬ ch '[' = c := fun e => hc e.symm
      rw [strings.HasPrefix, bytes_separators.2.2.2.2.2.1]
      simp [List.isPrefixOf, hc']
  unfold url.parseHost
  simp only [hbr, Bool.false_eq_true, if_false]
  cases hl : strings.LastIndex host (bytes ":") with
  | none => simp [hun]
  | some i => simp [hport i hl, hun]

/-- `parseAuthority` on a plain host: no user, the host as it is. -/
theorem url.parseAuthority_plain (host : GoString) (hh : plainHost host = true) :
    url.parseAuthority host = .ok (none, host) := by
  obtain ⟨_, hall, _⟩ := plainHost_bytes host hh
  have hat : ch '@' ∉ host := fun hmem =>
    (hostByte_facts _ (hall _ hmem)).2.2.2.2.2.1 rfl
  unfold url.parseAuthority
  rw [bytes_separators.2.2.2.2.1, strings.LastIndex_eq_none host _ hat]
  simp [url.parseHost_plain host hh]

/-- `setPath` with the empty path. -/
theorem url.URL.setPath_nil (u : url.URL) :
    u.setPath [] = .ok { u with Path := [], RawPath := [] } := by
  simp [url.URL.setPath, url.unescape, url.unescapeCheck, url.escape]

/-- `parse` on `scheme://host` for a plain scheme and a plain host. -/
theorem url.parse_plain (s host : GoString) (hs : plainScheme s = true)
    (hh : plainHost host = true) :
    url.parse (s ++ ch ':' :: ch '/' :: ch '/' :: host) false =
      .ok { Scheme := s, Host := host } := by
  obtain ⟨hsne, hsall⟩ := plainScheme_bytes s hs
  obtain ⟨hhne, hhall, _⟩ := plainHost_bytes host hh
  have hctl : url.stringContainsCTLByte (s ++ ch ':' :: ch '/' :: ch '/' :: host) = false := by
    unfold url.stringContainsCTLByte
    rw [List.any_eq_false]
    intro c hc
    simp only [List.mem_append, List.mem_cons] at hc
    rcases hc with hc | rfl | rfl | rfl | hc
    · simpa using (schemeByte_facts c (hsall c hc)).2.2.2
    · decide
    · decide
    · decide
    · simpa using (hostByte_facts c (hhall c hc)).2.2.2.2.2.2.2
  have hstar : (s ++ ch ':' :: ch '/' :: ch '/' :: host) ≠ bytes "*" := by
    rw [bytes_separators.2.2.2.2.2.2.2.2]
    intro h
    have := congrArg List.length h
    simp at this
    omega
  have hq : ch '?' ∉ ch '/' :: ch '/' :: host := by
    intro hmem
    simp only [List.mem_cons] at hmem
    rcases hmem with h | h | h
    · exact absurd h (by decide)
    · exact absurd h (by decide)
    · exact (hostByte_facts _ (hhall _ h)).2.2.2.1 rfl
  have hslash : ch '/' ∉ host := fun hmem => (hostByte_facts _ (hhall _ hmem)).2.2.1 rfl
  have hcount : strings.Count (ch '/' :: ch '/' :: host) (ch '?') = 0 := by
    unfold strings.Count
    exact List.count_eq_zero.2 hq
  have hcut := strings.Cut_eq_self _ _ hq
  have hidx := strings.Index_eq_none _ _ hslash
  have hp1 : strings.HasPrefix (ch '/' :: ch '/' :: host) (bytes "/") = true := by
    rw [strings.HasPrefix, bytes_separators.2.2.1]
    simp [List.isPrefixOf]
  have hp2 : strings.HasPrefix (ch '/' :: ch '/' :: host) (bytes "//") = true := by
    rw [strings.HasPrefix, bytes_separators.2.2.2.2.2.2.1]
    simp [List.isPrefixOf]
  unfold url.parse
  simp only [hctl, Bool.false_eq_true, if_false, Bool.and_false, hstar,
    url.getScheme_plain s _ hs, strings.ToLower_plain s hs, hcount,
    bytes_separators.2.1, hcut, hp1, hp2, Bool.not_true, Bool.false_and,
    show (decide ((0 : Nat) = 1)) = false from rfl, decide_not]
  simp only [hsne, ne_eq, not_false_eq_true, decide_True, Bool.true_or, Bool.true_and, if_true,
    List.drop_succ_cons, List.drop_zero, bytes_separators.2.2.1, hidx,
    url.parseAuthority_plain host hh, url.URL.setPath_nil]
  simp

/-- `Parse` on `scheme://host` for a plain scheme and a plain host: the scheme and
the host, and nothing else. -/
theorem url.Parse_plain (s host : GoString) (hs : plainScheme s = true)
    (hh : plainHost host = true) :
    url.Parse (s ++ bytes "://" ++ host) = .ok { Scheme := s, Host := host } := by
  obtain ⟨_, hsall⟩ := plainScheme_bytes s hs
  obtain ⟨_, hhall, _⟩ := plainHost_bytes host hh
  have hraw : s ++ bytes "://" ++ host = s ++ ch ':' :: ch '/' :: ch '/' :: host := by
    rw [bytes_separators.2.2.2.2.2.2.2.1]
    simp
  have hhash : ch '#' ∉ s ++ ch ':' :: ch '/' :: ch '/' :: host := by
    intro hmem
    simp only [List.mem_append, List.mem_cons] at hmem
    rcases hmem with h | h | h | h | h
    · exact (schemeByte_facts _ (hsall _ h)).2.2.1 rfl
    · exact absurd h (by decide)
    · exact absurd h (by decide)
    · exact absurd h (by decide)
    · exact (hostByte_facts _ (hhall _ h)).2.2.2.2.1 rfl
  unfold url.Parse
  rw [hraw, bytes_separators.1, strings.Cut_eq_self _ _ hhash]
  simp [url.parse_plain s host hs hh]

/-- `String` of a URL with a plain scheme, a plain host and a path that needs no
escaping: `scheme://host` followed by the path. -/
theorem url.URL.String_plain (s host p : GoString) (hs : plainScheme s = true)
    (hh : plainHost host = true) (hp1 : url.escape p .encodePath = p)
    (hp2 : p = [] ∨ p.head? = some (ch '/')) :
    url.URL.String { Scheme := s, Host := host, Path := p } = s ++ bytes "://" ++ host ++ p := by
  obtain ⟨hsne, _⟩ := plainScheme_bytes s hs
  obtain ⟨hhne, hhall, _⟩ := plainHost_bytes host hh
  have hstar : p ≠ bytes "*" := by
    rcases hp2 with rfl | h
    · decide
    · intro e
      rw [e] at h
      exact absurd h (by decide)
  have hpath : url.URL.EscapedPath { Scheme := s, Host := host, Path := p } = p := by
    simp [url.URL.EscapedPath, hstar, hp1]
  have hbuf : (decide (p ≠ []) && decide (p.head? ≠ some (ch '/')) && decide (host ≠ [])) = false := by
    rcases hp2 with rfl | h
    · simp
    · simp [h]
  have hsep : bytes "://" = bytes ":" ++ bytes "//" := by decide
  unfold url.URL.String
  simp only [hpath, hbuf, url.escape_plainHost host hhall, hsep]
  simp [hsne, hhne]

/-- The paths of TestUrlFor need no escaping. -/
theorem escape_test_paths :
    url.escape (bytes "/") .encodePath = bytes "/" ∧
    url.escape (bytes "/path/to/api") .encodePath = bytes "/path/to/api" ∧
    (bytes "/").head? = some (ch '/') ∧ (bytes "/path/to/api").head? = some (ch '/') ∧
    url.escape [] .encodePath = [] := by
  decide

/-! ### The heap, NewAPI and urlFor -/

/-- A write through the pointer to the newest object. -/
theorem Heap.update_last (l : List url.URL) (u : url.URL) (f : url.URL → url.URL) :
    Heap.update ⟨l ++ [u]⟩ (some l.length) f = some ⟨l ++ [f u]⟩ := by
  simp [Heap.update, Heap.deref]

/-- `Parse` of a string that parses allocates the URL at the end of the heap. -/
theorem Heap.Parse_ok (h : Heap) (rawURL : GoString) (u : url.URL)
    (hp : url.Parse rawURL = .ok u) :
    h.Parse rawURL = ((some h.urls.length, .nil), ⟨h.urls ++ [u]⟩) := by
  simp [Heap.Parse, hp]

/-- `urlFor` when the base is an object whose string form parses: a new object, the
re-parsed base with the path and the query written into it, appended to the heap. -/
theorem API.urlFor_eq {T : MkrTypes} (api : API T) (h : Heap) (path query : GoString)
    (base u : url.URL) (hb : h.deref api.BaseURL = some base)
    (hp : url.Parse base.String = .ok u) :
    api.urlFor h path query =
      some (some h.urls.length, ⟨h.urls ++ [{ u with Path := path, RawQuery := query }]⟩) := by
  unfold API.urlFor
  rw [hb]
  simp only [Heap.Parse_ok h _ u hp, Heap.update_last]

/-- `NewAPI` when the URL parses and the library returns a client: the parsed URL is
a new object, and the facade holds the pointer to it, the key, the flag and the
client as the library returned it. -/
theorem NewAPI_eq {T : MkrTypes}
    (NewClientWithOptions : GoString → GoString → Bool → Option (mkr.Client T) × GoError)
    (h : Heap) (rawurl apiKey : GoString) (verbose : Bool) (u : url.URL)
    (c : Option (mkr.Client T))
    (hp : url.Parse rawurl = .ok u)
    (hc : NewClientWithOptions apiKey rawurl verbose = (c, .nil)) :
    NewAPI NewClientWithOptions h rawurl apiKey verbose =
      ((some { BaseURL := some h.urls.length, APIKey := apiKey, Verbose := verbose, c := c },
        .nil), ⟨h.urls ++ [u]⟩) := by
  unfold NewAPI
  simp [Heap.Parse_ok h _ u hp, hc]

/-- Reading through the pointer to the newest object. -/
theorem Heap.deref_last (l : List url.URL) (u : url.URL) :
    Heap.deref ⟨l ++ [u]⟩ (some l.length) = some u := by
  simp [Heap.deref]

/-- A URL with a plain scheme and a plain host and nothing else is what its own
string form parses to. -/
theorem url.Parse_String_plain (s host : GoString) (hs : plainScheme s = true)
    (hh : plainHost host = true) :
    url.Parse (url.URL.String { Scheme := s, Host := host }) = .ok { Scheme := s, Host := host } := by
  have h := url.URL.String_plain s host [] hs hh escape_test_paths.2.2.2.2 (Or.inl rfl)
  rw [List.append_nil] at h
  rw [h]
  exact url.Parse_plain s host hs hh

/-- C6 (as stated, refuted): `http://example.com/api` is a valid base URL, NewAPI
succeeds on it, and `urlFor("/", "").String()` is `http://example.com/`, which is not
the base followed by `/`. -/
theorem C6_counterexample_base_with_path :
    urlForString newMockClient (bytes "http://example.com/api") (bytes "dummy-key") true
        (bytes "/") [] = some (bytes "http://example.com/") ∧
    bytes "http://example.com/" ≠ bytes "http://example.com/api" ++ bytes "/" := by
  decide

/-- C6 (amended): for every base URL string `b` of the form `scheme://host` (a plain
scheme in lower case; a plain host, with or without a port), when the library returns
a client NewAPI succeeds, and `urlFor("/", "").String()` is `b` followed by `/`,
`urlFor("/path/to/api", "").String()` is `b` followed by `/path/to/api`: nothing
else, no query included, is added. -/
theorem C6_urlFor_string_on_plain_base {T : MkrTypes}
    (NewClientWithOptions : GoString → GoString → Bool → Option (mkr.Client T) × GoError)
    (h : Heap) (s host apiKey : GoString) (verbose : Bool) (c : Option (mkr.Client T))
    (hs : plainScheme s = true) (hh : plainHost host = true)
    (hc : NewClientWithOptions apiKey (s ++ bytes "://" ++ host) verbose = (c, .nil)) :
    ∃ (api : API T) (h1 : Heap),
      NewAPI NewClientWithOptions h (s ++ bytes "://" ++ host) apiKey verbose =
        ((some api, .nil), h1) ∧
      (∃ p h2, api.urlFor h1 (bytes "/") [] = some (p, h2) ∧
        (h2.deref p).map url.URL.String = some (s ++ bytes "://" ++ host ++ bytes "/")) ∧
      (∃ p h2, api.urlFor h1 (bytes "/path/to/api") [] = some (p, h2) ∧
        (h2.deref p).map url.URL.String =
          some (s ++ bytes "://" ++ host ++ bytes "/path/to/api")) := by
  have hnew := NewAPI_eq NewClientWithOptions h (s ++ bytes "://" ++ host) apiKey verbose
    { Scheme := s, Host := host } c (url.Parse_plain s host hs hh) hc
  refine ⟨_, _, hnew, ?_, ?_⟩
  · refine ⟨_, _, API.urlFor_eq _ _ (bytes "/") [] { Scheme := s, Host := host }
      { Scheme := s, Host := host } (Heap.deref_last _ _) (url.Parse_String_plain s host hs hh), ?_⟩
    rw [Heap.deref_last, Option.map_some']
    exact congrArg some (url.URL.String_plain s host (bytes "/") hs hh escape_test_paths.1
      (Or.inr escape_test_paths.2.2.1))
  · refine ⟨_, _, API.urlFor_eq _ _ (bytes "/path/to/api") [] { Scheme := s, Host := host }
      { Scheme := s, Host := host } (Heap.deref_last _ _) (url.Parse_String_plain s host hs hh), ?_⟩
    rw [Heap.deref_last, Option.map_some']
    exact congrArg some (url.URL.String_plain s host (bytes "/path/to/api") hs hh
      escape_test_paths.2.1 (Or.inr escape_test_paths.2.2.2.1))

/-- C6 (amended), at the base of TestUrlFor, `http://example.com`, on an empty heap. -/
theorem C6_urlFor_string_witness :
    ∃ (api : API exampleTypes) (h1 : Heap),
      NewAPI newMockClient ⟨[]⟩ (bytes "http" ++ bytes "://" ++ bytes "example.com")
        (bytes "dummy-key") true = ((some api, .nil), h1) ∧
      (∃ p h2, api.urlFor h1 (bytes "/") [] = some (p, h2) ∧
        (h2.deref p).map url.URL.String =
          some (bytes "http" ++ bytes "://" ++ bytes "example.com" ++ bytes "/")) ∧
      (∃ p h2, api.urlFor h1 (bytes "/path/to/api") [] = some (p, h2) ∧
        (h2.deref p).map url.URL.String =
          some (bytes "http" ++ bytes "://" ++ bytes "example.com" ++ bytes "/path/to/api")) :=
  C6_urlFor_string_on_plain_base newMockClient ⟨[]⟩ (bytes "http") (bytes "example.com")
    (bytes "dummy-key") true (some mockClient) (by decide) (by decide) rfl

/-- C8: `NewAPI(rawurl, apiKey, verbose)` returns no API and the (non-nil) parse
error when `rawurl` does not parse; whenever it returns an API the error is nil, the
API's `BaseURL` points to the parsed `rawurl`, its `APIKey` is `apiKey` and its
`Verbose` is `verbose`; it does return one when `rawurl` parses and the library
returns a client; for `http://example.com`, `BaseURL.String()` is `http://example.com`. -/
theorem C8_NewAPI_contract :
    (∀ (T : MkrTypes)
        (NewClientWithOptions : GoString → GoString → Bool → Option (mkr.Client T) × GoError)
        (h : Heap) (rawurl apiKey : GoString) (verbose : Bool),
      (∀ e, url.Parse rawurl = .error e →
        NewAPI NewClientWithOptions h rawurl apiKey verbose = ((none, .urlError e), h) ∧
        GoError.urlError e ≠ .nil) ∧
      (∀ api err h1, NewAPI NewClientWithOptions h rawurl apiKey verbose = ((some api, err), h1) →
        err = .nil ∧ (∃ u, url.Parse rawurl = .ok u ∧ h1.deref api.BaseURL = some u) ∧
        api.APIKey = apiKey ∧ api.Verbose = verbose) ∧
      (∀ u c, url.Parse rawurl = .ok u → NewClientWithOptions apiKey rawurl verbose = (c, .nil) →
        ∃ api h1, NewAPI NewClientWithOptions h rawurl apiKey verbose = ((some api, .nil), h1))) ∧
    baseURLString newMockClient (bytes "http://example.com") (bytes "dummy-key") true =
      some (bytes "http://example.com") := by
  refine ⟨fun T lib h rawurl apiKey verbose => ⟨?_, ?_, ?_⟩, by decide⟩
  · intro e he
    refine ⟨?_, by simp⟩
    simp [NewAPI, Heap.Parse, he]
  · intro api err h1 hnew
    cases hp : url.Parse rawurl with
    | error e =>
      simp [NewAPI, Heap.Parse, hp] at hnew
    | ok u =>
      rcases hl : lib apiKey rawurl verbose with ⟨c, err'⟩
      by_cases hnil : err' = .nil
      · subst hnil
        rw [NewAPI_eq lib h rawurl apiKey verbose u c hp hl] at hnew
        simp only [Prod.mk.injEq, Option.some.injEq] at hnew
        obtain ⟨⟨hapi, herr⟩, hh1⟩ := hnew
        subst hapi hh1
        exact ⟨herr.symm, ⟨u, rfl, Heap.deref_last _ _⟩, rfl, rfl⟩
      · simp [NewAPI, Heap.Parse, hp, hl, hnil] at hnew
  · intro u c hp hl
    exact ⟨_, _, NewAPI_eq lib h rawurl apiKey verbose u c hp hl⟩

/-- A log line is issued on no client. -/
theorem issuedOn_logDump {T : MkrTypes} (dumped : GoString × GoError) :
    (logDump dumped : List (Effect T)).filterMap Effect.issuedOn = [] := by
  unfold logDump
  split <;> rfl

/-- The one HTTP client `do` issues a request on: the one it builds, with the
timeout `apiRequestTimeout`. -/
theorem API.do_issuedOn {T : MkrTypes} (env : Env) (api : API T) (req : http.Request) :
    (api.do env req).1.filterMap Effect.issuedOn = [{ Timeout := apiRequestTimeout }] := by
  have hone : ∀ (client : http.Client) (r : http.Request) (t : List (Effect T)),
      (Effect.httpDo client r :: t).filterMap Effect.issuedOn =
        client :: t.filterMap Effect.issuedOn := fun _ _ _ => rfl
  unfold API.do
  simp only []
  split_ifs <;> (try split) <;>
    simp [List.filterMap_append, hone, issuedOn_logDump]

/-- The client a facade built by `NewAPI` holds is the one the library returned. -/
theorem NewAPI_client {T : MkrTypes}
    (NewClientWithOptions : GoString → GoString → Bool → Option (mkr.Client T) × GoError)
    (h : Heap) (rawurl apiKey : GoString) (verbose : Bool) (api : API T) (err : GoError)
    (h1 : Heap)
    (hnew : NewAPI NewClientWithOptions h rawurl apiKey verbose = ((some api, err), h1)) :
    api.c = (NewClientWithOptions apiKey rawurl verbose).1 := by
  cases hp : url.Parse rawurl with
  | error e => simp [NewAPI, Heap.Parse, hp] at hnew
  | ok u =>
    rcases hl : NewClientWithOptions apiKey rawurl verbose with ⟨c, err'⟩
    by_cases hnil : err' = .nil
    · subst hnil
      rw [NewAPI_eq NewClientWithOptions h rawurl apiKey verbose u c hp hl] at hnew
      simp only [Prod.mk.injEq, Option.some.injEq] at hnew
      obtain ⟨⟨hapi, _⟩, _⟩ := hnew
      subst hapi
      rfl
    · simp [NewAPI, Heap.Parse, hp, hl, hnil] at hnew

/-- Where the timeout of a remote call comes from: `do` issues its one request on
the HTTP client it builds, with the timeout `apiRequestTimeout`; each operation makes
one call on the client `api.c` instead, issued on that client's own `HTTPClient`; and
`NewAPI` stores the client as the library returned it. -/
theorem remote_calls_issued_on {T : MkrTypes} :
    (apiRequestTimeout = 30 * 1000000000 ∧
     ∀ (env : Env) (api : API T) (req : http.Request),
      (api.do env req).1.filterMap Effect.issuedOn = [{ Timeout := apiRequestTimeout }]) ∧
    (∀ (api : API T) (c : mkr.Client T), api.c = some c →
      (∀ id, (api.FindHost id).map (fun r => r.1.filterMap Effect.issuedOn) =
        some [c.HTTPClient]) ∧
      (∀ id, (api.FindHostByCustomIdentifier id).map (fun r => r.1.filterMap Effect.issuedOn) =
        some [c.HTTPClient]) ∧
      (∀ hostParam, (api.CreateHost hostParam).map (fun r => r.1.filterMap Effect.issuedOn) =
        some [c.HTTPClient]) ∧
      (∀ hostID hostParam,
        (api.UpdateHost hostID hostParam).map (fun r => r.1.filterMap Effect.issuedOn) =
          some [c.HTTPClient]) ∧
      (∀ hostID status,
        (api.UpdateHostStatus hostID status).map (fun r => r.1.filterMap Effect.issuedOn) =
          some [c.HTTPClient]) ∧
      (∀ metricsValues,
        (api.PostMetricValues metricsValues).map (fun r => r.1.filterMap Effect.issuedOn) =
          some [c.HTTPClient]) ∧
      (∀ payloads, (api.CreateGraphDefs payloads).map (fun r => r.1.filterMap Effect.issuedOn) =
        some [c.HTTPClient]) ∧
      (∀ hostID, (api.RetireHost hostID).map (fun r => r.1.filterMap Effect.issuedOn) =
        some [c.HTTPClient])) ∧
    (∀ (NewClientWithOptions : GoString → GoString → Bool → Option (mkr.Client T) × GoError)
        (h : Heap) (rawurl apiKey : GoString) (verbose : Bool) (api : API T) (err : GoError)
        (h1 : Heap),
      NewAPI NewClientWithOptions h rawurl apiKey verbose = ((some api, err), h1) →
        api.c = (NewClientWithOptions apiKey rawurl verbose).1) := by
  refine ⟨⟨by decide, API.do_issuedOn⟩, ?_, NewAPI_client⟩
  intro api c hc
  refine ⟨?_, ?_, ?_, ?_, ?_, ?_, ?_, ?_⟩ <;> intros <;>
    simp [API.FindHost, API.FindHostByCustomIdentifier, API.CreateHost, API.UpdateHost,
      API.UpdateHostStatus, API.PostMetricValues, API.CreateGraphDefs, API.RetireHost, hc,
      Effect.issuedOn]

/-- C9: on a facade that `NewAPI` built over the client of the library's constructor,
every remote call - each of FindHost, FindHostByCustomIdentifier, CreateHost,
UpdateHost, UpdateHostStatus, PostMetricValues, CreateGraphDefs and RetireHost, and
the shared dispatch `do` - is issued on an HTTP client whose timeout is the fixed
30 seconds. -/
theorem C9_remote_calls_have_fixed_timeout {T : MkrTypes} (remote : mkr.Client T) (h : Heap)
    (rawurl apiKey : GoString) (verbose : Bool) (api : API T) (err : GoError) (h1 : Heap)
    (hnew : NewAPI (mkr.NewClientWithOptions remote) h rawurl apiKey verbose =
      ((some api, err), h1)) :
    apiRequestTimeout = 30 * 1000000000 ∧
    (∀ (env : Env) (req : http.Request),
      (api.do env req).1.filterMap Effect.issuedOn = [{ Timeout := apiRequestTimeout }]) ∧
    (∀ id, (api.FindHost id).map (fun r => r.1.filterMap Effect.issuedOn) =
      some [{ Timeout := apiRequestTimeout }]) ∧
    (∀ id, (api.FindHostByCustomIdentifier id).map (fun r => r.1.filterMap Effect.issuedOn) =
      some [{ Timeout := apiRequestTimeout }]) ∧
    (∀ hostParam, (api.CreateHost hostParam).map (fun r => r.1.filterMap Effect.issuedOn) =
      some [{ Timeout := apiRequestTimeout }]) ∧
    (∀ hostID hostParam,
      (api.UpdateHost hostID hostParam).map (fun r => r.1.filterMap Effect.issuedOn) =
        some [{ Timeout := apiRequestTimeout }]) ∧
    (∀ hostID status,
      (api.UpdateHostStatus hostID status).map (fun r => r.1.filterMap Effect.issuedOn) =
        some [{ Timeout := apiRequestTimeout }]) ∧
    (∀ metricsValues,
      (api.PostMetricValues metricsValues).map (fun r => r.1.filterMap Effect.issuedOn) =
        some [{ Timeout := apiRequestTimeout }]) ∧
    (∀ payloads, (api.CreateGraphDefs payloads).map (fun r => r.1.filterMap Effect.issuedOn) =
      some [{ Timeout := apiRequestTimeout }]) ∧
    (∀ hostID, (api.RetireHost hostID).map (fun r => r.1.filterMap Effect.issuedOn) =
      some [{ Timeout := apiRequestTimeout }]) := by
  have hc : api.c = some { remote with HTTPClient := { Timeout := apiRequestTimeout } } :=
    NewAPI_client _ h rawurl apiKey verbose api err h1 hnew
  obtain ⟨⟨h30, hdo⟩, hops, _⟩ := remote_calls_issued_on (T := T)
  obtain ⟨o1, o2, o3, o4, o5, o6, o7, o8⟩ := hops api _ hc
  exact ⟨h30, fun env req => hdo env api req, o1, o2, o3, o4, o5, o6, o7, o8⟩

/-- C9, at the facade `NewAPI` builds from `http://example.com` over the library's
client for the mock server: `FindHost` and `RetireHost` are issued on a client with
a timeout of 30 seconds. -/
theorem C9_fixed_timeout_witness :
    ∃ (api : API exampleTypes) (h1 : Heap),
      NewAPI (mkr.NewClientWithOptions mockClient) ⟨[]⟩
        (bytes "http" ++ bytes "://" ++ bytes "example.com") (bytes "dummy-key") false =
        ((some api, .nil), h1) ∧
      (api.FindHost (bytes "9rxGOHfVF8F")).map (fun r => r.1.filterMap Effect.issuedOn) =
        some [{ Timeout := 30000000000 }] ∧
      (api.RetireHost (bytes "9rxGOHfVF8F")).map (fun r => r.1.filterMap Effect.issuedOn) =
        some [{ Timeout := 30000000000 }] := by
  have hnew := NewAPI_eq (mkr.NewClientWithOptions mockClient) ⟨[]⟩
    (bytes "http" ++ bytes "://" ++ bytes "example.com") (bytes "dummy-key") false
    { Scheme := bytes "http", Host := bytes "example.com" } _
    (url.Parse_plain (bytes "http") (bytes "example.com") (by decide) (by decide)) rfl
  obtain ⟨_, _, o1, _, _, _, _, _, _, o8⟩ :=
    C9_remote_calls_have_fixed_timeout mockClient ⟨[]⟩ _ _ _ _ _ _ hnew
  exact ⟨_, _, hnew, o1 _, o8 _⟩

/-! ### The round trip of `urlFor`: `Parse` of `String` -/

/-! ### More on strings -/

/-- The first occurrence of a byte. -/
theorem strings.Index_append_of_not_mem (a b : GoString) (c : Byte) (h : c ∉ a) :
    strings.Index (a ++ c :: b) [c] = some a.length := by
  induction a with
  | nil => simp [strings.Index, List.isPrefixOf]
  | cons d a ih =>
    have hd : c ≠ d := fun e => h (by simp [e])
    have ha : c ∉ a := fun e => h (by simp [e])
    simp [strings.Index, List.isPrefixOf, hd, ih ha]

/-- The last occurrence of a byte. -/
theorem strings.LastIndex_append_of_not_mem (a b : GoString) (c : Byte) (h : c ∉ b) :
    strings.LastIndex (a ++ c :: b) [c] = some a.length := by
  induction a with
  | nil => simp [strings.LastIndex, strings.LastIndex_eq_none b c h, List.isPrefixOf]
  | cons d a ih => simp [strings.LastIndex, ih]

/-- A string either lacks a byte or splits at its first occurrence. -/
theorem split_at_first (s : GoString) (c : Byte) :
    c ∉ s ∨ ∃ a b, s = a ++ c :: b ∧ c ∉ a := by
  induction s with
  | nil => exact Or.inl (by simp)
  | cons d s ih =>
    by_cases hd : c = d
    · exact Or.inr ⟨[], s, by simp [hd], by simp⟩
    · rcases ih with h | ⟨a, b, hs, ha⟩
      · exact Or.inl (by simp [hd, h])
      · exact Or.inr ⟨d :: a, b, by simp [hs], by simp [hd, ha]⟩

/-- `Cut` at the first occurrence of a byte. -/
theorem strings.Cut_append_of_not_mem (a b : GoString) (c : Byte) (h : c ∉ a) :
    strings.Cut (a ++ c :: b) [c] = (a, b, true) := by
  simp [strings.Cut, strings.Index_append_of_not_mem a b c h]

/-- What `Cut` returns: the string whole, or its two sides of the first occurrence. -/
theorem strings.Cut_cases (s : GoString) (c : Byte) :
    (c ∉ s ∧ strings.Cut s [c] = (s, [], false)) ∨
    ∃ a b, s = a ++ c :: b ∧ c ∉ a ∧ strings.Cut s [c] = (a, b, true) := by
  rcases split_at_first s c with h | ⟨a, b, hs, ha⟩
  · exact Or.inl ⟨h, strings.Cut_eq_self s c h⟩
  · exact Or.inr ⟨a, b, hs, ha, by rw [hs]; exact strings.Cut_append_of_not_mem a b c ha⟩

/-- A byte is contained exactly when it occurs. -/
theorem strings.Contains_iff_mem (s : GoString) (c : Byte) :
    strings.Contains s [c] = true ↔ c ∈ s := by
  unfold strings.Contains
  rcases split_at_first s c with h | ⟨a, b, hs, ha⟩
  · simp [strings.Index_eq_none s c h, h]
  · rw [hs, strings.Index_append_of_not_mem a b c ha]
    simp

/-- Where `Index` finds a byte, the byte stands, and not before. -/
theorem strings.Index_some (s : GoString) (c : Byte) (i : Nat)
    (h : strings.Index s [c] = some i) :
    ∃ b, s = s.take i ++ c :: b ∧ c ∉ s.take i ∧ s.drop i = c :: b ∧ (s.take i).length = i := by
  rcases split_at_first s c with hn | ⟨a, b, hs, ha⟩
  · rw [strings.Index_eq_none s c hn] at h
    cases h
  · have hi : i = a.length := by
      rw [hs, strings.Index_append_of_not_mem a b c ha] at h
      exact (Option.some.inj h).symm
    subst hi
    refine ⟨b, ?_, ?_, ?_, ?_⟩
    · rw [hs, List.take_left' rfl]
    · rw [hs, List.take_left' rfl]
      exact ha
    · rw [hs, List.drop_left' rfl]
    · rw [hs, List.take_left' rfl]

/-! ### The scheme that `getScheme` returns -/

/-- The byte test `c == x` holds for the byte of the literal only. -/
theorem isCh_eq_true_iff (c : Byte) (x : Char) (hx : x.toNat < 256) :
    isCh c x = true ↔ c = ch x := by
  simp only [isCh, ch, beq_iff_eq]
  constructor
  · intro h
    apply Fin.ext
    simp [Fin.ofNat, h, Nat.mod_eq_of_lt hx]
  · intro h
    rw [h]
    simp [Fin.ofNat, Nat.mod_eq_of_lt hx]


set_option maxRecDepth 100000 in
/-- Scheme bytes, by enumeration: none is a separator, and lower-casing gives a byte
of a plain scheme. -/
theorem schemeByteAny_facts : ∀ c : Byte, schemeByteAny c = true →
    c ≠ ch '/' ∧ c ≠ ch '?' ∧ c ≠ ch '#' ∧ c ≠ ch ':' ∧ c ≠ ch '*' ∧
    (inRange (if inRange c 'A' 'Z' then c + 32 else c) 'a' 'z' ||
      inRange (if inRange c 'A' 'Z' then c + 32 else c) '0' '9' ||
      isCh (if inRange c 'A' 'Z' then c + 32 else c) '+' ||
      isCh (if inRange c 'A' 'Z' then c + 32 else c) '-' ||
      isCh (if inRange c 'A' 'Z' then c + 32 else c) '.') = true ∧
    ((inRange c 'a' 'z' || inRange c 'A' 'Z') = true →
      inRange (if inRange c 'A' 'Z' then c + 32 else c) 'a' 'z' = true ∧ c ≠ ch '.') := by
  decide

/-- The scheme loop returns no scheme and the whole string, or the bytes up to the
first colon, all of them scheme bytes. -/
theorem url.getSchemeLoop_spec (raw : GoString) (l : GoString) :
    ∀ (pre : GoString) (sch rest : GoString), raw = pre ++ l →
      pre.all schemeByteAny = true →
      url.getSchemeLoop raw pre.length l = .ok (sch, rest) →
      (sch = [] ∧ rest = raw) ∨
      (∃ l1, sch = pre ++ l1 ∧ l = l1 ++ ch ':' :: rest ∧ l1.all schemeByteAny = true ∧
        sch ≠ []) := by
  induction l with
  | nil =>
    intro pre sch rest _ _ h
    simp only [url.getSchemeLoop, Except.ok.injEq, Prod.mk.injEq] at h
    exact Or.inl ⟨h.1.symm, h.2.symm⟩
  | cons c l ih =>
    intro pre sch rest hraw hpre h
    have hstep : ∀ (hc : schemeByteAny c = true),
        url.getSchemeLoop raw (pre.length + 1) l = .ok (sch, rest) →
        (sch = [] ∧ rest = raw) ∨
        (∃ l1, sch = pre ++ l1 ∧ c :: l = l1 ++ ch ':' :: rest ∧
          l1.all schemeByteAny = true ∧ sch ≠ []) := by
      intro hc h'
      have := ih (pre ++ [c]) sch rest (by simp [hraw])
        (by simp [List.all_append, hpre, hc]) (by simpa using h')
      rcases this with h0 | ⟨l1, h1, h2, h3, h4⟩
      · exact Or.inl h0
      · exact Or.inr ⟨c :: l1, by simp [h1], by simp [h2], by simp [hc, h3], h4⟩
    unfold url.getSchemeLoop at h
    by_cases h1 : (inRange c 'a' 'z' || inRange c 'A' 'Z') = true
    · rw [if_pos h1] at h
      exact hstep (by simp only [schemeByteAny]; simp only [Bool.or_eq_true] at h1 ⊢; tauto) h
    · rw [if_neg h1] at h
      by_cases h2 : (inRange c '0' '9' || isCh c '+' || isCh c '-' || isCh c '.') = true
      · rw [if_pos h2] at h
        by_cases h3 : pre.length = 0
        · rw [if_pos h3] at h
          simp only [Except.ok.injEq, Prod.mk.injEq] at h
          exact Or.inl ⟨h.1.symm, h.2.symm⟩
        · rw [if_neg h3] at h
          exact hstep
            (by simp only [schemeByteAny]; simp only [Bool.or_eq_true] at h2 ⊢; tauto) h
      · rw [if_neg h2] at h
        by_cases h4 : isCh c ':' = true
        · rw [if_pos h4] at h
          by_cases h5 : pre.length = 0
          · rw [if_pos h5] at h
            cases h
          · rw [if_neg h5] at h
            simp only [Except.ok.injEq, Prod.mk.injEq] at h
            have hc : c = ch ':' := (isCh_eq_true_iff c ':' (by decide)).1 h4
            have hpne : pre ≠ [] := fun e => h5 (by simp [e])
            have htake : List.take pre.length raw = pre := by
              rw [hraw, List.take_left' rfl]
            have hdrop : List.drop (pre.length + 1) raw = l := by
              rw [hraw, show pre ++ c :: l = (pre ++ [c]) ++ l by simp]
              exact List.drop_left' (by simp)
            rw [htake, hdrop] at h
            refine Or.inr ⟨[], by simp [← h.1], ?_, by simp, ?_⟩
            · rw [← h.2, hc]
              simp
            · rw [← h.1]
              exact hpne
        · rw [if_neg h4] at h
          simp only [Except.ok.injEq, Prod.mk.injEq] at h
          exact Or.inl ⟨h.1.symm, h.2.symm⟩

/-- What `getScheme` returns: no scheme and the whole string, or the scheme before
the first colon and the rest after it. -/
theorem url.getScheme_spec (x sch rest : GoString)
    (h : url.getScheme x = .ok (sch, rest)) :
    (sch = [] ∧ rest = x) ∨ (x = sch ++ ch ':' :: rest ∧ schemeShape sch = true) := by
  cases x with
  | nil =>
    simp only [url.getScheme, url.getSchemeLoop, Except.ok.injEq, Prod.mk.injEq] at h
    exact Or.inl ⟨h.1.symm, h.2.symm⟩
  | cons c l =>
    by_cases h1 : (inRange c 'a' 'z' || inRange c 'A' 'Z') = true
    · have hc : schemeByteAny c = true := by
        simp only [schemeByteAny]; simp only [Bool.or_eq_true] at h1 ⊢; tauto
      have h' : url.getSchemeLoop (c :: l) ([c] : GoString).length l = .ok (sch, rest) := by
        simpa [url.getScheme, url.getSchemeLoop, h1] using h
      rcases url.getSchemeLoop_spec (c :: l) l [c] sch rest rfl (by simp [hc]) h' with
        h0 | ⟨l1, hs, hl, hall, _⟩
      · exact Or.inl h0
      · refine Or.inr ⟨by simp [hs, hl], ?_⟩
        rw [hs]
        simp [schemeShape, h1, hall]
    · have h' := url.getSchemeLoop_spec (c :: l) (c :: l) [] sch rest rfl (by simp)
        (by simpa [url.getScheme] using h)
      rcases h' with h0 | ⟨l1, hs, hl, hall, hne⟩
      · exact Or.inl h0
      · exfalso
        simp only [List.nil_append] at hs
        subst hs
        cases sch with
        | nil => exact hne rfl
        | cons d sch =>
          simp only [List.cons_append, List.cons.injEq] at hl
          obtain ⟨hd, _⟩ := hl
          subst hd
          simp only [url.getScheme, url.getSchemeLoop, h1] at h
          by_cases h2 : (inRange c '0' '9' || isCh c '+' || isCh c '-' || isCh c '.') = true
          · simp [h2] at h
          · have hcs : schemeByteAny c = true := by
              simp only [List.all_cons, Bool.and_eq_true] at hall
              exact hall.1
            simp only [schemeByteAny] at hcs
            simp only [Bool.or_eq_true] at h1 h2 hcs
            tauto

/-- Lower-casing a scheme that `getScheme` returned gives a plain scheme. -/
theorem plainScheme_ToLower (s : GoString) (h : schemeShape s = true) :
    plainScheme (strings.ToLower s) = true := by
  cases s with
  | nil => simp [schemeShape] at h
  | cons c s =>
    simp only [schemeShape, Bool.and_eq_true, List.all_eq_true] at h
    obtain ⟨hc, hall⟩ := h
    have hcs : schemeByteAny c = true := by
      simp only [schemeByteAny]; simp only [Bool.or_eq_true] at hc ⊢; tauto
    simp only [strings.ToLower, List.map_cons, plainScheme, Bool.and_eq_true, List.all_eq_true,
      List.mem_map, forall_exists_index, and_imp, forall_apply_eq_imp_iff₂]
    exact ⟨((schemeByteAny_facts c hcs).2.2.2.2.2.2 hc).1,
      fun d hd => (schemeByteAny_facts d (hall d hd)).2.2.2.2.2.1⟩

/-! ### `escape` and `unescape` -/

/-- `escape` writes each byte by itself. -/
theorem url.escape_eq_flatMap (s : GoString) (mode : url.encoding) :
    url.escape s mode = s.flatMap (url.escapeByte mode) := by
  unfold url.escape
  simp only []
  split_ifs with h
  · simp only [Bool.and_eq_true, decide_eq_true_eq, List.countP_eq_zero] at h
    have hall : ∀ c ∈ s, url.shouldEscape c mode = false := by
      intro c hc
      have h1 := h.1 c hc
      have h2 := h.2 c hc
      cases hs : url.shouldEscape c mode <;>
        cases hp : (isCh c ' ' && decide (mode = url.encoding.encodeQueryComponent)) <;>
        simp_all
    clear h
    induction s with
    | nil => rfl
    | cons c s ih =>
      rw [List.flatMap_cons, ← ih (fun d hd => hall d (by simp [hd]))]
      simp [url.escapeByte, hall c (by simp)]
  · rfl

set_option maxRecDepth 100000 in
/-- Hexadecimal digits, by enumeration: the two digits written for a byte read back
as that byte, and neither is a separator. -/
theorem upperhex_facts : ∀ c : Byte,
    url.unhex (url.upperhex (c.val / 16)) * 16 + url.unhex (url.upperhex (c.val % 16)) = c ∧
    notAuthoritySep (url.upperhex (c.val / 16)) = true ∧
    notAuthoritySep (url.upperhex (c.val % 16)) = true ∧
    notPathSep (url.upperhex (c.val / 16)) = true ∧
    notPathSep (url.upperhex (c.val % 16)) = true := by
  decide

set_option maxRecDepth 100000 in
/-- Bytes written as themselves, by enumeration: none is a `%`; in a host and in a
user info none is `/`, `?`, `#` or `@`; in a path none is `?` or `#`. -/
theorem unescaped_facts : ∀ c : Byte,
    (url.shouldEscape c .encodeHost = false → isCh c '%' = false ∧ notAuthoritySep c = true) ∧
    (url.shouldEscape c .encodeUserPassword = false →
      notAuthoritySep c = true ∧ isCh c ':' = false) ∧
    (url.shouldEscape c .encodePath = false → notPathSep c = true) := by
  decide

/-- What `escape` writes for a host reads back, by the second loop of `unescape`,
as the host. -/
theorem url.unescapeBuild_escape_host (s : GoString) :
    url.unescapeBuild .encodeHost (url.escape s .encodeHost) = s := by
  rw [url.escape_eq_flatMap]
  induction s with
  | nil => rfl
  | cons c s ih =>
    rw [List.flatMap_cons]
    cases hs : url.shouldEscape c .encodeHost with
    | true =>
      have hp : isCh (ch '%') '%' = true := by decide
      simp only [url.escapeByte, hs, if_true, Bool.and_false, Bool.false_eq_true, if_false,
        List.cons_append, List.nil_append, url.unescapeBuild, hp, ih,
        (upperhex_facts c).1, show (decide (url.encoding.encodeHost =
          url.encoding.encodeQueryComponent)) = false from rfl]
    | false =>
      have hp := ((unescaped_facts c).1 hs).1
      simp only [url.escapeByte, hs, Bool.false_eq_true, if_false, List.cons_append,
        List.nil_append]
      unfold url.unescapeBuild
      simp only [hp, Bool.false_eq_true, if_false, ih]
      by_cases hplus : isCh c '+' = true
      · have hc : c = ch '+' := (isCh_eq_true_iff c '+' (by decide)).1 hplus
        simp [hplus, hc]
      · simp [hplus]

/-- A byte that `escape` writes is a `%`, a hexadecimal digit, a `+`, or a byte of
the string that is not escaped. -/
theorem url.mem_escape (s : GoString) (mode : url.encoding) (d : Byte)
    (hd : d ∈ url.escape s mode) :
    d = ch '%' ∨ d = ch '+' ∨ (∃ c : Byte, d = url.upperhex (c.val / 16)) ∨
    (∃ c : Byte, d = url.upperhex (c.val % 16)) ∨ url.shouldEscape d mode = false := by
  rw [url.escape_eq_flatMap, List.mem_flatMap] at hd
  obtain ⟨c, _, hdc⟩ := hd
  unfold url.escapeByte at hdc
  split_ifs at hdc with h1 h2
  · simp only [List.mem_singleton] at hdc
    exact Or.inr (Or.inl hdc)
  · simp only [List.mem_cons, List.mem_singleton, List.not_mem_nil, or_false] at hdc
    rcases hdc with h | h | h
    · exact Or.inl h
    · exact Or.inr (Or.inr (Or.inl ⟨c, h⟩))
    · exact Or.inr (Or.inr (Or.inr (Or.inl ⟨c, h⟩)))
  · simp only [List.mem_singleton] at hdc
    subst hdc
    exact Or.inr (Or.inr (Or.inr (Or.inr (by simpa using h1))))

/-- An escaped host holds no `/`, `?`, `#` or `@`. -/
theorem url.escape_host_no_sep (s : GoString) (d : Byte)
    (hd : d ∈ url.escape s .encodeHost) : notAuthoritySep d = true := by
  rcases url.mem_escape s _ d hd with h | h | ⟨c, h⟩ | ⟨c, h⟩ | h
  · rw [h]; decide
  · rw [h]; decide
  · rw [h]; exact (upperhex_facts c).2.1
  · rw [h]; exact (upperhex_facts c).2.2.1
  · exact ((unescaped_facts d).1 h).2

/-- An escaped user name or password holds no `/`, `?`, `#` or `@`. -/
theorem url.escape_user_no_sep (s : GoString) (d : Byte)
    (hd : d ∈ url.escape s .encodeUserPassword) : notAuthoritySep d = true := by
  rcases url.mem_escape s _ d hd with h | h | ⟨c, h⟩ | ⟨c, h⟩ | h
  · rw [h]; decide
  · rw [h]; decide
  · rw [h]; exact (upperhex_facts c).2.1
  · rw [h]; exact (upperhex_facts c).2.2.1
  · exact ((unescaped_facts d).2.1 h).1

/-- An escaped path holds no `?` and no `#`. -/
theorem url.escape_path_no_sep (s : GoString) (d : Byte)
    (hd : d ∈ url.escape s .encodePath) : notPathSep d = true := by
  rcases url.mem_escape s _ d hd with h | h | ⟨c, h⟩ | ⟨c, h⟩ | h
  · rw [h]; decide
  · rw [h]; decide
  · rw [h]; exact (upperhex_facts c).2.2.2.1
  · rw [h]; exact (upperhex_facts c).2.2.2.2
  · exact (unescaped_facts d).2.2 h

/-- Escaping a string that is not empty gives a string that is not empty, and
escaping a path that starts with a slash gives one that starts with a slash. -/
theorem url.escape_head (s : GoString) (mode : url.encoding) :
    (s ≠ [] → url.escape s mode ≠ []) ∧
    (mode = .encodePath → s.head? = some (ch '/') →
      (url.escape s mode).head? = some (ch '/')) := by
  rw [url.escape_eq_flatMap]
  cases s with
  | nil => simp
  | cons c s =>
    refine ⟨fun _ => ?_, fun hm hc => ?_⟩
    · rw [List.flatMap_cons]
      unfold url.escapeByte
      split_ifs <;> simp
    · subst hm
      simp only [List.head?_cons, Option.some.injEq] at hc
      subst hc
      rw [List.flatMap_cons]
      have : url.escapeByte .encodePath (ch '/') = [ch '/'] := by decide
      rw [this]
      rfl

/-- The second loop of `unescape` at an escape. -/
theorem url.unescapeBuild_cons_percent (mode : url.encoding) (c c1 c2 : Byte) (r : GoString)
    (h : isCh c '%' = true) :
    url.unescapeBuild mode (c :: c1 :: c2 :: r) =
      (url.unhex c1 * 16 + url.unhex c2) :: url.unescapeBuild mode r := by
  rw [url.unescapeBuild]
  simp only [h, if_true]

/-- The second loop of `unescape` in a host, at a byte that is not `%`. -/
theorem url.unescapeBuild_cons_plain (c : Byte) (r : GoString) (h : ¬ isCh c '%' = true) :
    url.unescapeBuild .encodeHost (c :: r) = c :: url.unescapeBuild .encodeHost r := by
  conv_lhs => unfold url.unescapeBuild
  simp only [h, if_false]
  by_cases hplus : isCh c '+' = true
  · have hc : c = ch '+' := (isCh_eq_true_iff c '+' (by decide)).1 hplus
    simp [hplus, hc]
  · simp [hplus]

/-- The first loop of `unescape` only counts up, and counts every `%`. -/
theorem url.unescapeCheck_count (mode : url.encoding) :
    ∀ (N : Nat) (s : GoString), s.length ≤ N → ∀ (n : Nat) (hp : Bool) (n1 : Nat) (hp1 : Bool),
      url.unescapeCheck mode s n hp = .ok (n1, hp1) → n ≤ n1 ∧ (n1 = n → ch '%' ∉ s) := by
  intro N
  induction N with
  | zero =>
    intro s hs n hp n1 hp1 h
    have : s = [] := List.length_eq_zero.1 (Nat.le_zero.1 hs)
    subst this
    simp only [url.unescapeCheck, Except.ok.injEq, Prod.mk.injEq] at h
    exact ⟨by omega, fun _ => by simp⟩
  | succ N ih =>
    intro s hs n hp n1 hp1 h
    cases s with
    | nil =>
      simp only [url.unescapeCheck, Except.ok.injEq, Prod.mk.injEq] at h
      exact ⟨by omega, fun _ => by simp⟩
    | cons c rest =>
      unfold url.unescapeCheck at h
      by_cases hpc : isCh c '%' = true
      · rw [if_pos hpc] at h
        cases rest with
        | nil => cases h
        | cons c1 r1 =>
          cases r1 with
          | nil => cases h
          | cons c2 rest2 =>
            simp only [] at h
            split_ifs at h
            have := ih rest2 (by simp at hs ⊢; omega) (n + 1) hp n1 hp1 h
            exact ⟨by omega, fun e => by omega⟩
      · rw [if_neg hpc] at h
        have hc : c ≠ ch '%' := fun e => hpc ((isCh_eq_true_iff c '%' (by decide)).2 e)
        have hrest : ∀ hp', url.unescapeCheck mode rest n hp' = .ok (n1, hp1) →
            n ≤ n1 ∧ (n1 = n → ch '%' ∉ c :: rest) := by
          intro hp' h'
          have := ih rest (by simp at hs ⊢; omega) n hp' n1 hp1 h'
          exact ⟨this.1, fun e => by
            simp only [List.mem_cons, not_or]
            exact ⟨fun e' => hc e'.symm, this.2 e⟩⟩
        split_ifs at h
        · exact hrest _ h
        · exact hrest _ h

/-- The second loop of `unescape` leaves a string without `%` as it is. -/
theorem url.unescapeBuild_of_no_percent (s : GoString) (h : ch '%' ∉ s) :
    url.unescapeBuild .encodeHost s = s := by
  induction s with
  | nil => rfl
  | cons c s ih =>
    have hc : isCh c '%' = false := by
      cases hh : isCh c '%' with
      | false => rfl
      | true =>
        exact absurd ((isCh_eq_true_iff c '%' (by decide)).1 hh ▸ List.mem_cons_self c s) h
    have hs : ch '%' ∉ s := fun e => h (List.mem_cons_of_mem _ e)
    unfold url.unescapeBuild
    simp only [hc, Bool.false_eq_true, if_false, ih hs]
    by_cases hplus : isCh c '+' = true
    · have hc' : c = ch '+' := (isCh_eq_true_iff c '+' (by decide)).1 hplus
      simp [hplus, hc']
    · simp [hplus]

/-- The second loop of `unescape` does the same in a zone as in a host. -/
theorem url.unescapeBuild_zone :
    ∀ (N : Nat) (s : GoString), s.length ≤ N →
      url.unescapeBuild .encodeZone s = url.unescapeBuild .encodeHost s := by
  intro N
  induction N with
  | zero =>
    intro s hs
    have : s = [] := List.length_eq_zero.1 (Nat.le_zero.1 hs)
    subst this
    rfl
  | succ N ih =>
    intro s hs
    cases s with
    | nil => rfl
    | cons c rest =>
      unfold url.unescapeBuild
      by_cases hpc : isCh c '%' = true
      · simp only [hpc, if_true]
        cases rest with
        | nil => rfl
        | cons c1 r1 =>
          cases r1 with
          | nil => rfl
          | cons c2 rest2 =>
            simp only []
            rw [ih rest2 (by simp at hs ⊢; omega)]
      · simp only [hpc, Bool.false_eq_true, if_false]
        rw [ih rest (by simp at hs ⊢; omega)]
        rfl

/-- Where the first loop of `unescape` accepts a string, the second loop reads the
string and what follows it one after the other. -/
theorem url.unescapeBuild_append (mode : url.encoding) (b : GoString) :
    ∀ (N : Nat) (a : GoString), a.length ≤ N → ∀ (n : Nat) (hp : Bool) (x : Nat × Bool),
      url.unescapeCheck mode a n hp = .ok x →
      url.unescapeBuild .encodeHost (a ++ b) =
        url.unescapeBuild .encodeHost a ++ url.unescapeBuild .encodeHost b := by
  intro N
  induction N with
  | zero =>
    intro a ha n hp x _
    have : a = [] := List.length_eq_zero.1 (Nat.le_zero.1 ha)
    subst this
    rfl
  | succ N ih =>
    intro a ha n hp x h
    cases a with
    | nil => rfl
    | cons c rest =>
      unfold url.unescapeCheck at h
      by_cases hpc : isCh c '%' = true
      · rw [if_pos hpc] at h
        cases rest with
        | nil => cases h
        | cons c1 r1 =>
          cases r1 with
          | nil => cases h
          | cons c2 rest2 =>
            simp only [] at h
            split_ifs at h
            have := ih rest2 (by simp at ha ⊢; omega) (n + 1) hp x h
            rw [List.cons_append, List.cons_append, List.cons_append,
              url.unescapeBuild_cons_percent _ _ _ _ _ hpc,
              url.unescapeBuild_cons_percent _ _ _ _ _ hpc, this, List.cons_append]
      · rw [if_neg hpc] at h
        have hrest : ∀ hp', url.unescapeCheck mode rest n hp' = .ok x →
            url.unescapeBuild .encodeHost (c :: rest ++ b) =
              url.unescapeBuild .encodeHost (c :: rest) ++ url.unescapeBuild .encodeHost b := by
          intro hp' h'
          have := ih rest (by simp at ha ⊢; omega) n hp' x h'
          rw [List.cons_append, url.unescapeBuild_cons_plain _ _ hpc,
            url.unescapeBuild_cons_plain _ _ hpc, this, List.cons_append]
        split_ifs at h
        · exact hrest _ h
        · exact hrest _ h

/-- What `unescape` returns for a host or a zone is what its second loop reads, and
its first loop has accepted the string. -/
theorem url.unescape_host_ok (s r : GoString) (mode : url.encoding)
    (hm : mode = .encodeHost ∨ mode = .encodeZone) (h : url.unescape s mode = .ok r) :
    r = url.unescapeBuild .encodeHost s ∧ ∃ x, url.unescapeCheck mode s 0 false = .ok x := by
  unfold url.unescape at h
  cases hc : url.unescapeCheck mode s 0 false with
  | error e => simp [hc] at h
  | ok x =>
    obtain ⟨n1, hp1⟩ := x
    refine ⟨?_, ⟨_, rfl⟩⟩
    simp only [hc] at h
    have hcount := url.unescapeCheck_count mode s.length s (Nat.le_refl _) 0 false n1 hp1 hc
    have hzone : url.unescapeBuild mode s = url.unescapeBuild .encodeHost s := by
      rcases hm with rfl | rfl
      · rfl
      · exact url.unescapeBuild_zone s.length s (Nat.le_refl _)
    split_ifs at h with h0
    · simp only [Except.ok.injEq] at h
      simp only [Bool.and_eq_true, decide_eq_true_eq] at h0
      rw [← h, url.unescapeBuild_of_no_percent s (hcount.2 h0.1)]
    · simp only [Except.ok.injEq] at h
      rw [← h, hzone]

/-- The position `Index` returns lies within the string. -/
theorem strings.Index_le (s sub : GoString) (k : Nat) (h : strings.Index s sub = some k) :
    k ≤ s.length := by
  induction s generalizing k with
  | nil =>
    simp only [strings.Index] at h
    split_ifs at h
    cases h
    simp
  | cons c s ih =>
    simp only [strings.Index] at h
    split_ifs at h
    · cases h
      simp
    · cases hi : strings.Index s sub with
      | none => simp [hi] at h
      | some j =>
        simp only [hi, Option.map_some', Option.some.injEq] at h
        have := ih j hi
        simp only [List.length_cons]
        omega

/-- What `parseHost` returns is what the second loop of `unescape` reads in the
host as written. -/
theorem url.parseHost_eq_unescapeBuild (x h : GoString) (hx : url.parseHost x = .ok h) :
    h = url.unescapeBuild .encodeHost x := by
  have hplain : ∀ r, url.unescape x .encodeHost = .ok r → r = url.unescapeBuild .encodeHost x :=
    fun r hr => (url.unescape_host_ok x r .encodeHost (Or.inl rfl) hr).1
  unfold url.parseHost at hx
  split_ifs at hx with hbr
  · cases hl : strings.LastIndex x (bytes "]") with
    | none => simp [hl] at hx
    | some i =>
      simp only [hl] at hx
      split_ifs at hx with hport
      cases hz : strings.Index (x.take i) (bytes "%25") with
      | none =>
        simp only [hz] at hx
        exact hplain h hx
      | some zone =>
        simp only [hz] at hx
        have hzl : zone ≤ (x.take i).length := strings.Index_le _ _ _ hz
        have hzi : zone ≤ i := by
          simp only [List.length_take] at hzl
          omega
        cases h1 : url.unescape (x.take zone) .encodeHost with
        | error e => simp [h1] at hx
        | ok host1 =>
          cases h2 : url.unescape ((x.take i).drop zone) .encodeZone with
          | error e => simp [h1, h2] at hx
          | ok host2 =>
            cases h3 : url.unescape (x.drop i) .encodeHost with
            | error e => simp [h1, h2, h3] at hx
            | ok host3 =>
              simp only [h1, h2, h3, Except.ok.injEq] at hx
              obtain ⟨e1, x1, c1⟩ := url.unescape_host_ok _ _ _ (Or.inl rfl) h1
              obtain ⟨e2, x2, c2⟩ := url.unescape_host_ok _ _ _ (Or.inr rfl) h2
              obtain ⟨e3, _⟩ := url.unescape_host_ok _ _ _ (Or.inl rfl) h3
              have hsplit : x = x.take zone ++ ((x.take i).drop zone ++ x.drop i) := by
                have t1 : x.take zone = (x.take i).take zone := by
                  rw [List.take_take, Nat.min_eq_left hzi]
                rw [t1, ← List.append_assoc, List.take_append_drop, List.take_append_drop]
              rw [← hx, e1, e2, e3]
              conv_rhs => rw [hsplit]
              rw [url.unescapeBuild_append _ _ _ _ (Nat.le_refl _) _ _ _ c1,
                url.unescapeBuild_append _ _ _ _ (Nat.le_refl _) _ _ _ c2, List.append_assoc]
  · cases hl : strings.LastIndex x (bytes ":") with
    | none =>
      simp only [hl] at hx
      exact hplain h hx
    | some i =>
      simp only [hl] at hx
      split_ifs at hx with hport
      exact hplain h hx

/-- The host that `parseAuthority` returns is the one `parseHost` reads after the
user info. -/
theorem url.parseAuthority_host (U E : GoString) (user : Option url.Userinfo) (h : GoString)
    (hE : ch '@' ∉ E) (hU : U = [] ∨ ∃ ui, U = ui ++ [ch '@'])
    (hp : url.parseAuthority (U ++ E) = .ok (user, h)) :
    url.parseHost E = .ok h := by
  unfold url.parseAuthority at hp
  rw [bytes_separators.2.2.2.2.1] at hp
  rcases hU with rfl | ⟨ui, rfl⟩
  · rw [List.nil_append, strings.LastIndex_eq_none E _ hE] at hp
    simp only [] at hp
    cases hh : url.parseHost E with
    | error e => simp [hh] at hp
    | ok host =>
      simp only [hh, Except.ok.injEq, Prod.mk.injEq] at hp
      rw [hp.2]
  · have hidx : strings.LastIndex (ui ++ [ch '@'] ++ E) [ch '@'] = some ui.length := by
      rw [List.append_assoc, List.singleton_append]
      exact strings.LastIndex_append_of_not_mem ui E _ hE
    have hdrop : (ui ++ [ch '@'] ++ E).drop (ui.length + 1) = E := by
      have : (ui ++ [ch '@']).length = ui.length + 1 := by simp
      rw [← this, List.drop_left]
    rw [hidx] at hp
    simp only [hdrop] at hp
    cases hh : url.parseHost E with
    | error e => simp [hh] at hp
    | ok host =>
      simp only [hh] at hp
      split_ifs at hp
      · split at hp
        · cases hp
        · simp only [Except.ok.injEq, Prod.mk.injEq] at hp
          rw [hp.2]
      · split at hp
        · cases hp
        · split at hp
          · cases hp
          · simp only [Except.ok.injEq, Prod.mk.injEq] at hp
            rw [hp.2]

/-- How `parse` splits off the query: the rest before the first `?`, and the query
after it. -/
theorem url.query_split (rest0 : GoString) (fq : Bool)
    (hfq : fq = (strings.HasSuffix rest0 (bytes "?") &&
      decide (strings.Count rest0 (ch '?') = 1))) :
    ∃ Q, rest0 = (if fq = true then rest0.take (rest0.length - 1)
          else (strings.Cut rest0 (bytes "?")).1) ++ Q ∧
      ch '?' ∉ (if fq = true then rest0.take (rest0.length - 1)
          else (strings.Cut rest0 (bytes "?")).1) ∧
      ((Q = [] ∧ (if fq = true then [] else (strings.Cut rest0 (bytes "?")).2.1) = []) ∨
        Q = ch '?' :: (if fq = true then [] else (strings.Cut rest0 (bytes "?")).2.1)) := by
  rw [bytes_separators.2.1] at hfq ⊢
  cases fq with
  | true =>
    have h := hfq.symm
    simp only [Bool.and_eq_true, decide_eq_true_eq, strings.HasSuffix, strings.Count] at h
    obtain ⟨hsuf, hcount⟩ := h
    obtain ⟨t, ht⟩ := List.isSuffixOf_iff_suffix.1 hsuf
    subst ht
    have hnot : ch '?' ∉ t := by
      rw [List.count_append] at hcount
      have h1 : List.count (ch '?') [ch '?'] = 1 := by simp
      rw [h1] at hcount
      exact List.count_eq_zero.1 (by omega)
    have htake : (t ++ [ch '?']).take ((t ++ [ch '?']).length - 1) = t := by
      have : (t ++ [ch '?']).length - 1 = t.length := by simp
      rw [this, List.take_left]
    refine ⟨[ch '?'], ?_, ?_, Or.inr ?_⟩
    · simp only [if_true, htake]
    · simp only [if_true, htake]
      exact hnot
    · simp
  | false =>
    simp only [Bool.false_eq_true, if_false]
    rcases strings.Cut_cases rest0 (ch '?') with ⟨hn, hc⟩ | ⟨a, b, rfl, hn, hc⟩
    · exact ⟨[], by simp [hc], by simpa [hc] using hn, Or.inl ⟨rfl, by simp [hc]⟩⟩
    · exact ⟨ch '?' :: b, by simp [hc], by simpa [hc] using hn, Or.inr (by simp [hc])⟩

/-- The branches of `parse`: the scheme, the rest before the query, and the URL each
branch builds. -/
theorem url.parse_inv (X : GoString) (u : url.URL) (h : url.parse X false = .ok u) :
    (X = bytes "*" ∧ u = { Path := bytes "*" }) ∨
    ∃ (sch0 rest Q rq : GoString) (fq : Bool),
      url.getScheme X = .ok (sch0, rest ++ Q) ∧ ch '?' ∉ rest ∧
      ((Q = [] ∧ rq = []) ∨ Q = ch '?' :: rq) ∧
      ((strings.HasPrefix rest (bytes "/") = false ∧ strings.ToLower sch0 ≠ [] ∧
          u = { Scheme := strings.ToLower sch0, Opaque := rest, ForceQuery := fq,
                RawQuery := rq }) ∨
       ((strings.ToLower sch0 ≠ [] ∨ strings.HasPrefix rest (bytes "///") = false) ∧
          strings.HasPrefix rest (bytes "//") = true ∧
          ∃ user host,
            url.parseAuthority
              (match strings.Index (rest.drop 2) (bytes "/") with
                | some i => (rest.drop 2).take i
                | none => rest.drop 2) = .ok (user, host) ∧
            url.URL.setPath
              { Scheme := strings.ToLower sch0, User := user, Host := host, ForceQuery := fq,
                RawQuery := rq }
              (match strings.Index (rest.drop 2) (bytes "/") with
                | some i => (rest.drop 2).drop i
                | none => []) = .ok u) ∨
       (¬ ((strings.ToLower sch0 ≠ [] ∨ strings.HasPrefix rest (bytes "///") = false) ∧
            strings.HasPrefix rest (bytes "//") = true) ∧
          (strings.HasPrefix rest (bytes "/") = true ∨
            (strings.ToLower sch0 = [] ∧
              strings.Contains (strings.Cut rest (bytes "/")).1 (bytes ":") = false)) ∧
          url.URL.setPath
            { Scheme := strings.ToLower sch0,
              OmitHost := decide (strings.ToLower sch0 ≠ []) &&
                strings.HasPrefix rest (bytes "/"),
              ForceQuery := fq, RawQuery := rq } rest = .ok u)) := by
  unfold url.parse at h
  split_ifs at h with h1 h2 h3
  · cases h
    exact Or.inl ⟨h3, rfl⟩
  · right
    split at h
    · cases h
    · rename_i sch0 rest0 hget
      obtain ⟨Q, hq1, hq2, hq3⟩ := url.query_split rest0 _ rfl
      dsimp only at h
      generalize hrest : (if (strings.HasSuffix rest0 (bytes "?") &&
        decide (strings.Count rest0 (ch '?') = 1)) = true then rest0.take (rest0.length - 1)
          else (strings.Cut rest0 (bytes "?")).1) = rest at h hq1 hq2
      generalize hrq : (if (strings.HasSuffix rest0 (bytes "?") &&
        decide (strings.Count rest0 (ch '?') = 1)) = true then []
          else (strings.Cut rest0 (bytes "?")).2.1) = rq at h hq3
      generalize (strings.HasSuffix rest0 (bytes "?") &&
        decide (strings.Count rest0 (ch '?') = 1)) = fq at h
      refine ⟨sch0, rest, Q, rq, fq, by rw [hget, hq1], hq2, hq3, ?_⟩
      split_ifs at h with c1 c2 c3 c4
      · left
        simp only [Bool.and_eq_true, Bool.not_eq_true', decide_eq_true_eq] at c1
        cases h
        exact ⟨c1.1, c1.2, rfl⟩
      · right
        left
        simp only [Bool.and_eq_true, Bool.or_eq_true, Bool.not_eq_true', decide_eq_true_eq,
          Bool.not_false, Bool.true_and] at c4
        refine ⟨c4.1, c4.2, ?_⟩
        split at h
        · cases h
        · rename_i user host hauth
          exact ⟨user, host, hauth, h⟩
      · right
        right
        simp only [Bool.and_eq_true, Bool.or_eq_true, Bool.not_eq_true', decide_eq_true_eq,
          Bool.not_false, Bool.true_and] at c4
        refine ⟨c4, ?_, h⟩
        simp only [Bool.and_eq_true, Bool.not_eq_true', decide_eq_true_eq, not_and] at c1 c3
        cases hpre : strings.HasPrefix rest (bytes "/") with
        | true => exact Or.inl rfl
        | false =>
          right
          refine ⟨?_, ?_⟩
          · by_contra hne
            exact hne (not_not.1 (c1 hpre))
          · simpa using c3 hpre

/-- The part before the first `?` is determined by the string. -/
theorem strings.split_unique (c : Byte) (a b Qa Qb : GoString) (ha : c ∉ a) (hb : c ∉ b)
    (hQa : Qa = [] ∨ ∃ r, Qa = c :: r) (hQb : Qb = [] ∨ ∃ r, Qb = c :: r)
    (h : a ++ Qa = b ++ Qb) : a = b ∧ Qa = Qb := by
  have h1 : ∀ (x Q : GoString), c ∉ x → (Q = [] ∨ ∃ r, Q = c :: r) →
      (strings.Cut (x ++ Q) [c]).1 = x := by
    intro x Q hx hQ
    rcases hQ with rfl | ⟨r, rfl⟩
    · rw [List.append_nil, strings.Cut_eq_self x c hx]
    · rw [strings.Cut_append_of_not_mem x r c hx]
  have hab : a = b := by
    rw [← h1 a Qa ha hQa, ← h1 b Qb hb hQb, h]
  subst hab
  exact ⟨rfl, List.append_cancel_left h⟩

/-- How `parse` splits the authority from the path after it. -/
theorem url.authority_split (A P : GoString) (hA : ch '/' ∉ A)
    (hP : P = [] ∨ P.head? = some (ch '/')) :
    (match strings.Index (A ++ P) (bytes "/") with
      | some i => (A ++ P).take i
      | none => A ++ P) = A ∧
    (match strings.Index (A ++ P) (bytes "/") with
      | some i => (A ++ P).drop i
      | none => []) = P := by
  rw [bytes_separators.2.2.1]
  rcases hP with rfl | hP
  · rw [List.append_nil, strings.Index_eq_none A _ hA]
    exact ⟨rfl, rfl⟩
  · cases P with
    | nil => simp at hP
    | cons p P =>
      simp only [List.head?_cons, Option.some.injEq] at hP
      subst hP
      rw [strings.Index_append_of_not_mem A P _ hA]
      simp

/-- The part of the rest after the authority is empty or starts with a slash. -/
theorem url.rest1_head (r : GoString) :
    (match strings.Index r (bytes "/") with
      | some i => r.drop i
      | none => []) = [] ∨
    (match strings.Index r (bytes "/") with
      | some i => r.drop i
      | none => []).head? = some (ch '/') := by
  rw [bytes_separators.2.2.1]
  cases hi : strings.Index r [ch '/'] with
  | none => exact Or.inl rfl
  | some i =>
    obtain ⟨b, _, _, hd, _⟩ := strings.Index_some r _ i hi
    right
    simp only [hd, List.head?_cons]

/-- The authority that `parse` cuts off holds no slash. -/
theorem url.authority_no_slash (r : GoString) :
    ch '/' ∉ (match strings.Index r (bytes "/") with
      | some i => r.take i
      | none => r) := by
  rw [bytes_separators.2.2.1]
  cases hi : strings.Index r [ch '/'] with
  | none =>
    intro hmem
    obtain ⟨a, b, rfl, ha⟩ := (split_at_first r (ch '/')).resolve_left (fun h => h hmem)
    rw [strings.Index_append_of_not_mem a b _ ha] at hi
    cases hi
  | some i =>
    obtain ⟨b, _, hn, _, _⟩ := strings.Index_some r _ i hi
    exact hn

/-- The scheme loop finds no scheme in a first segment without a colon. -/
theorem url.getSchemeLoop_no_colon (raw seg T : GoString) (hseg : ch ':' ∉ seg)
    (hT : T = [] ∨ ∃ t T1, T = t :: T1 ∧ (t = ch '/' ∨ t = ch '?' ∨ t = ch '#')) :
    ∀ i, url.getSchemeLoop raw i (seg ++ T) = .ok ([], raw) := by
  induction seg with
  | nil =>
    intro i
    rcases hT with rfl | ⟨t, T1, rfl, ht⟩
    · rfl
    · have hf : (inRange t 'a' 'z' || inRange t 'A' 'Z') = false ∧
          (inRange t '0' '9' || isCh t '+' || isCh t '-' || isCh t '.') = false ∧
          isCh t ':' = false := by
        rcases ht with rfl | rfl | rfl <;> decide
      rw [List.nil_append]
      unfold url.getSchemeLoop
      simp only [hf.1, hf.2.1, hf.2.2, Bool.false_eq_true, if_false]
  | cons c seg ih =>
    intro i
    have hc : isCh c ':' = false := by
      cases hh : isCh c ':' with
      | false => rfl
      | true =>
        exact absurd ((isCh_eq_true_iff c ':' (by decide)).1 hh ▸ List.mem_cons_self c seg) hseg
    have hs : ch ':' ∉ seg := fun e => hseg (List.mem_cons_of_mem _ e)
    rw [List.cons_append]
    unfold url.getSchemeLoop
    simp only [hc, Bool.false_eq_true, if_false, ih hs]
    split_ifs <;> rfl

/-- What `setPath` changes: the path and the raw path, nothing else. -/
theorem url.URL.setPath_ok (v u : url.URL) (p : GoString) (h : v.setPath p = .ok u) :
    u = { v with Path := u.Path, RawPath := u.RawPath } ∧
    url.unescape p .encodePath = .ok u.Path ∧
    u.RawPath = (if p = url.escape u.Path .encodePath then [] else p) := by
  unfold url.URL.setPath at h
  split at h
  · cases h
  · rename_i path hpath
    simp only [Except.ok.injEq] at h
    subst h
    exact ⟨rfl, hpath, rfl⟩

/-- What `setFragment` changes: the fragment and the raw fragment, nothing else. -/
theorem url.URL.setFragment_ok (v u : url.URL) (f : GoString) (h : v.setFragment f = .ok u) :
    u = { v with Fragment := u.Fragment, RawFragment := u.RawFragment } := by
  unfold url.URL.setFragment at h
  split at h
  · cases h
  · simp only [Except.ok.injEq] at h
    subst h
    rfl

/-- The branches of `Parse`: the URL that `parse` reads before the first `#`, with
the fragment set. -/
theorem url.Parse_written (X F : GoString) (u : url.URL) (hX : ch '#' ∉ X)
    (hF : F = [] ∨ ∃ f, F = ch '#' :: f) (h : url.Parse (X ++ F) = .ok u) :
    ∃ u0, url.parse X false = .ok u0 ∧
      u = { u0 with Fragment := u.Fragment, RawFragment := u.RawFragment } := by
  unfold url.Parse at h
  rw [bytes_separators.1] at h
  have hcut : (strings.Cut (X ++ F) [ch '#']).1 = X := by
    rcases hF with rfl | ⟨f, rfl⟩
    · rw [List.append_nil, strings.Cut_eq_self X _ hX]
    · rw [strings.Cut_append_of_not_mem X f _ hX]
  rw [hcut] at h
  split at h
  · cases h
  · rename_i u0 hu0
    refine ⟨u0, hu0, ?_⟩
    split_ifs at h
    · simp only [Except.ok.injEq] at h
      subst h
      rfl
    · exact url.URL.setFragment_ok _ _ _ h

/-- A string splits at its first `#` as `Parse` splits it. -/
theorem url.Parse_split (raw : GoString) (u : url.URL) (h : url.Parse raw = .ok u) :
    ∃ X F u0, raw = X ++ F ∧ ch '#' ∉ X ∧ url.parse X false = .ok u0 ∧
      u = { u0 with Fragment := u.Fragment, RawFragment := u.RawFragment } := by
  rcases split_at_first raw (ch '#') with hn | ⟨a, b, rfl, ha⟩
  · obtain ⟨u0, h1, h2⟩ := url.Parse_written raw [] u hn (Or.inl rfl) (by rwa [List.append_nil])
    exact ⟨raw, [], u0, by simp, hn, h1, h2⟩
  · obtain ⟨u0, h1, h2⟩ := url.Parse_written a (ch '#' :: b) u ha (Or.inr ⟨b, rfl⟩) h
    exact ⟨a, ch '#' :: b, u0, rfl, ha, h1, h2⟩

/-- What `parse` reads back from a written URL: the scheme as written, no host
where no authority was written, and the host of the authority where one was. -/
theorem url.parse_written (sch B Q : GoString) (u0 : url.URL)
    (hsch : sch = [] ∨ plainScheme sch = true) (hB : ch '?' ∉ B)
    (hQ : Q = [] ∨ ∃ rq, Q = ch '?' :: rq)
    (hget : sch = [] → url.getScheme (B ++ Q) = .ok ([], B ++ Q))
    (hp : url.parse ((if sch = [] then [] else sch ++ [ch ':']) ++ (B ++ Q)) false = .ok u0) :
    u0.Scheme = sch ∧
    ((strings.HasPrefix B (bytes "//") = false ∨
        (sch = [] ∧ strings.HasPrefix B (bytes "///") = true)) → u0.Host = []) ∧
    (∀ A P, B = ch '/' :: ch '/' :: (A ++ P) → ch '/' ∉ A →
      (P = [] ∨ P.head? = some (ch '/')) → (sch ≠ [] ∨ A ≠ []) →
      ∃ user, url.parseAuthority A = .ok (user, u0.Host)) := by
  have hlow : strings.ToLower sch = sch := by
    rcases hsch with rfl | hs
    · rfl
    · exact strings.ToLower_plain sch hs
  have hgetX : url.getScheme ((if sch = [] then [] else sch ++ [ch ':']) ++ (B ++ Q)) =
      .ok (sch, B ++ Q) := by
    by_cases h0 : sch = []
    · rw [if_pos h0, List.nil_append, hget h0, h0]
    · rw [if_neg h0, List.append_assoc, List.singleton_append]
      exact url.getScheme_plain sch _ (hsch.resolve_left h0)
  rcases url.parse_inv _ _ hp with ⟨hstar, hu⟩ | ⟨sch0, rest, Q1, rq, fq, hg, hrest, hQ1, hbr⟩
  · rw [bytes_separators.2.2.2.2.2.2.2.2] at hstar
    have h0 : sch = [] := by
      by_contra h0
      rw [if_neg h0] at hstar
      have := congrArg List.length hstar
      simp only [List.length_append, List.length_cons, List.length_nil] at this
      have : 0 < sch.length := List.length_pos.2 h0
      omega
    rw [if_pos h0, List.nil_append] at hstar
    subst hu
    refine ⟨h0.symm, fun _ => rfl, ?_⟩
    intro A P hBeq _ _ _
    rw [hBeq] at hstar
    have := congrArg List.length hstar
    simp only [List.length_append, List.length_cons, List.length_nil] at this
    omega
  · rw [hgetX] at hg
    simp only [Except.ok.injEq, Prod.mk.injEq] at hg
    obtain ⟨hs0, hsplit⟩ := hg
    subst hs0
    have hQ1f : Q1 = [] ∨ ∃ r, Q1 = ch '?' :: r := by
      rcases hQ1 with ⟨h, _⟩ | h
      · exact Or.inl h
      · exact Or.inr ⟨rq, h⟩
    obtain ⟨hrB, _⟩ := strings.split_unique (ch '?') B rest Q Q1 hB hrest hQ hQ1f hsplit
    subst hrB
    rw [hlow] at hbr
    rcases hbr with ⟨hpre, hne, hu⟩ | ⟨hcond, hpre2, user, host, hauth, hset⟩ | ⟨hncond, hpre, hset⟩
    · subst hu
      refine ⟨rfl, fun _ => rfl, ?_⟩
      intro A P hBeq _ _ _
      rw [hBeq, strings.HasPrefix, bytes_separators.2.2.1] at hpre
      simp [List.isPrefixOf] at hpre
    · obtain ⟨hu, _, _⟩ := url.URL.setPath_ok _ _ _ hset
      refine ⟨by rw [hu], ?_, ?_⟩
      · rintro (h | ⟨h0, h⟩)
        · rw [h] at hpre2
          cases hpre2
        · rcases hcond with hc | hc
          · exact absurd h0 hc
          · rw [h] at hc
            cases hc
      · intro A P hBeq hA hP _
        subst hBeq
        simp only [List.drop_succ_cons, List.drop_zero] at hauth
        rw [(url.authority_split A P hA hP).1] at hauth
        refine ⟨user, ?_⟩
        rw [hauth, hu]
    · obtain ⟨hu, _, _⟩ := url.URL.setPath_ok _ _ _ hset
      refine ⟨by rw [hu], fun _ => by rw [hu], ?_⟩
      intro A P hBeq hA _ hne
      exfalso
      apply hncond
      subst hBeq
      refine ⟨?_, ?_⟩
      · rcases hne with h | h
        · exact Or.inl h
        · right
          cases A with
          | nil => exact absurd rfl h
          | cons a A =>
            have ha : a ≠ ch '/' := fun e => hA (by simp [e])
            have h3s : bytes "///" = [ch '/', ch '/', ch '/'] := by decide
            rw [strings.HasPrefix, h3s]
            simp [List.isPrefixOf, Ne.symm ha]
      · rw [strings.HasPrefix, bytes_separators.2.2.2.2.2.2.1]
        simp [List.isPrefixOf]

set_option maxRecDepth 100000 in
/-- A byte of a valid encoded path ends no path. -/
theorem validEncoded_facts : ∀ c : Byte,
    (isCh c '!' || isCh c '$' || isCh c '&' || isCh c '\'' || isCh c '(' || isCh c ')' ||
      isCh c '*' || isCh c '+' || isCh c ',' || isCh c ';' || isCh c '=' || isCh c ':' ||
      isCh c '@' || isCh c '[' || isCh c ']' || isCh c '%' ||
      !url.shouldEscape c .encodePath) = true → notPathSep c = true := by
  decide

/-- The escaped path holds no `?` and no `#`. -/
theorem url.URL.EscapedPath_no_sep (u : url.URL) (d : Byte) (hd : d ∈ u.EscapedPath) :
    notPathSep d = true := by
  unfold url.URL.EscapedPath at hd
  split_ifs at hd with h1 h2
  · simp only [Bool.and_eq_true, url.validEncoded, List.all_eq_true] at h1
    exact validEncoded_facts d (h1.1.2 d hd)
  · rw [bytes_separators.2.2.2.2.2.2.2.2] at hd
    simp only [List.mem_singleton] at hd
    subst hd
    decide
  · exact url.escape_path_no_sep _ _ hd

/-- The escaped path depends on the path and the raw path only. -/
theorem url.URL.EscapedPath_congr (u v : url.URL) (hp : u.Path = v.Path)
    (hr : u.RawPath = v.RawPath) : u.EscapedPath = v.EscapedPath := by
  unfold url.URL.EscapedPath
  rw [hp, hr]

/-- A path that starts with a slash is unescaped to one that does. -/
theorem url.unescape_path_head (p r : GoString) (h : url.unescape p .encodePath = .ok r)
    (hp : p.head? = some (ch '/')) : r.head? = some (ch '/') := by
  unfold url.unescape at h
  split at h
  · cases h
  · split_ifs at h
    · simp only [Except.ok.injEq] at h
      rw [← h]
      exact hp
    · simp only [Except.ok.injEq] at h
      rw [← h]
      cases p with
      | nil => simp at hp
      | cons c p =>
        simp only [List.head?_cons, Option.some.injEq] at hp
        subst hp
        unfold url.unescapeBuild
        have h1 : isCh (ch '/') '%' = false := by decide
        have h2 : isCh (ch '/') '+' = false := by decide
        simp only [h1, h2, Bool.false_eq_true, if_false, List.head?_cons]

/-- After `setPath` on nothing or on a rest that starts with a slash, the path and
its escaped form are both empty or both start with a slash. -/
theorem url.URL.setPath_escaped (v u : url.URL) (p : GoString) (h : v.setPath p = .ok u)
    (hp : p = [] ∨ p.head? = some (ch '/')) :
    (u.Path = [] ∧ u.EscapedPath = []) ∨
    (u.Path ≠ [] ∧ u.EscapedPath.head? = some (ch '/')) := by
  obtain ⟨_, hun, hraw⟩ := url.URL.setPath_ok v u p h
  rcases hp with rfl | hp
  · have hP : u.Path = [] := by
      simp [url.unescape, url.unescapeCheck] at hun
      rw [hun]
    have hR : u.RawPath = [] := by
      rw [hraw]
      simp
    left
    refine ⟨hP, ?_⟩
    unfold url.URL.EscapedPath
    rw [hP, hR]
    decide
  · have hhead := url.unescape_path_head p u.Path hun hp
    have hne : u.Path ≠ [] := by
      intro e
      rw [e] at hhead
      cases hhead
    right
    refine ⟨hne, ?_⟩
    unfold url.URL.EscapedPath
    split_ifs with h1 h2
    · have : u.RawPath = p := by
        rw [hraw]
        split_ifs with hh
        · simp only [Bool.and_eq_true, decide_eq_true_eq] at h1
          rw [hraw, if_pos hh] at h1
          exact absurd rfl h1.1.1
        · rfl
      rw [this]
      exact hp
    · rw [h2] at hhead
      exact absurd hhead (by decide)
    · exact (url.escape_head u.Path .encodePath).2 rfl hhead

/-- The escaped form of an empty path is empty. -/
theorem url.URL.EscapedPath_nil (u : url.URL) (hP : u.Path = []) (hR : u.RawPath = []) :
    u.EscapedPath = [] := by
  unfold url.URL.EscapedPath
  rw [hP, hR]
  decide

/-- The shape of a URL that `parse` returns: a plain scheme or none, a query without
`#`, an opaque part only after a scheme and without host, and, where `String` writes
an authority, a path that is empty or starts with a slash. -/
theorem url.parse_shape (X : GoString) (u : url.URL) (hX : ch '#' ∉ X)
    (h : url.parse X false = .ok u) :
    (u.Scheme = [] ∨ plainScheme u.Scheme = true) ∧
    ch '#' ∉ u.RawQuery ∧
    (u.Opaque ≠ [] → u.Scheme ≠ [] ∧ u.Host = [] ∧ u.User = none ∧
      strings.HasPrefix u.Opaque (bytes "/") = false ∧ ch '?' ∉ u.Opaque ∧
      ch '#' ∉ u.Opaque) ∧
    (u.Opaque = [] →
      (u.Host ≠ [] ∨ u.User ≠ none ∨ (u.Scheme ≠ [] ∧ u.OmitHost = false)) →
      (u.Path = [] ∧ u.EscapedPath = []) ∨
      (u.Path ≠ [] ∧ u.EscapedPath.head? = some (ch '/'))) := by
  rcases url.parse_inv _ _ h with ⟨_, hu⟩ | ⟨sch0, rest, Q, rq, fq, hg, hrest, hQ, hbr⟩
  · subst hu
    refine ⟨Or.inl rfl, by simp, fun hne => absurd rfl hne, ?_⟩
    intro _ hwa
    rcases hwa with h1 | h1 | h1
    · exact absurd rfl h1
    · exact absurd rfl h1
    · exact absurd rfl h1.1
  · have hsch : strings.ToLower sch0 = [] ∨ plainScheme (strings.ToLower sch0) = true := by
      rcases url.getScheme_spec _ _ _ hg with ⟨h0, _⟩ | ⟨_, hs⟩
      · left
        rw [h0]
        rfl
      · exact Or.inr (plainScheme_ToLower sch0 hs)
    have hsub : ch '#' ∉ rest ++ Q := by
      rcases url.getScheme_spec _ _ _ hg with ⟨_, h0⟩ | ⟨h0, _⟩
      · rwa [h0]
      · intro hmem
        apply hX
        rw [h0]
        exact List.mem_append_right _ (List.mem_cons_of_mem _ hmem)
    have hr : ch '#' ∉ rest := fun hm => hsub (List.mem_append_left _ hm)
    have hrq : ch '#' ∉ rq := by
      rcases hQ with ⟨_, h0⟩ | h0
      · rw [h0]
        simp
      · intro hm
        apply hsub
        rw [h0]
        exact List.mem_append_right _ (List.mem_cons_of_mem _ hm)
    rcases hbr with ⟨hpre, hne, hu⟩ | ⟨_, _, user, host, _, hset⟩ | ⟨_, hpre, hset⟩
    · subst hu
      refine ⟨hsch, hrq, fun _ => ⟨hne, rfl, rfl, hpre, hrest, hr⟩, ?_⟩
      intro _ _
      left
      exact ⟨rfl, url.URL.EscapedPath_nil _ rfl rfl⟩
    · obtain ⟨hu, _, _⟩ := url.URL.setPath_ok _ _ _ hset
      have hS : u.Scheme = strings.ToLower sch0 := by rw [hu]
      have hO : u.Opaque = [] := by rw [hu]
      have hRQ : u.RawQuery = rq := by rw [hu]
      refine ⟨by rwa [hS], by rwa [hRQ], fun hne => absurd hO hne, ?_⟩
      intro _ _
      exact url.URL.setPath_escaped _ _ _ hset (url.rest1_head _)
    · obtain ⟨hu, _, _⟩ := url.URL.setPath_ok _ _ _ hset
      have hS : u.Scheme = strings.ToLower sch0 := by rw [hu]
      have hO : u.Opaque = [] := by rw [hu]
      have hRQ : u.RawQuery = rq := by rw [hu]
      have hH : u.Host = [] := by rw [hu]
      have hU : u.User = none := by rw [hu]
      have hOH : u.OmitHost = (decide (strings.ToLower sch0 ≠ []) &&
          strings.HasPrefix rest (bytes "/")) := by rw [hu]
      refine ⟨by rwa [hS], by rwa [hRQ], fun hne => absurd hO hne, ?_⟩
      intro _ hwa
      exfalso
      rcases hwa with h1 | h1 | ⟨h1, h2⟩
      · exact h1 hH
      · exact h1 hU
      · rw [hS] at h1
        rw [hOH] at h2
        rcases hpre with hp | ⟨hp, _⟩
        · simp [h1, hp] at h2
        · exact h1 hp

/-- The shape of a URL that `Parse` returns. -/
theorem url.Parse_shape (raw : GoString) (u : url.URL) (h : url.Parse raw = .ok u) :
    (u.Scheme = [] ∨ plainScheme u.Scheme = true) ∧
    ch '#' ∉ u.RawQuery ∧
    (u.Opaque ≠ [] → u.Scheme ≠ [] ∧ u.Host = [] ∧ u.User = none ∧
      strings.HasPrefix u.Opaque (bytes "/") = false ∧ ch '?' ∉ u.Opaque ∧
      ch '#' ∉ u.Opaque) ∧
    (u.Opaque = [] →
      (u.Host ≠ [] ∨ u.User ≠ none ∨ (u.Scheme ≠ [] ∧ u.OmitHost = false)) →
      (u.Path = [] ∧ u.EscapedPath = []) ∨
      (u.Path ≠ [] ∧ u.EscapedPath.head? = some (ch '/'))) := by
  obtain ⟨X, F, u0, _, hX, hp, hu⟩ := url.Parse_split raw u h
  have hS : u.Scheme = u0.Scheme := by rw [hu]
  have hO : u.Opaque = u0.Opaque := by rw [hu]
  have hRQ : u.RawQuery = u0.RawQuery := by rw [hu]
  have hH : u.Host = u0.Host := by rw [hu]
  have hU : u.User = u0.User := by rw [hu]
  have hOH : u.OmitHost = u0.OmitHost := by rw [hu]
  have hP : u.Path = u0.Path := by rw [hu]
  have hRP : u.RawPath = u0.RawPath := by rw [hu]
  have hEP := url.URL.EscapedPath_congr u u0 hP hRP
  rw [hS, hO, hRQ, hH, hU, hOH, hP, hEP]
  exact url.parse_shape X u0 hX hp

/-- The string form, with its parts named: the scheme with its colon, the authority,
the buffer before the path, the query and the fragment. -/
theorem url.URL.String_eq (u : url.URL) (S Auth Buf1 Q F : GoString)
    (hS : S = if u.Scheme ≠ [] then u.Scheme ++ bytes ":" else [])
    (hAuth : Auth =
      if u.Scheme ≠ [] || u.Host ≠ [] || u.User.isSome then
        if u.OmitHost && u.Host = [] && u.User.isNone then []
        else
          (if u.Host ≠ [] || u.Path ≠ [] || u.User.isSome then bytes "//" else []) ++
          (match u.User with
            | some ui => ui.String ++ bytes "@"
            | none => []) ++
          (if u.Host ≠ [] then url.escape u.Host .encodeHost else [])
      else [])
    (hBuf1 : Buf1 =
      if u.EscapedPath ≠ [] && u.EscapedPath.head? ≠ some (ch '/') && u.Host ≠ [] then
        S ++ Auth ++ bytes "/"
      else S ++ Auth)
    (hQ : Q = if u.ForceQuery || u.RawQuery ≠ [] then bytes "?" ++ u.RawQuery else [])
    (hF : F = if u.Fragment ≠ [] then bytes "#" ++ u.EscapedFragment else []) :
    u.String =
      (if u.Opaque ≠ [] then S ++ u.Opaque
       else
        (if Buf1 = [] && strings.Contains (strings.Cut u.EscapedPath (bytes "/")).1 (bytes ":")
          then Buf1 ++ bytes "./" else Buf1) ++ u.EscapedPath) ++ Q ++ F := by
  subst hS hAuth hBuf1 hQ hF
  rfl

set_option maxRecDepth 100000 in
/-- The bytes that end an authority or a path. -/
theorem sep_facts : ∀ d : Byte,
    (notAuthoritySep d = true → d ≠ ch '/' ∧ d ≠ ch '?' ∧ d ≠ ch '#' ∧ d ≠ ch '@') ∧
    (notPathSep d = true → d ≠ ch '?' ∧ d ≠ ch '#') := by
  decide

/-- The written user info holds no `/`, `?` or `#`. -/
theorem url.Userinfo.String_no_sep (ui : url.Userinfo) (d : Byte) (hd : d ∈ ui.String) :
    d ≠ ch '/' ∧ d ≠ ch '?' ∧ d ≠ ch '#' := by
  unfold url.Userinfo.String at hd
  rw [bytes_separators.2.2.2.1] at hd
  have hesc : ∀ s, d ∈ url.escape s .encodeUserPassword →
      d ≠ ch '/' ∧ d ≠ ch '?' ∧ d ≠ ch '#' := by
    intro s hs
    have := (sep_facts d).1 (url.escape_user_no_sep s d hs)
    exact ⟨this.1, this.2.1, this.2.2.1⟩
  rcases List.mem_append.1 hd with h | h
  · exact hesc _ h
  · split_ifs at h
    · rcases List.mem_append.1 h with h | h
      · simp only [List.mem_singleton] at h
        subst h
        decide
      · exact hesc _ h
    · cases h

/-- No scheme is read from a string that starts with a slash or a dot. -/
theorem url.getScheme_slash_dot (c : Byte) (r : GoString) (hc : c = ch '/' ∨ c = ch '.') :
    url.getScheme (c :: r) = .ok ([], c :: r) := by
  unfold url.getScheme url.getSchemeLoop
  rcases hc with rfl | rfl
  · have h1 : (inRange (ch '/') 'a' 'z' || inRange (ch '/') 'A' 'Z') = false := by decide
    have h2 : (inRange (ch '/') '0' '9' || isCh (ch '/') '+' || isCh (ch '/') '-' ||
        isCh (ch '/') '.') = false := by decide
    have h3 : isCh (ch '/') ':' = false := by decide
    simp only [h1, h2, h3, Bool.false_eq_true, if_false]
  · have h1 : (inRange (ch '.') 'a' 'z' || inRange (ch '.') 'A' 'Z') = false := by decide
    have h2 : (inRange (ch '.') '0' '9' || isCh (ch '.') '+' || isCh (ch '.') '-' ||
        isCh (ch '.') '.') = true := by decide
    simp only [h1, h2, Bool.false_eq_true, if_false, if_true]

/-- No scheme is read from a path whose first segment holds no colon, whatever query
follows it. -/
theorem url.getScheme_no_colon (B Q : GoString)
    (hseg : strings.Contains (strings.Cut B (bytes "/")).1 (bytes ":") = false)
    (hQ : Q = [] ∨ ∃ rq, Q = ch '?' :: rq) :
    url.getScheme (B ++ Q) = .ok ([], B ++ Q) := by
  rw [bytes_separators.2.2.1, bytes_separators.2.2.2.1] at hseg
  have hcolon : ch ':' ∉ (strings.Cut B [ch '/']).1 := by
    intro hm
    rw [(strings.Contains_iff_mem _ _).2 hm] at hseg
    cases hseg
  unfold url.getScheme
  rcases strings.Cut_cases B (ch '/') with ⟨_, hc⟩ | ⟨a, b, hB, _, hc⟩
  · rw [hc] at hcolon
    refine url.getSchemeLoop_no_colon _ B Q hcolon ?_ 0
    rcases hQ with rfl | ⟨rq, rfl⟩
    · exact Or.inl rfl
    · exact Or.inr ⟨_, _, rfl, Or.inr (Or.inl rfl)⟩
  · rw [hc] at hcolon
    have : B ++ Q = a ++ (ch '/' :: (b ++ Q)) := by
      rw [hB]
      simp
    rw [this]
    exact url.getSchemeLoop_no_colon _ a _ hcolon (Or.inr ⟨_, _, rfl, Or.inl rfl⟩) 0

/-- A string that starts with no slash starts with no two slashes. -/
theorem strings.HasPrefix_slashes (B : GoString) :
    (strings.HasPrefix B (bytes "/") = false → strings.HasPrefix B (bytes "//") = false) ∧
    (strings.HasPrefix B (bytes "///") = true →
      ∃ r, B = ch '/' :: ch '/' :: ch '/' :: r) ∧
    (strings.HasPrefix B (bytes "//") = true → ∃ r, B = ch '/' :: ch '/' :: r) := by
  have h3s : bytes "///" = [ch '/', ch '/', ch '/'] := by decide
  rw [strings.HasPrefix, strings.HasPrefix, strings.HasPrefix, bytes_separators.2.2.1,
    bytes_separators.2.2.2.2.2.2.1, h3s]
  refine ⟨?_, ?_, ?_⟩
  · intro h
    cases B with
    | nil => rfl
    | cons c B =>
      simp only [List.isPrefixOf, Bool.and_true, beq_eq_false_iff_ne, ne_eq] at h
      simp only [List.isPrefixOf, Bool.and_eq_false_imp, beq_iff_eq]
      intro e
      exact absurd e h
  · intro h
    match B, h with
    | [], h => simp [List.isPrefixOf] at h
    | [_], h => simp [List.isPrefixOf] at h
    | [_, _], h => simp [List.isPrefixOf] at h
    | c1 :: c2 :: c3 :: r, h =>
      simp only [List.isPrefixOf, Bool.and_true, Bool.and_eq_true, beq_iff_eq] at h
      exact ⟨r, by rw [← h.1, ← h.2.1, ← h.2.2]⟩
  · intro h
    match B, h with
    | [], h => simp [List.isPrefixOf] at h
    | [_], h => simp [List.isPrefixOf] at h
    | c1 :: c2 :: r, h =>
      simp only [List.isPrefixOf, Bool.and_true, Bool.and_eq_true, beq_iff_eq] at h
      exact ⟨r, by rw [← h.1, ← h.2]⟩

/-- The string form of a parsed URL, as `Parse` will read it: the scheme, a body
without `?` and `#`, a query and a fragment; and what the body says about the host. -/
theorem url.URL.String_written (u : url.URL)
    (hrq : ch '#' ∉ u.RawQuery)
    (hop : u.Opaque ≠ [] → u.Scheme ≠ [] ∧ u.Host = [] ∧ u.User = none ∧
      strings.HasPrefix u.Opaque (bytes "/") = false ∧ ch '?' ∉ u.Opaque ∧
      ch '#' ∉ u.Opaque)
    (hwa : u.Opaque = [] →
      (u.Host ≠ [] ∨ u.User ≠ none ∨ (u.Scheme ≠ [] ∧ u.OmitHost = false)) →
      (u.Path = [] ∧ u.EscapedPath = []) ∨
      (u.Path ≠ [] ∧ u.EscapedPath.head? = some (ch '/')))
    (hr : u.pathReadsAsAuthority = false) :
    ∃ B Q F,
      u.String = (if u.Scheme = [] then [] else u.Scheme ++ [ch ':']) ++ (B ++ Q) ++ F ∧
      (Q = [] ∨ ∃ rq, Q = ch '?' :: rq) ∧ ch '#' ∉ Q ∧ (F = [] ∨ ∃ f, F = ch '#' :: f) ∧
      ch '?' ∉ B ∧ ch '#' ∉ B ∧
      (u.Scheme = [] → url.getScheme (B ++ Q) = .ok ([], B ++ Q)) ∧
      (((strings.HasPrefix B (bytes "//") = false ∨
          (u.Scheme = [] ∧ strings.HasPrefix B (bytes "///") = true)) ∧ u.Host = []) ∨
       (∃ A P, B = ch '/' :: ch '/' :: (A ++ P) ∧ ch '/' ∉ A ∧
          (P = [] ∨ P.head? = some (ch '/')) ∧ (u.Scheme ≠ [] ∨ A ≠ []) ∧
          ∀ user h1, url.parseAuthority A = .ok (user, h1) → h1 = u.Host)) := by
  have hSeq : (if u.Scheme = [] then [] else u.Scheme ++ [ch ':']) =
      (if u.Scheme ≠ [] then u.Scheme ++ bytes ":" else []) := by
    rw [bytes_separators.2.2.2.1]
    by_cases h : u.Scheme = []
    · rw [if_pos h, if_neg (not_not.2 h)]
    · rw [if_neg h, if_pos h]
  have hQeq : (if (u.ForceQuery || decide (u.RawQuery ≠ [])) = true then ch '?' :: u.RawQuery
      else []) = (if u.ForceQuery || u.RawQuery ≠ [] then bytes "?" ++ u.RawQuery else []) := by
    rw [bytes_separators.2.1]
    rfl
  have hFeq : (if u.Fragment ≠ [] then ch '#' :: u.EscapedFragment else []) =
      (if u.Fragment ≠ [] then bytes "#" ++ u.EscapedFragment else []) := by
    rw [bytes_separators.1]
    rfl
  have hSne : u.Scheme ≠ [] → (if u.Scheme = [] then [] else u.Scheme ++ [ch ':']) ≠ [] := by
    intro h
    rw [if_neg h]
    simp
  have hSnil : u.Scheme = [] → (if u.Scheme = [] then [] else u.Scheme ++ [ch ':']) = [] :=
    fun h => if_pos h
  generalize (if u.Scheme = [] then [] else u.Scheme ++ [ch ':']) = S at hSeq hSne hSnil ⊢
  have hQform : (if (u.ForceQuery || decide (u.RawQuery ≠ [])) = true then ch '?' :: u.RawQuery
      else []) = [] ∨ ∃ rq, (if (u.ForceQuery || decide (u.RawQuery ≠ [])) = true then
        ch '?' :: u.RawQuery else []) = ch '?' :: rq := by
    split_ifs
    · exact Or.inr ⟨_, rfl⟩
    · exact Or.inl rfl
  have hQhash : ch '#' ∉ (if (u.ForceQuery || decide (u.RawQuery ≠ [])) = true then
      ch '?' :: u.RawQuery else []) := by
    split_ifs
    · intro hm
      rcases List.mem_cons.1 hm with h | h
      · exact absurd h (by decide)
      · exact hrq h
    · simp
  have hFform : (if u.Fragment ≠ [] then ch '#' :: u.EscapedFragment else []) = [] ∨
      ∃ f, (if u.Fragment ≠ [] then ch '#' :: u.EscapedFragment else []) = ch '#' :: f := by
    split_ifs
    · exact Or.inr ⟨_, rfl⟩
    · exact Or.inl rfl
  generalize (if (u.ForceQuery || decide (u.RawQuery ≠ [])) = true then ch '?' :: u.RawQuery
      else []) = Q at hQeq hQform hQhash
  generalize (if u.Fragment ≠ [] then ch '#' :: u.EscapedFragment else []) = F at hFeq hFform
  have hEPq : ch '?' ∉ u.EscapedPath :=
    fun hm => ((sep_facts _).2 (url.URL.EscapedPath_no_sep u _ hm)).1 rfl
  have hEPh : ch '#' ∉ u.EscapedPath :=
    fun hm => ((sep_facts _).2 (url.URL.EscapedPath_no_sep u _ hm)).2 rfl
  by_cases hO : u.Opaque = []
  swap
  · obtain ⟨hne, hH, hU, hpre, hq, hh⟩ := hop hO
    have hstr := url.URL.String_eq u S _ _ Q F hSeq rfl rfl hQeq hFeq
    rw [if_pos hO] at hstr
    refine ⟨u.Opaque, Q, F, ?_, hQform, hQhash, hFform, hq, hh, fun h0 => absurd h0 hne,
      Or.inl ⟨Or.inl ((strings.HasPrefix_slashes _).1 hpre), hH⟩⟩
    rw [hstr]
    simp only [List.append_assoc]
  · by_cases hW : u.Host ≠ [] ∨ u.User ≠ none ∨ (u.Scheme ≠ [] ∧ u.OmitHost = false)
    · have hpath := hwa hO hW
      have c1 : (decide (u.Scheme ≠ []) || decide (u.Host ≠ []) || u.User.isSome) = true := by
        rcases hW with h | h | h
        · simp [h]
        · cases hu : u.User with
          | none => exact absurd hu h
          | some _ => simp
        · simp [h.1]
      have c2 : (u.OmitHost && decide (u.Host = []) && u.User.isNone) = false := by
        rcases hW with h | h | h
        · simp [h]
        · cases hu : u.User with
          | none => exact absurd hu h
          | some _ => simp
        · simp [h.2]
      have c4 : (decide (u.EscapedPath ≠ []) && decide (u.EscapedPath.head? ≠ some (ch '/')) &&
          decide (u.Host ≠ [])) = false := by
        rcases hpath with ⟨_, h⟩ | ⟨_, h⟩
        · simp [h]
        · simp [h]
      by_cases hW1 : u.Host ≠ [] ∨ u.Path ≠ [] ∨ u.User ≠ none
      · have c3 : (decide (u.Host ≠ []) || decide (u.Path ≠ []) || u.User.isSome) = true := by
          rcases hW1 with h | h | h
          · simp [h]
          · simp [h]
          · cases hu : u.User with
            | none => exact absurd hu h
            | some _ => simp
        obtain ⟨U, hU⟩ : ∃ U : GoString, (match u.User with
              | some ui => ui.String ++ [ch '@']
              | none => []) = U := ⟨_, rfl⟩
        obtain ⟨E, hE⟩ : ∃ E : GoString,
            (if u.Host ≠ [] then url.escape u.Host .encodeHost else []) = E := ⟨_, rfl⟩
        have hAuth : ch '/' :: ch '/' :: (U ++ E) =
            (if u.Scheme ≠ [] || u.Host ≠ [] || u.User.isSome then
              if u.OmitHost && u.Host = [] && u.User.isNone then []
              else
                (if u.Host ≠ [] || u.Path ≠ [] || u.User.isSome then bytes "//" else []) ++
                (match u.User with
                  | some ui => ui.String ++ bytes "@"
                  | none => []) ++
                (if u.Host ≠ [] then url.escape u.Host .encodeHost else [])
            else []) := by
          rw [← hU, ← hE, c1, c2, c3, bytes_separators.2.2.2.2.2.2.1, bytes_separators.2.2.2.2.1]
          simp only [if_true, Bool.false_eq_true, if_false, List.cons_append, List.nil_append,
            List.append_assoc]
        have hBuf1 : S ++ ch '/' :: ch '/' :: (U ++ E) =
            (if u.EscapedPath ≠ [] && u.EscapedPath.head? ≠ some (ch '/') && u.Host ≠ [] then
              S ++ ch '/' :: ch '/' :: (U ++ E) ++ bytes "/"
            else S ++ ch '/' :: ch '/' :: (U ++ E)) := by
          rw [c4]
          simp only [Bool.false_eq_true, if_false]
        have hstr := url.URL.String_eq u S _ _ Q F hSeq hAuth hBuf1 hQeq hFeq
        have hbne : (decide (S ++ ch '/' :: ch '/' :: (U ++ E) = []) &&
            strings.Contains (strings.Cut u.EscapedPath (bytes "/")).1 (bytes ":")) = false := by
          simp
        rw [if_neg (not_not.2 hO), hbne] at hstr
        simp only [Bool.false_eq_true, if_false] at hstr
        have hUform : U = [] ∨ ∃ ui, U = ui ++ [ch '@'] := by
          rw [← hU]
          cases u.User with
          | none => exact Or.inl rfl
          | some ui => exact Or.inr ⟨_, rfl⟩
        have hUsep : ∀ d ∈ U, d ≠ ch '/' ∧ d ≠ ch '?' ∧ d ≠ ch '#' := by
          intro d hd
          rw [← hU] at hd
          cases hu : u.User with
          | none =>
            rw [hu] at hd
            cases hd
          | some ui =>
            rw [hu] at hd
            rcases List.mem_append.1 hd with h | h
            · exact url.Userinfo.String_no_sep ui d h
            · simp only [List.mem_singleton] at h
              subst h
              decide
        have hEsep : ∀ d ∈ E, d ≠ ch '/' ∧ d ≠ ch '?' ∧ d ≠ ch '#' ∧ d ≠ ch '@' := by
          intro d hd
          rw [← hE] at hd
          split_ifs at hd
          · exact (sep_facts d).1 (url.escape_host_no_sep _ _ hd)
          · cases hd
        have hEub : url.unescapeBuild .encodeHost E = u.Host := by
          rw [← hE]
          split_ifs with hh
          · exact url.unescapeBuild_escape_host _
          · rw [not_not.1 hh]
            rfl
        have hAsep : ∀ d ∈ U ++ E, d ≠ ch '/' ∧ d ≠ ch '?' ∧ d ≠ ch '#' := by
          intro d hd
          rcases List.mem_append.1 hd with h | h
          · exact hUsep d h
          · exact ⟨(hEsep d h).1, (hEsep d h).2.1, (hEsep d h).2.2.1⟩
        have hBsep : ∀ d ∈ ch '/' :: ch '/' :: (U ++ E ++ u.EscapedPath),
            d ≠ ch '?' ∧ d ≠ ch '#' := by
          intro d hd
          simp only [List.mem_cons, List.mem_append] at hd
          rcases hd with rfl | rfl | (h | h) | h
          · decide
          · decide
          · exact (hUsep d h).2
          · exact ⟨(hEsep d h).2.1, (hEsep d h).2.2.1⟩
          · exact ⟨fun e => hEPq (e ▸ h), fun e => hEPh (e ▸ h)⟩
        refine ⟨ch '/' :: ch '/' :: (U ++ E ++ u.EscapedPath), Q, F, ?_, hQform, hQhash, hFform,
          fun hm => (hBsep _ hm).1 rfl, fun hm => (hBsep _ hm).2 rfl,
          fun _ => url.getScheme_slash_dot _ _ (Or.inl rfl), Or.inr ?_⟩
        · rw [hstr]
          simp only [List.append_assoc, List.cons_append]
        · refine ⟨U ++ E, u.EscapedPath, rfl, fun hm => (hAsep _ hm).1 rfl, ?_, ?_, ?_⟩
          · rcases hpath with ⟨_, h⟩ | ⟨_, h⟩
            · exact Or.inl h
            · exact Or.inr h
          · by_cases hs : u.Scheme = []
            · right
              rcases hW with h | h | h
              · rw [← hE, if_pos h]
                intro e
                exact (url.escape_head u.Host .encodeHost).1 h (List.append_eq_nil.1 e).2
              · rw [← hU]
                cases hu : u.User with
                | none => exact absurd hu h
                | some ui => simp
              · exact absurd hs h.1
            · exact Or.inl hs
          · intro user h1 hp
            have := url.parseAuthority_host U E user h1 (fun hm => (hEsep _ hm).2.2.2 rfl)
              hUform hp
            rw [url.parseHost_eq_unescapeBuild E h1 this, hEub]
      · have hH : u.Host = [] := by
          by_contra h
          exact hW1 (Or.inl h)
        have hP : u.Path = [] := by
          by_contra h
          exact hW1 (Or.inr (Or.inl h))
        have hUn : u.User = none := by
          by_contra h
          exact hW1 (Or.inr (Or.inr h))
        have hs : u.Scheme ≠ [] := by
          rcases hW with h | h | h
          · exact absurd hH h
          · exact absurd hUn h
          · exact h.1
        have hEP : u.EscapedPath = [] := by
          rcases hpath with ⟨_, h⟩ | ⟨h, _⟩
          · exact h
          · exact absurd hP h
        have hAuth : ([] : GoString) =
            (if u.Scheme ≠ [] || u.Host ≠ [] || u.User.isSome then
              if u.OmitHost && u.Host = [] && u.User.isNone then []
              else
                (if u.Host ≠ [] || u.Path ≠ [] || u.User.isSome then bytes "//" else []) ++
                (match u.User with
                  | some ui => ui.String ++ bytes "@"
                  | none => []) ++
                (if u.Host ≠ [] then url.escape u.Host .encodeHost else [])
            else []) := by
          rw [c1, c2]
          simp [hH, hP, hUn]
        have hBuf1 : S ++ [] =
            (if u.EscapedPath ≠ [] && u.EscapedPath.head? ≠ some (ch '/') && u.Host ≠ [] then
              S ++ [] ++ bytes "/"
            else S ++ []) := by
          rw [c4]
          simp only [Bool.false_eq_true, if_false]
        have hstr := url.URL.String_eq u S _ _ Q F hSeq hAuth hBuf1 hQeq hFeq
        have hbne : (decide (S ++ [] = []) &&
            strings.Contains (strings.Cut u.EscapedPath (bytes "/")).1 (bytes ":")) = false := by
          simp [hSne hs]
        rw [if_neg (not_not.2 hO), hbne, hEP] at hstr
        simp only [Bool.false_eq_true, if_false, List.append_nil] at hstr
        refine ⟨[], Q, F, ?_, hQform, hQhash, hFform, by simp, by simp,
          fun h0 => absurd h0 hs, Or.inl ⟨Or.inl (by decide), hH⟩⟩
        rw [hstr]
        simp
    · have hH : u.Host = [] := by
        by_contra h
        exact hW (Or.inl h)
      have hUn : u.User = none := by
        by_contra h
        exact hW (Or.inr (Or.inl h))
      have hso : u.Scheme = [] ∨ u.OmitHost = true := by
        by_cases hs : u.Scheme = []
        · exact Or.inl hs
        · right
          cases ho : u.OmitHost with
          | true => rfl
          | false => exact absurd (Or.inr (Or.inr ⟨hs, ho⟩)) hW
      have hAuth : ([] : GoString) =
          (if u.Scheme ≠ [] || u.Host ≠ [] || u.User.isSome then
            if u.OmitHost && u.Host = [] && u.User.isNone then []
            else
              (if u.Host ≠ [] || u.Path ≠ [] || u.User.isSome then bytes "//" else []) ++
              (match u.User with
                | some ui => ui.String ++ bytes "@"
                | none => []) ++
              (if u.Host ≠ [] then url.escape u.Host .encodeHost else [])
          else []) := by
        rcases hso with h | h
        · simp [h, hH, hUn]
        · simp [h, hH, hUn]
      have hBuf1 : S ++ [] =
          (if u.EscapedPath ≠ [] && u.EscapedPath.head? ≠ some (ch '/') && u.Host ≠ [] then
            S ++ [] ++ bytes "/"
          else S ++ []) := by
        simp [hH]
      have hstr := url.URL.String_eq u S _ _ Q F hSeq hAuth hBuf1 hQeq hFeq
      rw [if_neg (not_not.2 hO), List.append_nil] at hstr
      have hra : strings.HasPrefix u.EscapedPath (bytes "//") = false ∨
          strings.HasPrefix u.EscapedPath (bytes "///") = true := by
        unfold url.URL.pathReadsAsAuthority at hr
        have hc : (u.OmitHost || decide (u.Scheme = [])) = true := by
          rcases hso with h | h
          · simp [h]
          · simp [h]
        simp only [hO, hH, hUn, decide_True, Option.isNone_none, Bool.true_and, hc,
          Bool.and_eq_false_iff, Bool.not_eq_false'] at hr
        exact hr
      by_cases hs : u.Scheme = []
      · by_cases hdot : strings.Contains (strings.Cut u.EscapedPath (bytes "/")).1 (bytes ":")
            = true
        · have hb : (decide (S = []) &&
              strings.Contains (strings.Cut u.EscapedPath (bytes "/")).1 (bytes ":")) = true := by
            simp [hSnil hs, hdot]
          have hdots : bytes "./" = [ch '.', ch '/'] := by decide
          rw [hb, if_pos rfl, hdots] at hstr
          have hBsep : ∀ d ∈ ch '.' :: ch '/' :: u.EscapedPath, d ≠ ch '?' ∧ d ≠ ch '#' := by
            intro d hd
            simp only [List.mem_cons] at hd
            rcases hd with rfl | rfl | h
            · decide
            · decide
            · exact ⟨fun e => hEPq (e ▸ h), fun e => hEPh (e ▸ h)⟩
          refine ⟨ch '.' :: ch '/' :: u.EscapedPath, Q, F, ?_, hQform, hQhash, hFform,
            fun hm => (hBsep _ hm).1 rfl, fun hm => (hBsep _ hm).2 rfl,
            fun _ => url.getScheme_slash_dot _ _ (Or.inr rfl), Or.inl ⟨Or.inl ?_, hH⟩⟩
          · rw [hstr]
            simp only [List.append_assoc, List.cons_append, List.nil_append]
          · have hne : (ch '/' == ch '.') = false := by decide
            rw [strings.HasPrefix, bytes_separators.2.2.2.2.2.2.1]
            simp [List.isPrefixOf, hne]
        · have hdot0 : strings.Contains (strings.Cut u.EscapedPath (bytes "/")).1 (bytes ":")
              = false := by
            simpa using hdot
          rw [hdot0, Bool.and_false] at hstr
          simp only [Bool.false_eq_true, if_false] at hstr
          refine ⟨u.EscapedPath, Q, F, ?_, hQform, hQhash, hFform, hEPq, hEPh,
            fun _ => url.getScheme_no_colon _ _ hdot0 hQform, Or.inl ⟨?_, hH⟩⟩
          · rw [hstr]
            simp only [List.append_assoc]
          · rcases hra with h | h
            · exact Or.inl h
            · exact Or.inr ⟨hs, h⟩
      · have hb : (decide (S = []) &&
            strings.Contains (strings.Cut u.EscapedPath (bytes "/")).1 (bytes ":")) = false := by
          simp [hSne hs]
        rw [hb] at hstr
        simp only [Bool.false_eq_true, if_false] at hstr
        refine ⟨u.EscapedPath, Q, F, ?_, hQform, hQhash, hFform, hEPq, hEPh,
          fun h0 => absurd h0 hs, ?_⟩
        · rw [hstr]
          simp only [List.append_assoc]
        · rcases hra with h | h
          · exact Or.inl ⟨Or.inl h, hH⟩
          · right
            obtain ⟨r, hr3⟩ := (strings.HasPrefix_slashes _).2.1 h
            refine ⟨[], ch '/' :: r, by rw [hr3]; rfl, by simp, Or.inr rfl, Or.inl hs, ?_⟩
            intro user h1 hp
            have hnil : url.parseAuthority [] = .ok (none, []) := by rfl
            rw [hnil] at hp
            simp only [Except.ok.injEq, Prod.mk.injEq] at hp
            rw [hH, ← hp.2]

/-- The round trip that `urlFor` makes: a URL that `Parse` returned, written by
`String` and parsed again, keeps its scheme and its host, unless it has no authority
and its written path starts with exactly two slashes. -/
theorem url.Parse_String_scheme_host (raw : GoString) (u u1 : url.URL)
    (h : url.Parse raw = .ok u) (h1 : url.Parse u.String = .ok u1)
    (hr : u.pathReadsAsAuthority = false) :
    u1.Scheme = u.Scheme ∧ u1.Host = u.Host := by
  obtain ⟨hsch, hrq, hop, hwa⟩ := url.Parse_shape raw u h
  obtain ⟨B, Q, F, hstr, hQ, hQh, hF, hBq, hBh, hget, hhost⟩ :=
    url.URL.String_written u hrq hop hwa hr
  rw [hstr] at h1
  have hX : ch '#' ∉ (if u.Scheme = [] then [] else u.Scheme ++ [ch ':']) ++ (B ++ Q) := by
    intro hm
    rcases List.mem_append.1 hm with hm | hm
    · split_ifs at hm with h0
      · cases hm
      · rcases List.mem_append.1 hm with hm | hm
        · obtain ⟨_, hall⟩ := plainScheme_bytes u.Scheme (hsch.resolve_left h0)
          exact (schemeByte_facts _ (hall _ hm)).2.2.1 rfl
        · simp only [List.mem_singleton] at hm
          exact absurd hm (by decide)
    · rcases List.mem_append.1 hm with hm | hm
      · exact hBh hm
      · exact hQh hm
  obtain ⟨u0, hp, hu⟩ := url.Parse_written _ F u1 hX hF h1
  obtain ⟨e1, e2, e3⟩ := url.parse_written u.Scheme B Q u0 hsch hBq hQ hget hp
  have hS : u1.Scheme = u0.Scheme := by rw [hu]
  have hH : u1.Host = u0.Host := by rw [hu]
  refine ⟨by rw [hS, e1], ?_⟩
  rw [hH]
  rcases hhost with ⟨hc, hh⟩ | ⟨A, P, hB, hA, hP, hne, hau⟩
  · rw [e2 hc, hh]
  · obtain ⟨user, hpa⟩ := e3 A P hB hA hP hne
    exact hau user _ hpa

/-! ### `urlFor` -/

/-- C10 (as stated, refuted): `NewAPI` succeeds on `http:/%2Fexample.com/a b`; the
base it stores has scheme `http`, no host, and the path `//example.com/a b`.  Its
string form is `http://example.com/a%20b`, so the URL that `urlFor("/", "")` returns
has the host `example.com`, which is not the host of `api.BaseURL`. -/
theorem C10_counterexample_host_read_from_path :
    (urlForAfterNewAPI newMockClient (bytes "http:/%2Fexample.com/a b") (bytes "dummy-key")
        false (bytes "/") []).map (fun r => (r.1.Scheme, r.1.Host, r.1.Path)) =
      some (bytes "http", [], bytes "//example.com/a b") ∧
    (urlForAfterNewAPI newMockClient (bytes "http:/%2Fexample.com/a b") (bytes "dummy-key")
        false (bytes "/") []).map (fun r => (r.2.Scheme, r.2.Host, r.2.Path)) =
      some (bytes "http", bytes "example.com", bytes "/") ∧
    ([] : GoString) ≠ bytes "example.com" := by
  decide

/-- C10 (amended): for every API value, path `p` and query `q`: when `api.BaseURL`
is nil, or its string form does not parse, `urlFor(p, q)` panics; otherwise it
returns a pointer to a new URL object, which is the re-parsed string form of the base
with `Path` set to `p` and `RawQuery` set to `q`, and every object that existed
before the call, the one `api.BaseURL` points to among them, is unchanged.  When the
base is a URL that `url.Parse` returned for some string, as the base that `NewAPI`
stores is, the new URL has the scheme and the host of the base, unless the base has
no authority and its written path starts with exactly two slashes; when the base is
`scheme://host` with a plain scheme and host, the re-parsed base is the base. -/
theorem C10_urlFor_new_object_base_unchanged {T : MkrTypes} (api : API T) (h : Heap)
    (p q : GoString) :
    (h.deref api.BaseURL = none → api.urlFor h p q = none) ∧
    (∀ base e, h.deref api.BaseURL = some base → url.Parse base.String = .error e →
      api.urlFor h p q = none) ∧
    (∀ base u, h.deref api.BaseURL = some base → url.Parse base.String = .ok u →
      ∃ (a : Nat) (h1 : Heap),
        api.urlFor h p q = some (some a, h1) ∧
        h.urls[a]? = none ∧
        (∃ new, h1.deref (some a) = some new ∧
          new.Path = p ∧ new.RawQuery = q ∧ new = { u with Path := p, RawQuery := q } ∧
          (∀ raw, url.Parse raw = .ok base → base.pathReadsAsAuthority = false →
            new.Scheme = base.Scheme ∧ new.Host = base.Host)) ∧
        (∀ a0, a0 < h.urls.length → h1.urls[a0]? = h.urls[a0]?) ∧
        h1.deref api.BaseURL = some base ∧
        (∀ s host, plainScheme s = true → plainHost host = true →
          base = { Scheme := s, Host := host } → u = base)) := by
  refine ⟨?_, ?_, ?_⟩
  · intro hb
    simp [API.urlFor, hb]
  · intro base e hb hp
    have hP : h.Parse base.String = ((none, .urlError e), h) := by simp [Heap.Parse, hp]
    unfold API.urlFor
    rw [hb]
    simp only [hP]
    rfl
  · intro base u hb hp
    refine ⟨h.urls.length, _, API.urlFor_eq api h p q base u hb hp, by simp,
      ⟨_, Heap.deref_last _ _, rfl, rfl, rfl, ?_⟩, ?_, ?_, ?_⟩
    · intro raw hraw hr
      exact url.Parse_String_scheme_host raw base u hraw hp hr
    · intro a0 ha0
      exact List.getElem?_append_left ha0
    · cases hptr : api.BaseURL with
      | none => simp [Heap.deref, hptr] at hb
      | some a0 =>
        simp only [Heap.deref, hptr] at hb ⊢
        change h.urls[a0]? = some base at hb
        change (h.urls ++ _)[a0]? = some base
        have hlt : a0 < h.urls.length := by
          rcases Nat.lt_or_ge a0 h.urls.length with hlt | hge
          · exact hlt
          · rw [List.getElem?_eq_none hge] at hb
            cases hb
        rw [List.getElem?_append_left hlt]
        exact hb
    · intro s host hs hh hbase
      subst hbase
      rw [url.Parse_String_plain s host hs hh] at hp
      cases hp
      rfl

/-- C10 (amended), at the facade that `NewAPI` builds from
`https://user@example.com:8443/api` on an empty heap, a base with user info, a port
and a path: `urlFor("/path/to/api", "a=1")` returns a new object with the given path
and query and with the scheme and the host of the base, and the base is unchanged. -/
theorem C10_urlFor_witness :
    ∃ (api : API exampleTypes) (h : Heap) (a : Nat) (h1 : Heap),
      NewAPI newMockClient ⟨[]⟩ (bytes "https://user@example.com:8443/api")
        (bytes "dummy-key") false = ((some api, .nil), h) ∧
      h.deref api.BaseURL = some userBase ∧
      api.urlFor h (bytes "/path/to/api") (bytes "a=1") = some (some a, h1) ∧
      h.urls[a]? = none ∧
      (∃ new, h1.deref (some a) = some new ∧
        new.Path = bytes "/path/to/api" ∧ new.RawQuery = bytes "a=1" ∧
        new.Scheme = bytes "https" ∧ new.Host = bytes "example.com:8443") ∧
      h1.deref api.BaseURL = some userBase := by
  have hparse : url.Parse (bytes "https://user@example.com:8443/api") = .ok userBase := by rfl
  have hre : url.Parse userBase.String = .ok userBase := by rfl
  have hnew := NewAPI_eq newMockClient ⟨[]⟩ (bytes "https://user@example.com:8443/api")
    (bytes "dummy-key") false userBase (some mockClient) hparse rfl
  have hb : Heap.deref ⟨[] ++ [userBase]⟩ (some ([] : List url.URL).length) = some userBase :=
    Heap.deref_last [] userBase
  obtain ⟨a, h1, e1, e2, ⟨new, e3, e4, e5, _, e6⟩, _, e7, _⟩ :=
    (C10_urlFor_new_object_base_unchanged
      { BaseURL := some ([] : List url.URL).length, APIKey := bytes "dummy-key",
        Verbose := false, c := some mockClient }
      ⟨[] ++ [userBase]⟩ (bytes "/path/to/api") (bytes "a=1")).2.2 userBase userBase hb hre
  obtain ⟨e8, e9⟩ := e6 _ hparse (by decide)
  exact ⟨_, _, a, h1, hnew, hb, e1, e2, ⟨new, e3, e4, e5, e8, e9⟩, e7⟩

/-- The panic of `urlFor` can be reached from `NewAPI`: the base that it stores for
`http://[fe80::1%25é]/`, an IPv6 literal whose zone holds a byte that is not ASCII,
is written as `http://[fe80::1%25%C3%A9]/`, which `url.Parse` rejects. -/
theorem urlFor_panics_on_unreadable_zone :
    (baseURLString newMockClient (bytes "http://[fe80::1%25é]/") (bytes "dummy-key") false) =
      some (bytes "http://[fe80::1%25%C3%A9]/") ∧
    urlForAfterNewAPI newMockClient (bytes "http://[fe80::1%25é]/") (bytes "dummy-key")
      false (bytes "/") [] = none := by
  decide

/-! ### The header of the request `do` sends -/

/-- The values under any name after lines 119-127 of `do`: under `User-Agent` the
one value `getUA`; under any other name the values of the incoming request, then
those of the default headers, then under `X-Api-Key` the key. -/
theorem API.doHeader_lookup {T : MkrTypes} (api : API T) (header : http.Header)
    (key : GoString) :
    (api.doHeader header).lookup key =
      if key = bytes "User-Agent" then [api.getUA]
      else header.lookup key ++ api.defaultValues key ++
        (if key = bytes "X-Api-Key" then [api.APIKey] else []) := by
  obtain ⟨h1, h2, _⟩ := canonical_api_key_user_agent
  have hmerge : (match api.DefaultHeaders with
      | none => header
      | some dh =>
        dh.entries.foldl
          (fun (h : http.Header) (e : GoString × List GoString) =>
            e.2.foldl (fun (h : http.Header) (v : GoString) => h.Add e.1 v) h)
          header).lookup key = header.lookup key ++ api.defaultValues key := by
    unfold API.defaultValues
    cases api.DefaultHeaders with
    | none => simp
    | some dh => simp [http.Header.lookup_foldl_entries]
  unfold API.doHeader
  simp only [http.Header.lookup_Set, http.Header.lookup_Add, h1, h2, hmerge]
  by_cases hua : key = bytes "User-Agent"
  · simp [hua]
  · by_cases hk : key = bytes "X-Api-Key"
    · simp [hk]
    · simp [hua, hk]

/-- The values of an entry of the default headers stand together, in order, among
the default values under the canonical form of its name. -/
theorem API.defaultValues_contains {T : MkrTypes} (api : API T) (dh : http.Header)
    (k : GoString) (vs : List GoString) (hdh : api.DefaultHeaders = some dh)
    (hmem : (k, vs) ∈ dh.entries) :
    ∃ before after,
      api.defaultValues (CanonicalMIMEHeaderKey k) = before ++ vs ++ after := by
  obtain ⟨a, b, hab⟩ := List.append_of_mem hmem
  refine ⟨(a.filter (fun e => CanonicalMIMEHeaderKey e.1 = CanonicalMIMEHeaderKey k)).flatMap
      (fun e => e.2),
    (b.filter (fun e => CanonicalMIMEHeaderKey e.1 = CanonicalMIMEHeaderKey k)).flatMap
      (fun e => e.2), ?_⟩
  unfold API.defaultValues
  simp [hdh, hab, List.filter_append, List.filter_cons]

/-- When the names of the default headers are distinct (as the keys of a map are) and
one name alone has its canonical form, the default values under that form are the
values of that name. -/
theorem API.defaultValues_eq {T : MkrTypes} (api : API T) (dh : http.Header)
    (k : GoString) (vs : List GoString) (hdh : api.DefaultHeaders = some dh)
    (hmem : (k, vs) ∈ dh.entries) (hnodup : (dh.entries.map (fun e => e.1)).Nodup)
    (honly : ∀ e ∈ dh.entries, CanonicalMIMEHeaderKey e.1 = CanonicalMIMEHeaderKey k → e.1 = k) :
    api.defaultValues (CanonicalMIMEHeaderKey k) = vs := by
  obtain ⟨a, b, hab⟩ := List.append_of_mem hmem
  rw [hab] at hnodup honly
  rw [List.map_append, List.map_cons, List.nodup_append, List.nodup_cons] at hnodup
  obtain ⟨_, ⟨hkb, _⟩, hdisj⟩ := hnodup
  have hnone : ∀ l : List (GoString × List GoString), (∀ e ∈ l, e ∈ a ++ (k, vs) :: b) →
      (∀ e ∈ l, e.1 ≠ k) →
      l.filter (fun e => CanonicalMIMEHeaderKey e.1 = CanonicalMIMEHeaderKey k) = [] := by
    intro l hsub hne
    rw [List.filter_eq_nil_iff]
    intro e he hc
    exact hne e he (honly e (hsub e he) (by simpa using hc))
  have ha : a.filter (fun e => CanonicalMIMEHeaderKey e.1 = CanonicalMIMEHeaderKey k) = [] := by
    apply hnone a (fun e he => by simp [he])
    intro e he hek
    exact hdisj (List.mem_map.2 ⟨e, he, hek⟩) (List.mem_cons_self _ _)
  have hb : b.filter (fun e => CanonicalMIMEHeaderKey e.1 = CanonicalMIMEHeaderKey k) = [] := by
    apply hnone b (fun e he => by simp [he])
    intro e he hek
    exact hkb (List.mem_map.2 ⟨e, he, hek⟩)
  unfold API.defaultValues
  simp [hdh, hab, List.filter_append, List.filter_cons, ha, hb]

/-- C11 (as stated, refuted): with the default header `User-Agent: custom-agent/1.0`
and a request that has no `User-Agent`, the request `do` sends holds under
`User-Agent` only the fallback user agent: the default value is not preserved. -/
theorem C11_counterexample_default_user_agent_replaced :
    apiWithDefaultUA.DefaultHeaders =
      some ⟨[(bytes "User-Agent", [bytes "custom-agent/1.0"])]⟩ ∧
    getRoot.Header.lookup (bytes "User-Agent") = [] ∧
    (sentRequests (API.do okEnv apiWithDefaultUA getRoot).1).map
      (fun r => r.Header.lookup (bytes "User-Agent")) = [[bytes "mackerel-agent/0.0.0"]] ∧
    [bytes "mackerel-agent/0.0.0"] ≠ ([] : List GoString) ++ [bytes "custom-agent/1.0"] := by
  decide

/-- C11 (amended): `do` sends one request.  Under every name other than `User-Agent`
it holds the values the incoming request had, followed by the values of the default
headers whose names have that canonical form, in `range` order (followed, under
`X-Api-Key`, by the key): default values are appended and none replaces an existing
value.  The values `vs` of a default header `k` stand together and in order among
them, under the canonical form of `k`; when the names of the default headers are
distinct, `k` alone has its canonical form and that form is neither `User-Agent` nor
`X-Api-Key`, the request holds there exactly its prior values followed by `vs`. -/
theorem C11_default_headers_appended {T : MkrTypes} (env : Env) (api : API T)
    (req : http.Request) :
    ∃ sent : http.Request,
      sentRequests (api.do env req).1 = [sent] ∧
      (∀ key, key ≠ bytes "User-Agent" →
        sent.Header.lookup key =
          req.Header.lookup key ++ api.defaultValues key ++
            (if key = bytes "X-Api-Key" then [api.APIKey] else [])) ∧
      (∀ dh k vs, api.DefaultHeaders = some dh → (k, vs) ∈ dh.entries →
        ∃ before after,
          api.defaultValues (CanonicalMIMEHeaderKey k) = before ++ vs ++ after) ∧
      (∀ dh k vs, api.DefaultHeaders = some dh → (k, vs) ∈ dh.entries →
        (dh.entries.map (fun e => e.1)).Nodup →
        (∀ e ∈ dh.entries,
          CanonicalMIMEHeaderKey e.1 = CanonicalMIMEHeaderKey k → e.1 = k) →
        CanonicalMIMEHeaderKey k ≠ bytes "User-Agent" →
        CanonicalMIMEHeaderKey k ≠ bytes "X-Api-Key" →
        sent.Header.lookup (CanonicalMIMEHeaderKey k) =
          req.Header.lookup (CanonicalMIMEHeaderKey k) ++ vs) := by
  refine ⟨_, API.do_sentRequests env api req, ?_, ?_, ?_⟩
  · intro key hkey
    simp only [API.doHeader_lookup, if_neg hkey]
  · intro dh k vs hdh hmem
    exact API.defaultValues_contains api dh k vs hdh hmem
  · intro dh k vs hdh hmem hnodup honly hua hkey
    simp only [API.doHeader_lookup, if_neg hua, if_neg hkey, List.append_nil,
      API.defaultValues_eq api dh k vs hdh hmem hnodup honly]

/-- C11 (amended), at the default header `X-Custom: a, b` and a request that holds
`X-Custom: p`: the request sent holds `p`, `a`, `b` under `X-Custom`. -/
theorem C11_default_headers_witness :
    ∃ sent : http.Request,
      sentRequests (API.do okEnv apiWithDefaultCustom getRootWithCustom).1 = [sent] ∧
      sent.Header.lookup (bytes "X-Custom") = [bytes "p", bytes "a", bytes "b"] := by
  obtain ⟨sent, h1, h2, _, _⟩ :=
    C11_default_headers_appended okEnv apiWithDefaultCustom getRootWithCustom
  refine ⟨sent, h1, ?_⟩
  rw [h2 (bytes "X-Custom") (by decide)]
  decide

/-- C12: `do` sends one request, and under `User-Agent` it holds exactly one value,
whatever the incoming request and the default headers held there: `api.UA` when the
caller has set a non-empty `UA`, the fallback `mackerel-agent/0.0.0` when `api.UA` is
empty; `Header.Get` reads that value. -/
theorem C12_do_sets_one_user_agent {T : MkrTypes} (env : Env) (api : API T)
    (req : http.Request) :
    ∃ sent : http.Request,
      sentRequests (api.do env req).1 = [sent] ∧
      sent.Header.lookup (bytes "User-Agent") = [api.getUA] ∧
      sent.Header.Get (bytes "User-Agent") = api.getUA ∧
      (api.UA ≠ [] → api.getUA = api.UA) ∧
      (api.UA = [] → api.getUA = bytes "mackerel-agent/0.0.0") := by
  have hl : (api.doHeader req.Header).lookup (bytes "User-Agent") = [api.getUA] := by
    simp only [API.doHeader_lookup, if_true]
  refine ⟨_, API.do_sentRequests env api req, hl, ?_, ?_, ?_⟩
  · simp only [http.Header.Get, canonical_api_key_user_agent.2.1, hl]
  · intro h
    simp [API.getUA, h]
  · intro h
    simp [API.getUA, h]

/-- C12, at a facade whose caller set the user agent `mackerel-agent/0.72.1` and a
request that came with `User-Agent: Go-http-client/1.1`: the request sent holds the
caller's user agent alone. -/
theorem C12_user_agent_witness :
    ∃ sent : http.Request,
      sentRequests (API.do okEnv apiWithUA getRootWithUA).1 = [sent] ∧
      getRootWithUA.Header.lookup (bytes "User-Agent") = [bytes "Go-http-client/1.1"] ∧
      sent.Header.lookup (bytes "User-Agent") = [bytes "mackerel-agent/0.72.1"] := by
  obtain ⟨sent, h1, h2, _, h4, _⟩ := C12_do_sets_one_user_agent okEnv apiWithUA getRootWithUA
  refine ⟨sent, h1, by decide, ?_⟩
  rw [h2, h4 (by decide)]
  rfl

end mackerel
